import Mathlib

set_option autoImplicit false

/-!
Verification of the red-black tree repository (`rb::Tree`).

The development shallowly embeds the two tree variants of the repository:

* `RB` — the sentinel-based tree of `src/source/rb_tree.hpp` (used by the
  command interpreter of `src/unnamed/part_004`).  The shared `nil_` sentinel
  is represented by the `nil` constructor; `color_of(nil_) = BLACK` holds by
  definition of `rootColor`.
* `RBA` — the subtree-size augmented tree of `src/unnamed/part_003`
  (defined later in this file).

Parent pointers are a non-owning back-reference used by the code only to walk
from a node towards the root.  The embedding therefore represents a node
together with its parent chain as a subtree in focus plus a zipper path: one
`Frame` per ancestor, recording on which side the focused subtree hangs
(`d`), the ancestor's color and value, and the ancestor's other child.  The
fix-up loops of the source, which climb via `parent()`, become structural
recursion on that path.
-/

namespace RB

/-- Node colors, `NodeBase<T>::Color` in rb_tree.hpp. -/
inductive Color where
  | red
  | black
  deriving DecidableEq, Repr

/-- The tree shape: `nil` stands for the sentinel `nil_` (every absent child),
`node c l v r` for a `Node<T>` with color `c`, children `l`, `r` and value
`v`.  Keys are `Int`, matching the instantiations `Tree<int>` /
`Tree<long long>` used by the repository. -/
inductive STree where
  | nil
  | node (c : Color) (l : STree) (v : Int) (r : STree)
  deriving DecidableEq, Repr

/-- `color_of`: color of a node, the sentinel counting BLACK
(rb_tree.hpp lines 305-308). -/
def rootColor : STree → Color
  | .nil => .black
  | .node c _ _ _ => c

/-- The check `x != nil && x->color() == RED` used by the validator. -/
def rootRed (t : STree) : Bool := rootColor t == .red

/-- `node->set_color(BLACK)` applied to the subtree root.  On the sentinel the
write is observationally a no-op (the sentinel is restored to BLACK and is
never a reachable node). -/
def blacken : STree → STree
  | .nil => .nil
  | .node _ l v r => .node .black l v r

/-- A guarded `set_color(RED)` on the subtree root (`if (!is_nil(n)) ...`). -/
def redden : STree → STree
  | .nil => .nil
  | .node _ l v r => .node .red l v r

/-- `left_child()`; the sentinel's children are the sentinel itself. -/
def leftChild : STree → STree
  | .nil => .nil
  | .node _ l _ _ => l

/-- `right_child()`; the sentinel's children are the sentinel itself. -/
def rightChild : STree → STree
  | .nil => .nil
  | .node _ _ _ r => r

/-- `subtree_size` (rb_tree.hpp lines 734-740): recursive node count. -/
def subtree_size : STree → Nat
  | .nil => 0
  | .node _ l _ r => 1 + subtree_size l + subtree_size r

/-- `size()` (rb_tree.hpp line 231). -/
def size (t : STree) : Nat := subtree_size t

/-- The `exists` flag of `locate` (rb_tree.hpp lines 320-341): the BST
descent comparing only with `<`. -/
def locateExists : STree → Int → Bool
  | .nil, _ => false
  | .node _ l v r, x =>
    if x < v then locateExists l x
    else if v < x then locateExists r x
    else true

/-- Which child of its parent a node is. -/
inductive Dir where
  | left
  | right
  deriving DecidableEq, Repr

/-- One ancestor on the parent chain: the focused subtree is the `d` child of
a node with color `c` and value `v` whose other child is `sib`. -/
structure Frame where
  d : Dir
  c : Color
  v : Int
  sib : STree
  deriving DecidableEq, Repr

/-- The full parent chain from a position up to the root (head = immediate
parent). -/
abbrev Path := List Frame

/-- Rebuild the parent node from its frame and the focused subtree. -/
def frameNode (f : Frame) (t : STree) : STree :=
  match f.d with
  | .left => .node f.c t f.v f.sib
  | .right => .node f.c f.sib f.v t

/-- Reassemble the whole tree from a focused subtree and its parent chain. -/
def plug : STree → Path → STree
  | t, [] => t
  | t, f :: p => plug (frameNode f t) p

/-- The descent of `locate` as used by `insert` (rb_tree.hpp lines 145-151,
320-341): returns the parent chain of the sentinel position where `x` belongs,
or `none` when an equal value already exists. -/
def locateIns : STree → Int → Path → Option Path
  | .nil, _, acc => some acc
  | .node c l v r, x, acc =>
    if x < v then locateIns l x (⟨.left, c, v, r⟩ :: acc)
    else if v < x then locateIns r x (⟨.right, c, v, l⟩ :: acc)
    else none

/-- The descent of `locate` as used by `erase`: the subtree rooted at the
node holding `x` plus its parent chain, or `none` when absent. -/
def locateDel : STree → Int → Path → Option (STree × Path)
  | .nil, _, _ => none
  | .node c l v r, x, acc =>
    if x < v then locateDel l x (⟨.left, c, v, r⟩ :: acc)
    else if v < x then locateDel r x (⟨.right, c, v, l⟩ :: acc)
    else some (.node c l v r, acc)

/-- `insert_case5` (rb_tree.hpp lines 462-476): the parent is recolored
BLACK, the grandparent RED, then an outer rotation around the grandparent
when parent and node are aligned.  `t` is the current node's subtree, `f` the
parent frame, `g` the grandparent frame, `p` the chain above the
grandparent. -/
def insertCase5 (t : STree) (f g : Frame) (p : Path) : STree :=
  match f.d, g.d with
  | .left, .left => plug (.node .black t f.v (.node .red f.sib g.v g.sib)) p
  | .right, .right => plug (.node .black (.node .red g.sib g.v f.sib) f.v t) p
  | .left, .right => plug (.node .red g.sib g.v (.node .black t f.v f.sib)) p
  | .right, .left => plug (.node .red (.node .black f.sib f.v t) g.v g.sib) p

/-- `insert_case4` (rb_tree.hpp lines 445-460): an inner ("zig-zag") child is
first straightened by a rotation around the parent, the current node moving
to its former child.  The impossible shapes (the current node is always a
real node; `rotate_*` asserts a real pivot) fall through unchanged. -/
def insertCase4 (t : STree) (f g : Frame) (p : Path) : STree :=
  match f.d, g.d, t with
  | .right, .left, .node tc tl tv tr =>
    insertCase5 (.node f.c f.sib f.v tl) ⟨.left, tc, tv, tr⟩ g p
  | .left, .right, .node tc tl tv tr =>
    insertCase5 (.node f.c tr f.v f.sib) ⟨.right, tc, tv, tl⟩ g p
  | _, _, _ => insertCase5 t f g p

/-- `insert_case1` … `insert_case3` (rb_tree.hpp lines 413-443): at the root
recolor BLACK; under a BLACK parent stop; under a RED parent with a RED uncle
recolor parent and uncle BLACK and the grandparent RED and continue from the
grandparent; otherwise fall to `insert_case4`.  A RED parent that is the root
cannot arise from a valid tree; there the function stops like the
null-checked variant of the same algorithm (part_003 lines 605-610) — the
sentinel variant would additionally repaint its (unreachable) sentinel. -/
def insertFixup : STree → Path → STree
  | t, [] => blacken t
  | t, f :: p =>
    if f.c = .black then plug t (f :: p)
    else
      match p with
      | [] => plug t [f]
      | g :: p' =>
        if rootRed g.sib then
          insertFixup
            (match g.d with
             | .left => .node .red (frameNode { f with c := Color.black } t) g.v (blacken g.sib)
             | .right => .node .red (blacken g.sib) g.v (frameNode { f with c := Color.black } t))
            p'
        else insertCase4 t f g p'

/-- `insert` (rb_tree.hpp lines 144-168): locate; fail on duplicate; link a
new RED leaf under the found parent; fix up. -/
def insert (t : STree) (x : Int) : Bool × STree :=
  match locateIns t x [] with
  | none => (false, t)
  | some p => (true, insertFixup (.node .red .nil x .nil) p)

/-- Extraction of the in-order successor from a (two-children) node's right
subtree, covering `minimum` plus the successor relinking of
`detach_erase_target` (rb_tree.hpp lines 478-484, 510-529): returns the
successor's color and value, its right child `x` (the node the fix-up starts
from), and the parent chain of `x`'s new position inside the remaining right
subtree. -/
def delMin : STree → Color × Int × STree × Path
  | .nil => (.black, 0, .nil, [])
  | .node c .nil v r => (c, v, r, [])
  | .node c (.node lc ll lv lr) v r =>
    let (mc, mv, x, ip) := delMin (.node lc ll lv lr)
    (mc, mv, x, ip ++ [⟨.left, c, v, r⟩])

/-- `detach_erase_target` (rb_tree.hpp lines 498-533): splice out a node with
at most one child directly; otherwise relocate the in-order successor into
its place (inheriting its color) and remove the successor's old position.
Returns the removed color, the fix-up node and its parent chain. -/
def detach (c : Color) (l : STree) (_v : Int) (r : STree) (p : Path) :
    Color × STree × Path :=
  match l, r with
  | .nil, _ => (c, r, p)
  | _, .nil => (c, l, p)
  | _, _ =>
    let (mc, mv, x, ip) := delMin r
    (mc, x, ip ++ ⟨.right, c, mv, l⟩ :: p)

/-- Result of one iteration of the `erase_fixup` loop, relative to the
position of the parent of the double-black node: `cont` continues the loop
one level up, `finishLocal` ends by blackening a RED node in place,
`finishRoot` ends after the terminal rotation (the loop then repaints the
root BLACK). -/
inductive StepRes where
  | cont (t : STree)
  | finishLocal (t : STree)
  | finishRoot (t : STree)

/-- The terminal case of `erase_fixup_left` (rb_tree.hpp lines 582-590):
sibling takes the parent's color, parent and the sibling's far (right) child
turn BLACK, left-rotate at the parent.  The sibling is a real node whenever
this is reached from a valid state. -/
def eraseCase4L (t : STree) (pc : Color) (pv : Int) (s : STree) : STree :=
  match s with
  | .nil => .node pc t pv .nil
  | .node _ sl sv sr => .node pc (.node .black t pv sl) sv (blacken sr)

/-- Cases 2-4 of `erase_fixup_left` (rb_tree.hpp lines 561-590), entered with
a non-RED sibling `s`: if both of the sibling's children are BLACK, recolor
the sibling RED and report `(true, rebuilt parent)` (the double black moves
up); if the far child is BLACK, straighten at the sibling first; then the
terminal case.  The fall-through for an impossible shape (straightening needs
a RED near child, which is a real node) applies the terminal case
unchanged. -/
def eraseCasesL (t : STree) (pc : Color) (pv : Int) (s : STree) : Bool × STree :=
  if rootColor (leftChild s) = .black ∧ rootColor (rightChild s) = .black then
    (true, .node pc t pv (redden s))
  else
    match s with
    | .nil => (true, .node pc t pv .nil)
    | .node _ sl sv sr =>
      if rootColor sr = .black then
        match sl with
        | .nil => (false, eraseCase4L t pc pv (.node .black .nil sv sr))
        | .node _ sll slv slr =>
          (false, eraseCase4L t pc pv (.node .black sll slv (.node .red slr sv sr)))
      else (false, eraseCase4L t pc pv s)

/-- Mirror terminal case of `erase_fixup_right` (rb_tree.hpp lines 626-634). -/
def eraseCase4R (t : STree) (pc : Color) (pv : Int) (s : STree) : STree :=
  match s with
  | .nil => .node pc .nil pv t
  | .node _ sl sv sr => .node pc (blacken sl) sv (.node .black sr pv t)

/-- Cases 2-4 of `erase_fixup_right` (rb_tree.hpp lines 605-634). -/
def eraseCasesR (t : STree) (pc : Color) (pv : Int) (s : STree) : Bool × STree :=
  if rootColor (rightChild s) = .black ∧ rootColor (leftChild s) = .black then
    (true, .node pc (redden s) pv t)
  else
    match s with
    | .nil => (true, .node pc .nil pv t)
    | .node _ sl sv sr =>
      if rootColor sl = .black then
        match sr with
        | .nil => (false, eraseCase4R t pc pv (.node .black sl sv .nil))
        | .node _ srl srv srr =>
          (false, eraseCase4R t pc pv (.node .black (.node .red sl sv srl) srv srr))
      else (false, eraseCase4R t pc pv s)

/-- `erase_fixup_left` (rb_tree.hpp lines 549-591) including the RED-sibling
case 1: recolor sibling BLACK and parent RED, left-rotate at the parent, and
continue with the new (BLACK) sibling; a subsequent case 2 then exits the
loop at the now-RED parent, which is painted BLACK in place. -/
def eraseStepL (t : STree) (pc : Color) (pv : Int) (s : STree) : StepRes :=
  match s with
  | .node .red sl sv sr =>
    match eraseCasesL t .red pv sl with
    | (true, t') => .finishLocal (.node .black (blacken t') sv sr)
    | (false, S) => .finishRoot (.node .black S sv sr)
  | _ =>
    match eraseCasesL t pc pv s with
    | (true, t') => .cont t'
    | (false, S) => .finishRoot S

/-- `erase_fixup_right` (rb_tree.hpp lines 593-635) including case 1. -/
def eraseStepR (t : STree) (pc : Color) (pv : Int) (s : STree) : StepRes :=
  match s with
  | .node .red sl sv sr =>
    match eraseCasesR t .red pv sr with
    | (true, t') => .finishLocal (.node .black sl sv (blacken t'))
    | (false, S) => .finishRoot (.node .black sl sv S)
  | _ =>
    match eraseCasesR t pc pv s with
    | (true, t') => .cont t'
    | (false, S) => .finishRoot S

/-- `erase_fixup` (rb_tree.hpp lines 637-648): climb while the current node
is a non-root BLACK node, dispatching on which child it is; on exit paint the
current node (or, after a terminal rotation, the root) BLACK. -/
def eraseFixup : STree → Path → STree
  | t, [] => blacken t
  | t, f :: p =>
    if rootColor t = .red then plug (blacken t) (f :: p)
    else
      match (match f.d with
             | .left => eraseStepL t f.c f.v f.sib
             | .right => eraseStepR t f.c f.v f.sib) with
      | .cont t' => eraseFixup t' p
      | .finishLocal S => plug S p
      | .finishRoot S => blacken (plug S p)

/-- `erase` (rb_tree.hpp lines 170-184) with `finalize_erase` (lines
535-547): locate, fail when absent; detach; fix up when the removed color was
BLACK; finally force the root BLACK. -/
def erase (t : STree) (x : Int) : Bool × STree :=
  match locateDel t x [] with
  | none => (false, t)
  | some (.nil, _) => (false, t)
  | some (.node c l v r, p) =>
    let (rc, fx, fp) := detach c l v r p
    let t' := if rc = .black then eraseFixup fx fp else plug fx fp
    (true, blacken t')

/-- `validate_subtree` (rb_tree.hpp lines 650-687): returns the black height
(sentinel = 1) or `none` at the first violation (a RED node with a RED child,
or differing black heights below). -/
def validate_subtree : STree → Option Nat
  | .nil => some 1
  | .node c l _ r =>
    if c = .red ∧ (rootRed l ∨ rootRed r) then none
    else
      match validate_subtree l, validate_subtree r with
      | some lb, some rb =>
        if lb = rb then some (lb + (if c = .black then 1 else 0)) else none
      | _, _ => none

/-- `is_valid` (rb_tree.hpp lines 186-201): the empty tree checks the
sentinel's color (BLACK by representation); otherwise the root must be BLACK
and the recursive validation must succeed. -/
def is_valid : STree → Bool
  | .nil => true
  | .node c l v r => c == .black && (validate_subtree (.node c l v r)).isSome

/-- `order_statistics` (rb_tree.hpp lines 714-732): in-order index of the
value `x` stored in the tree, accumulated during a descent from the root. -/
def order_statistics : STree → Int → Nat
  | .nil, _ => 0
  | .node _ l v r, x =>
    if x < v then order_statistics l x
    else if v < x then subtree_size l + 1 + order_statistics r x
    else subtree_size l

/-- The `candidate` of `rank_lower_bound` (rb_tree.hpp lines 234-252): the
last node at which the descent went left, i.e. the least stored value `≥ x`. -/
def rank_lower_candidate : STree → Int → Option Int
  | .nil, _ => none
  | .node _ l v r, x =>
    if v < x then rank_lower_candidate r x
    else some ((rank_lower_candidate l x).getD v)

/-- `rank_lower_bound` (rb_tree.hpp lines 233-252): index of the first
element `≥ x`, or `size()` when there is none. -/
def rank_lower_bound (t : STree) (x : Int) : Nat :=
  match rank_lower_candidate t x with
  | none => size t
  | some w => order_statistics t w

/-- The `candidate` of `rank_upper_bound` (rb_tree.hpp lines 255-273): the
least stored value `> x`. -/
def rank_upper_candidate : STree → Int → Option Int
  | .nil, _ => none
  | .node _ l v r, x =>
    if x < v then some ((rank_upper_candidate l x).getD v)
    else rank_upper_candidate r x

/-- `rank_upper_bound` (rb_tree.hpp lines 254-273): index of the first
element `> x`, or `size()` when there is none. -/
def rank_upper_bound (t : STree) (x : Int) : Nat :=
  match rank_upper_candidate t x with
  | none => size t
  | some w => order_statistics t w

/-- `SIZE_MAX`, the `std::numeric_limits<size_t>::max()` sentinel on the
64-bit targets the repository builds for. -/
def SIZE_MAX : Nat := 2 ^ 64 - 1

/-- `distance` (rb_tree.hpp lines 203-219): `SIZE_MAX` when either endpoint
is absent, else the difference of the two `rank_lower_bound`s clamped at 0. -/
def distance (t : STree) (first second : Int) : Nat :=
  if locateExists t first && locateExists t second then
    let fr := rank_lower_bound t first
    let sr := rank_lower_bound t second
    if sr ≤ fr then 0 else sr - fr
  else SIZE_MAX

/-- `distance_from_root` (rb_tree.hpp lines 221-228). -/
def distance_from_root (t : STree) (x : Int) : Nat :=
  if locateExists t x then rank_lower_bound t x else SIZE_MAX

/-- In-order traversal of the stored values. -/
def toList : STree → List Int
  | .nil => []
  | .node _ l v r => toList l ++ v :: toList r

end RB

namespace RBCli

/-- One well-formed command of the interpreter's token stream
(`src/unnamed/part_004`): `k <n>` or `q <l> <r>`. -/
inductive Cmd where
  | key (n : Int)
  | query (l r : Int)
  deriving DecidableEq, Repr

/-- `handle_query` (part_004 lines 11-31): for `right > left` emit
`rank_upper_bound(right) - rank_upper_bound(left)` (clamped at 0), else 0. -/
def handle_query (t : RB.STree) (l r : Int) : Nat :=
  if l < r then
    let rr := RB.rank_upper_bound t r
    let lr := RB.rank_upper_bound t l
    if lr < rr then rr - lr else 0
  else 0

/-- The command loop of `rb::run_cli` (part_004 lines 35-69) on a
well-formed command stream: `k` inserts (ignoring the duplicate flag), `q`
emits one count. -/
def run_cli : List Cmd → RB.STree → List Nat
  | [], _ => []
  | .key n :: cs, t => run_cli cs (RB.insert t n).2
  | .query l r :: cs, t => handle_query t l r :: run_cli cs t

/-- `run_cli` started on the empty tree, as the interpreter does. -/
def cli (cs : List Cmd) : List Nat := run_cli cs .nil

end RBCli

namespace RB

/-! ### Red-black validity

`IsRB t n` is the structural property that `validate_subtree` checks: no RED
node has a RED child and every path to a sentinel passes the same number of
BLACK nodes, `n` being the black height with the sentinel counting 1. -/

/-- Structural red-black validity with black height (sentinel = 1). -/
inductive IsRB : STree → Nat → Prop where
  | nil : IsRB .nil 1
  | black {l r : STree} {v : Int} {n : Nat} :
      IsRB l n → IsRB r n → IsRB (.node .black l v r) (n + 1)
  | red {l r : STree} {v : Int} {n : Nat} :
      IsRB l n → IsRB r n → rootColor l = .black → rootColor r = .black →
      IsRB (.node .red l v r) n

theorem IsRB.one_le {t : STree} {n : Nat} (h : IsRB t n) : 1 ≤ n := by
  induction h <;> omega

/-- The head of the parent chain (the immediate parent) is BLACK; `False` for
the root position. -/
def headBlack : Path → Prop
  | [] => False
  | f :: _ => f.c = .black

/-- Validity of a parent chain around a hole expecting a subtree of black
height `n`: each BLACK ancestor raises the expected height, each RED ancestor
has a BLACK sibling-child and a BLACK parent.  Unzipping any valid tree at
any position yields such a chain, and the last frame of a nonempty chain is
BLACK (a RED frame forces a nonempty tail). -/
inductive PathRB : Path → Nat → Prop where
  | nil {n : Nat} : PathRB [] n
  | black {d : Dir} {v : Int} {sib : STree} {p : Path} {n : Nat} :
      IsRB sib n → PathRB p (n + 1) → PathRB (⟨d, .black, v, sib⟩ :: p) n
  | red {d : Dir} {v : Int} {sib : STree} {p : Path} {n : Nat} :
      IsRB sib n → rootColor sib = .black → headBlack p → PathRB p n →
      PathRB (⟨d, .red, v, sib⟩ :: p) n

/-- Plugging a valid black-height-`n` subtree into a valid chain expecting
height `n` yields a valid tree with a BLACK root, provided a RED-rooted
subtree only goes under a BLACK parent. -/
theorem plug_rb : ∀ {p : Path} {n : Nat} {t : STree}, PathRB p n → IsRB t n →
    (rootColor t = .red → headBlack p) →
    ∃ N, IsRB (plug t p) N ∧ rootColor (plug t p) = .black := by
  intro p n t hp
  induction hp generalizing t with
  | nil =>
    intro ht hred
    refine ⟨_, ht, ?_⟩
    cases t with
    | nil => rfl
    | node c l v r =>
      cases c with
      | black => rfl
      | red => exact absurd (hred rfl) (by simp [headBlack])
  | @black d v sib p n hsib hp ih =>
    intro ht _
    cases d with
    | left =>
      simpa [plug, frameNode] using ih (IsRB.black ht hsib) (by simp [rootColor])
    | right =>
      simpa [plug, frameNode] using ih (IsRB.black hsib ht) (by simp [rootColor])
  | @red d v sib p n hsib hsb hhead hp ih =>
    intro ht hred
    have htb : rootColor t = .black := by
      rcases t with _ | ⟨c, l, v', r⟩
      · rfl
      · cases c with
        | black => rfl
        | red => exact absurd (hred rfl) (by simp [headBlack])
    cases d with
    | left =>
      simpa [plug, frameNode] using ih (IsRB.red ht hsib htb hsb) (fun _ => hhead)
    | right =>
      simpa [plug, frameNode] using ih (IsRB.red hsib ht hsb htb) (fun _ => hhead)

/-- `validate_subtree` succeeds on a valid subtree, computing its black
height. -/
theorem validate_of_isRB {t : STree} {n : Nat} (h : IsRB t n) :
    validate_subtree t = some n := by
  induction h with
  | nil => rfl
  | @black l r v n _ _ ihl ihr =>
    simp [validate_subtree, ihl, ihr]
  | @red l r v n _ _ hl hr ihl ihr =>
    simp [validate_subtree, ihl, ihr, rootRed, hl, hr]

/-- Conversely, a successful validation witnesses `IsRB`. -/
theorem isRB_of_validate : ∀ {t : STree} {n : Nat},
    validate_subtree t = some n → IsRB t n := by
  intro t
  induction t with
  | nil =>
    intro n h
    simp only [validate_subtree, Option.some.injEq] at h
    rw [← h]
    exact IsRB.nil
  | node c l v r ihl ihr =>
    intro n h
    simp only [validate_subtree] at h
    by_cases hrr : c = Color.red ∧ (rootRed l ∨ rootRed r)
    · simp [hrr] at h
    · simp only [hrr, if_false] at h
      cases hl : validate_subtree l with
      | none => rw [hl] at h; simp at h
      | some lb =>
        cases hr : validate_subtree r with
        | none => rw [hl, hr] at h; simp at h
        | some rb =>
          rw [hl, hr] at h
          by_cases hlr : lb = rb
          · subst hlr
            simp at h
            cases c with
            | black =>
              simp at h
              subst h
              exact IsRB.black (ihl hl) (ihr hr)
            | red =>
              simp at h
              subst h
              push_neg at hrr
              have := hrr rfl
              have hlb : rootColor l = Color.black := by
                rcases l with _ | ⟨lc, _, _, _⟩
                · rfl
                · cases lc
                  · simp [rootRed, rootColor] at this
                  · rfl
              have hrb : rootColor r = Color.black := by
                rcases r with _ | ⟨rc, _, _, _⟩
                · rfl
                · cases rc
                  · simp [rootRed, rootColor] at this
                  · rfl
              exact IsRB.red (ihl hl) (ihr hr) hlb hrb
          · simp [hlr] at h

end RB

namespace RB

theorem rootRed_true_iff {t : STree} : rootRed t = true ↔ rootColor t = .red := by
  simp [rootRed]

theorem rootColor_black_of_not_red {t : STree} (h : ¬ rootRed t = true) :
    rootColor t = .black := by
  rcases t with _ | ⟨c, l, v, r⟩
  · rfl
  · cases c with
    | red => exact absurd (by simp [rootRed, rootColor]) h
    | black => rfl

theorem red_node_of_rootColor {t : STree} (h : rootColor t = .red) :
    ∃ l v r, t = .node .red l v r := by
  rcases t with _ | ⟨c, l, v, r⟩
  · simp [rootColor] at h
  · cases c with
    | red => exact ⟨l, v, r, rfl⟩
    | black => simp [rootColor] at h

/-- The insert fix-up restores validity: starting from a RED-rooted valid
subtree (initially the freshly linked RED leaf) inside a valid chain, the
result is a valid tree with a BLACK root. -/
theorem insertFixup_rb : ∀ (k : Nat) (p : Path) (t : STree) (n : Nat),
    p.length ≤ k → IsRB t n → rootColor t = .red → PathRB p n →
    ∃ N, IsRB (insertFixup t p) N ∧ rootColor (insertFixup t p) = .black := by
  intro k
  induction k with
  | zero =>
    intro p t n hlen ht hred hp
    have hp0 : p = [] := by
      cases p with
      | nil => rfl
      | cons f p => simp at hlen
    subst hp0
    obtain ⟨l, v, r, rfl⟩ := red_node_of_rootColor hred
    cases ht with
    | red hl hr _ _ =>
      exact ⟨_, IsRB.black hl hr, rfl⟩
  | succ k ih =>
    intro p t n hlen ht hred hp
    cases p with
    | nil =>
      obtain ⟨l, v, r, rfl⟩ := red_node_of_rootColor hred
      cases ht with
      | red hl hr _ _ =>
        exact ⟨_, IsRB.black hl hr, rfl⟩
    | cons f p₁ =>
      by_cases hfc : f.c = Color.black
      · have heq : insertFixup t (f :: p₁) = plug t (f :: p₁) := by
          rw [insertFixup.eq_def]
          simp [hfc]
        rw [heq]
        exact plug_rb hp ht (fun _ => hfc)
      · -- the parent frame is RED
        have hfc' : f.c = Color.red := by
          cases hc : f.c with
          | red => rfl
          | black => exact absurd hc hfc
        obtain ⟨fd, fc, fv, fsib⟩ := f
        simp only at hfc'
        subst hfc'
        cases hp with
        | red hsib hsb hhead hp₁ =>
          cases p₁ with
          | nil => exact absurd hhead (by simp [headBlack])
          | cons g p₂ =>
            have hgc : g.c = Color.black := hhead
            obtain ⟨gd, gc, gv, gsib⟩ := g
            simp only at hgc
            subst hgc
            cases hp₁ with
            | black hgsib hp₂ =>
              have hlen₂ : p₂.length ≤ k := by simp at hlen; omega
              by_cases hu : rootRed gsib = true
              · -- RED uncle: recolor and continue from the grandparent
                obtain ⟨u1, uv, u2, rfl⟩ := red_node_of_rootColor (rootRed_true_iff.mp hu)
                have hub : IsRB (STree.node Color.black u1 uv u2) (n + 1) := by
                  cases hgsib with
                  | red h1 h2 _ _ => exact IsRB.black h1 h2
                have hpt : IsRB (frameNode ⟨fd, Color.black, fv, fsib⟩ t) (n + 1) := by
                  cases fd with
                  | left => exact IsRB.black ht hsib
                  | right => exact IsRB.black hsib ht
                cases gd with
                | left =>
                  have heq : insertFixup t
                        (⟨fd, Color.red, fv, fsib⟩ ::
                          ⟨Dir.left, Color.black, gv, STree.node Color.red u1 uv u2⟩ :: p₂) =
                      insertFixup
                        (STree.node Color.red (frameNode ⟨fd, Color.black, fv, fsib⟩ t) gv
                          (STree.node Color.black u1 uv u2)) p₂ := by
                    rw [insertFixup.eq_def]
                    simp [hu, blacken]
                  rw [heq]
                  exact ih p₂ _ (n + 1) hlen₂
                    (IsRB.red hpt hub (by cases fd <;> rfl) rfl) rfl hp₂
                | right =>
                  have heq : insertFixup t
                        (⟨fd, Color.red, fv, fsib⟩ ::
                          ⟨Dir.right, Color.black, gv, STree.node Color.red u1 uv u2⟩ :: p₂) =
                      insertFixup
                        (STree.node Color.red (STree.node Color.black u1 uv u2) gv
                          (frameNode ⟨fd, Color.black, fv, fsib⟩ t)) p₂ := by
                    rw [insertFixup.eq_def]
                    simp [hu, blacken]
                  rw [heq]
                  exact ih p₂ _ (n + 1) hlen₂
                    (IsRB.red hub hpt rfl (by cases fd <;> rfl)) rfl hp₂
              · -- BLACK (or absent) uncle: one or two rotations terminate
                have hgb : rootColor gsib = Color.black := rootColor_black_of_not_red hu
                obtain ⟨tl, tv, tr, rfl⟩ := red_node_of_rootColor hred
                have hts : IsRB tl n ∧ IsRB tr n ∧
                    rootColor tl = Color.black ∧ rootColor tr = Color.black := by
                  cases ht with
                  | red h1 h2 h3 h4 => exact ⟨h1, h2, h3, h4⟩
                obtain ⟨htl, htr, htlb, htrb⟩ := hts
                have heq : insertFixup (STree.node .red tl tv tr)
                      (⟨fd, Color.red, fv, fsib⟩ :: ⟨gd, Color.black, gv, gsib⟩ :: p₂) =
                    insertCase4 (STree.node .red tl tv tr) ⟨fd, Color.red, fv, fsib⟩
                      ⟨gd, Color.black, gv, gsib⟩ p₂ := by
                  rw [insertFixup.eq_def]
                  simp [hu]
                rw [heq]
                cases fd with
                | left =>
                  cases gd with
                  | left =>
                    -- straight left-left: one right rotation at the grandparent
                    exact plug_rb hp₂
                      (IsRB.black ht (IsRB.red hsib hgsib hsb hgb)) (by simp [rootColor])
                  | right =>
                    -- zig-zag: right rotation at the parent, left at the grandparent
                    exact plug_rb hp₂
                      (IsRB.black (IsRB.red hgsib htl hgb htlb) (IsRB.red htr hsib htrb hsb))
                      (by simp [rootColor])
                | right =>
                  cases gd with
                  | left =>
                    exact plug_rb hp₂
                      (IsRB.black (IsRB.red hsib htl hsb htlb) (IsRB.red htr hgsib htrb hgb))
                      (by simp [rootColor])
                  | right =>
                    exact plug_rb hp₂
                      (IsRB.black (IsRB.red hgsib hsib hgb hsb) ht) (by simp [rootColor])

end RB

namespace RB

/-- Unzipping a valid tree along the insert descent produces a valid chain
around the reached sentinel position (black height 1). -/
theorem locateIns_path : ∀ (t : STree) (x : Int) (acc : Path) (n : Nat) (p : Path),
    IsRB t n → PathRB acc n → (rootColor t = .red → headBlack acc) →
    locateIns t x acc = some p → PathRB p 1 := by
  intro t
  induction t with
  | nil =>
    intro x acc n p ht hacc _ h
    simp only [locateIns, Option.some.injEq] at h
    subst h
    cases ht
    exact hacc
  | node c l v r ihl ihr =>
    intro x acc n p ht hacc hred h
    simp only [locateIns] at h
    by_cases h1 : x < v
    · rw [if_pos h1] at h
      cases c with
      | black =>
        cases ht with
        | black hl hr =>
          exact ihl x _ _ p hl (PathRB.black hr hacc) (fun _ => rfl) h
      | red =>
        cases ht with
        | red hl hr hlb hrb =>
          exact ihl x _ _ p hl (PathRB.red hr hrb (hred rfl) hacc)
            (fun hc => absurd hc (by rw [hlb]; intro hx; cases hx)) h
    · rw [if_neg h1] at h
      by_cases h2 : v < x
      · rw [if_pos h2] at h
        cases c with
        | black =>
          cases ht with
          | black hl hr =>
            exact ihr x _ _ p hr (PathRB.black hl hacc) (fun _ => rfl) h
        | red =>
          cases ht with
          | red hl hr hlb hrb =>
            exact ihr x _ _ p hr (PathRB.red hl hlb (hred rfl) hacc)
              (fun hc => absurd hc (by rw [hrb]; intro hx; cases hx)) h
      · rw [if_neg h2] at h
        cases h

/-- The global validity invariant of a tree object: BLACK root and uniform
black heights with no RED-RED edge. -/
def Valid (t : STree) : Prop := rootColor t = .black ∧ ∃ n, IsRB t n

theorem Valid.nil : Valid .nil := ⟨rfl, 1, IsRB.nil⟩

/-- `insert` preserves the red-black invariants. -/
theorem insert_valid {t : STree} {x : Int} (h : Valid t) : Valid (insert t x).2 := by
  obtain ⟨hb, n, hn⟩ := h
  unfold insert
  cases hloc : locateIns t x [] with
  | none => exact ⟨hb, n, hn⟩
  | some p =>
    have hp : PathRB p 1 :=
      locateIns_path t x [] n p hn PathRB.nil
        (fun hc => absurd hb (by rw [hc]; intro hx; cases hx)) hloc
    have hnew : IsRB (STree.node .red .nil x .nil) 1 :=
      IsRB.red IsRB.nil IsRB.nil rfl rfl
    obtain ⟨N, h1, h2⟩ := insertFixup_rb p.length p _ 1 le_rfl hnew rfl hp
    exact ⟨h2, N, h1⟩

end RB

namespace RB

theorem blacken_eq_of_black {t : STree} (h : rootColor t = .black) : blacken t = t := by
  rcases t with _ | ⟨c, l, v, r⟩
  · rfl
  · cases c with
    | red => simp [rootColor] at h
    | black => rfl

theorem red_isRB_inv {l r : STree} {v : Int} {n : Nat}
    (h : IsRB (.node .red l v r) n) :
    IsRB l n ∧ IsRB r n ∧ rootColor l = .black ∧ rootColor r = .black := by
  cases h with
  | red h1 h2 h3 h4 => exact ⟨h1, h2, h3, h4⟩

theorem black_isRB_inv {l r : STree} {v : Int} {n : Nat}
    (h : IsRB (.node .black l v r) n) :
    ∃ m, n = m + 1 ∧ IsRB l m ∧ IsRB r m := by
  cases h with
  | black h1 h2 => exact ⟨_, rfl, h1, h2⟩

/-- A BLACK-rooted valid subtree of black height `n + 1` with `1 ≤ n` is a
real BLACK node with valid children of height `n`. -/
theorem black_node_shape {s : STree} {n : Nat} (h : IsRB s (n + 1))
    (hb : rootColor s = .black) (hn : 1 ≤ n) :
    ∃ l v r, s = .node .black l v r ∧ IsRB l n ∧ IsRB r n := by
  rcases s with _ | ⟨c, l, v, r⟩
  · cases h; omega
  · cases c with
    | red => simp [rootColor] at hb
    | black =>
      obtain ⟨m, hm, h1, h2⟩ := black_isRB_inv h
      have : m = n := by omega
      subst this
      exact ⟨l, v, r, rfl, h1, h2⟩

/-- A valid subtree of black height 1 with a BLACK root is the sentinel. -/
theorem nil_of_isRB_one {s : STree} (h : IsRB s 1) (hb : rootColor s = .black) :
    s = .nil := by
  rcases s with _ | ⟨c, l, v, r⟩
  · rfl
  · cases c with
    | red => simp [rootColor] at hb
    | black =>
      obtain ⟨m, hm, h1, _⟩ := black_isRB_inv h
      have := h1.one_le
      omega

/-- The invariant carried by the double-black fix-up node: either a proper
BLACK-rooted subtree one BLACK short of its context, or a RED-rooted node
whose children are valid (the root may momentarily sit above a RED child;
painting it BLACK absorbs the deficit). -/
def FixOk (t : STree) (n : Nat) : Prop :=
  (IsRB t n ∧ rootColor t = .black) ∨
  (∃ l v r, t = .node .red l v r ∧ IsRB l n ∧ IsRB r n)

theorem FixOk_of_isRB {t : STree} {n : Nat} (h : IsRB t n) : FixOk t n := by
  rcases t with _ | ⟨c, l, v, r⟩
  · exact Or.inl ⟨h, rfl⟩
  · cases c with
    | black => exact Or.inl ⟨h, rfl⟩
    | red =>
      obtain ⟨h1, h2, _, _⟩ := red_isRB_inv h
      exact Or.inr ⟨l, v, r, rfl, h1, h2⟩

/-- Unzipping a valid tree along the erase descent: the located node is valid
for some height, its chain is valid, and a RED node has a BLACK parent. -/
theorem locateDel_path : ∀ (t : STree) (x : Int) (acc : Path) (n : Nat)
    (z : STree) (p : Path),
    IsRB t n → PathRB acc n → (rootColor t = .red → headBlack acc) →
    locateDel t x acc = some (z, p) →
    ∃ m, IsRB z m ∧ PathRB p m ∧ (rootColor z = .red → headBlack p) := by
  intro t
  induction t with
  | nil =>
    intro x acc n z p _ _ _ h
    simp [locateDel] at h
  | node c l v r ihl ihr =>
    intro x acc n z p ht hacc hred h
    simp only [locateDel] at h
    by_cases h1 : x < v
    · rw [if_pos h1] at h
      cases c with
      | black =>
        obtain ⟨m, hm, hl, hr⟩ := black_isRB_inv ht
        subst hm
        exact ihl x _ _ z p hl (PathRB.black hr hacc) (fun _ => rfl) h
      | red =>
        obtain ⟨hl, hr, hlb, hrb⟩ := red_isRB_inv ht
        exact ihl x _ _ z p hl (PathRB.red hr hrb (hred rfl) hacc)
          (fun hc => by rw [hlb] at hc; cases hc) h
    · rw [if_neg h1] at h
      by_cases h2 : v < x
      · rw [if_pos h2] at h
        cases c with
        | black =>
          obtain ⟨m, hm, hl, hr⟩ := black_isRB_inv ht
          subst hm
          exact ihr x _ _ z p hr (PathRB.black hl hacc) (fun _ => rfl) h
        | red =>
          obtain ⟨hl, hr, hlb, hrb⟩ := red_isRB_inv ht
          exact ihr x _ _ z p hr (PathRB.red hl hlb (hred rfl) hacc)
            (fun hc => by rw [hrb] at hc; cases hc) h
      · rw [if_neg h2] at h
        simp only [Option.some.injEq, Prod.mk.injEq] at h
        obtain ⟨hz, hp⟩ := h
        subst hz
        subst hp
        exact ⟨n, ht, hacc, hred⟩

/-- Removing the minimum of a valid nonempty subtree: if the removed node was
BLACK, the spliced-in right child is valid of height 1 inside a chain now
expecting height 2 (the double black); if RED, the child is the sentinel and
the chain fits exactly. -/
theorem delMin_spec : ∀ (t : STree) (n : Nat) (q : Path),
    IsRB t n → t ≠ .nil → (rootColor t = .red → headBlack q) → PathRB q n →
    ((delMin t).1 = .black →
      IsRB (delMin t).2.2.1 1 ∧ PathRB ((delMin t).2.2.2 ++ q) 2) ∧
    ((delMin t).1 = .red →
      (delMin t).2.2.1 = .nil ∧ PathRB ((delMin t).2.2.2 ++ q) 1) := by
  intro t
  induction t with
  | nil => intro n q _ hne _ _; exact absurd rfl hne
  | node c l v r ihl ihr =>
    intro n q ht _ hred hq
    clear ihr
    cases l with
    | nil =>
      cases c with
      | black =>
        obtain ⟨m, hm, hl, hr⟩ := black_isRB_inv ht
        cases hl
        subst hm
        constructor
        · intro _
          exact ⟨hr, hq⟩
        · intro h
          simp [delMin] at h
      | red =>
        obtain ⟨hl, hr, _, hrb⟩ := red_isRB_inv ht
        cases hl
        have hrnil : r = .nil := nil_of_isRB_one hr hrb
        subst hrnil
        constructor
        · intro h
          simp [delMin] at h
        · intro _
          exact ⟨rfl, hq⟩
    | node lc ll lv lr =>
      rcases hdm : delMin (STree.node lc ll lv lr) with ⟨mc, mv, x, ip⟩
      have hgoal : delMin (STree.node c (STree.node lc ll lv lr) v r) =
          (mc, mv, x, ip ++ [⟨Dir.left, c, v, r⟩]) := by
        simp [delMin, hdm]
      rw [hgoal]
      cases c with
      | black =>
        obtain ⟨m, hm, hl, hr⟩ := black_isRB_inv ht
        subst hm
        have hq' : PathRB (⟨Dir.left, Color.black, v, r⟩ :: q) m :=
          PathRB.black hr hq
        have := ihl m (⟨Dir.left, Color.black, v, r⟩ :: q) hl
          (by intro h; cases h) (fun _ => rfl) hq'
        rw [hdm] at this
        obtain ⟨hblack, hred'⟩ := this
        constructor
        · intro h
          obtain ⟨h1, h2⟩ := hblack h
          exact ⟨h1, by simpa [List.append_assoc] using h2⟩
        · intro h
          obtain ⟨h1, h2⟩ := hred' h
          exact ⟨h1, by simpa [List.append_assoc] using h2⟩
      | red =>
        obtain ⟨hl, hr, hlb, hrb⟩ := red_isRB_inv ht
        have hq' : PathRB (⟨Dir.left, Color.red, v, r⟩ :: q) n :=
          PathRB.red hr hrb (hred rfl) hq
        have := ihl n (⟨Dir.left, Color.red, v, r⟩ :: q) hl
          (by intro h; cases h) (fun hc => by rw [hlb] at hc; cases hc) hq'
        rw [hdm] at this
        obtain ⟨hblack, hred'⟩ := this
        constructor
        · intro h
          obtain ⟨h1, h2⟩ := hblack h
          exact ⟨h1, by simpa [List.append_assoc] using h2⟩
        · intro h
          obtain ⟨h1, h2⟩ := hred' h
          exact ⟨h1, by simpa [List.append_assoc] using h2⟩

end RB

namespace RB

/-- Cases 2-4 of the left-direction erase fix-up with a non-RED sibling:
either the sibling is recolored RED and the double black moves to the rebuilt
parent (first disjunct), or a terminal rotation yields a node carrying the
parent's color over two BLACK-rooted subtrees of full height (second
disjunct). -/
theorem eraseCasesL_rb {t s : STree} (pc : Color) (pv : Int) {n : Nat}
    (ht : IsRB t n) (hs : IsRB s (n + 1)) (hsb : rootColor s = .black)
    (hn : 1 ≤ n) :
    (∃ A, eraseCasesL t pc pv s = (true, .node pc t pv A) ∧ IsRB A n ∧
      rootColor A = .red) ∨
    (∃ A sv B, eraseCasesL t pc pv s = (false, .node pc A sv B) ∧
      IsRB A (n + 1) ∧ IsRB B (n + 1) ∧ rootColor A = .black ∧
      rootColor B = .black) := by
  obtain ⟨sl, sv, sr, rfl, hsl, hsr⟩ := black_node_shape hs hsb hn
  by_cases hbb : rootColor sl = Color.black ∧ rootColor sr = Color.black
  · left
    refine ⟨.node .red sl sv sr, ?_, IsRB.red hsl hsr hbb.1 hbb.2, rfl⟩
    simp only [eraseCasesL, leftChild, rightChild]
    rw [if_pos hbb]
    simp [redden]
  · right
    cases hcr : rootColor sr with
    | black =>
      have hslred : rootColor sl = Color.red := by
        cases h : rootColor sl with
        | black => exact absurd ⟨h, hcr⟩ hbb
        | red => rfl
      obtain ⟨a, av, b, rfl⟩ := red_node_of_rootColor hslred
      obtain ⟨ha, hb, hab, hbb2⟩ := red_isRB_inv hsl
      refine ⟨.node .black t pv a, av, .node .black b sv sr, ?_,
        IsRB.black ht ha, IsRB.black hb hsr, rfl, rfl⟩
      simp only [eraseCasesL, leftChild, rightChild]
      rw [if_neg hbb]
      simp [hcr, eraseCase4L, blacken]
    | red =>
      obtain ⟨b1, bv, b2, rfl⟩ := red_node_of_rootColor hcr
      obtain ⟨hb1, hb2, h1b, h2b⟩ := red_isRB_inv hsr
      refine ⟨.node .black t pv sl, sv, .node .black b1 bv b2, ?_,
        IsRB.black ht hsl, IsRB.black hb1 hb2, rfl, rfl⟩
      simp only [eraseCasesL, leftChild, rightChild]
      rw [if_neg hbb]
      simp [eraseCase4L, blacken, rootColor]

/-- Mirror of `eraseCasesL_rb` for the right direction. -/
theorem eraseCasesR_rb {t s : STree} (pc : Color) (pv : Int) {n : Nat}
    (ht : IsRB t n) (hs : IsRB s (n + 1)) (hsb : rootColor s = .black)
    (hn : 1 ≤ n) :
    (∃ A, eraseCasesR t pc pv s = (true, .node pc A pv t) ∧ IsRB A n ∧
      rootColor A = .red) ∨
    (∃ A sv B, eraseCasesR t pc pv s = (false, .node pc A sv B) ∧
      IsRB A (n + 1) ∧ IsRB B (n + 1) ∧ rootColor A = .black ∧
      rootColor B = .black) := by
  obtain ⟨sl, sv, sr, rfl, hsl, hsr⟩ := black_node_shape hs hsb hn
  by_cases hbb : rootColor sr = Color.black ∧ rootColor sl = Color.black
  · left
    refine ⟨.node .red sl sv sr, ?_, IsRB.red hsl hsr hbb.2 hbb.1, rfl⟩
    simp only [eraseCasesR, leftChild, rightChild]
    rw [if_pos hbb]
    simp [redden]
  · right
    cases hcl : rootColor sl with
    | black =>
      have hsrred : rootColor sr = Color.red := by
        cases h : rootColor sr with
        | black => exact absurd ⟨h, hcl⟩ hbb
        | red => rfl
      obtain ⟨b1, bv, b2, rfl⟩ := red_node_of_rootColor hsrred
      obtain ⟨hb1, hb2, h1b, h2b⟩ := red_isRB_inv hsr
      refine ⟨.node .black sl sv b1, bv, .node .black b2 pv t, ?_,
        IsRB.black hsl hb1, IsRB.black hb2 ht, rfl, rfl⟩
      simp only [eraseCasesR, leftChild, rightChild]
      rw [if_neg hbb]
      simp [hcl, eraseCase4R, blacken]
    | red =>
      obtain ⟨a1, av, a2, rfl⟩ := red_node_of_rootColor hcl
      obtain ⟨ha1, ha2, h1b, h2b⟩ := red_isRB_inv hsl
      refine ⟨.node .black a1 av a2, sv, .node .black sr pv t, ?_,
        IsRB.black ha1 ha2, IsRB.black hsr ht, rfl, rfl⟩
      simp only [eraseCasesR, leftChild, rightChild]
      rw [if_neg hbb]
      simp [eraseCase4R, blacken, rootColor]

end RB

namespace RB

/-- `plug_rb` composed with the final repaint of the root (a no-op on the
already-BLACK root). -/
theorem plug_rb_blacken {p : Path} {n : Nat} {t : STree} (hp : PathRB p n)
    (ht : IsRB t n) (hred : rootColor t = .red → headBlack p) :
    ∃ N, IsRB (blacken (plug t p)) N ∧ rootColor (blacken (plug t p)) = .black := by
  obtain ⟨N, h1, h2⟩ := plug_rb hp ht hred
  rw [blacken_eq_of_black h2]
  exact ⟨N, h1, h2⟩

/-- The erase fix-up absorbs the double black: a `FixOk` node one BLACK short
of its valid context is repaired into a valid BLACK-rooted tree. -/
theorem eraseFixup_rb : ∀ (p : Path) (t : STree) (n : Nat),
    FixOk t n → PathRB p (n + 1) →
    ∃ N, IsRB (eraseFixup t p) N ∧ rootColor (eraseFixup t p) = .black := by
  intro p
  induction p with
  | nil =>
    intro t n hfix _
    rcases hfix with ⟨ht, htb⟩ | ⟨l, v, r, rfl, hl, hr⟩
    · have heq : eraseFixup t [] = t := blacken_eq_of_black htb
      rw [heq]
      exact ⟨n, ht, htb⟩
    · exact ⟨n + 1, IsRB.black hl hr, rfl⟩
  | cons f p ih =>
    intro t n hfix hp
    by_cases hredt : rootColor t = .red
    · rcases hfix with ⟨_, htb⟩ | ⟨l, v, r, rfl, hl, hr⟩
      · rw [htb] at hredt
        cases hredt
      · have heq : eraseFixup (STree.node .red l v r) (f :: p) =
            plug (STree.node .black l v r) (f :: p) := by
          rw [eraseFixup.eq_def]
          simp [rootColor, blacken]
        rw [heq]
        exact plug_rb hp (IsRB.black hl hr) (fun h => by cases h)
    · have htb : rootColor t = .black := by
        cases h : rootColor t with
        | black => rfl
        | red => exact absurd h hredt
      have ht : IsRB t n := by
        rcases hfix with ⟨ht, _⟩ | ⟨l, v, r, rfl, _, _⟩
        · exact ht
        · simp [rootColor] at htb
      have hn : 1 ≤ n := ht.one_le
      obtain ⟨fd, fc, fv, s⟩ := f
      have hstep : eraseFixup t (⟨fd, fc, fv, s⟩ :: p) =
          match (match fd with
                 | Dir.left => eraseStepL t fc fv s
                 | Dir.right => eraseStepR t fc fv s) with
          | StepRes.cont t' => eraseFixup t' p
          | StepRes.finishLocal S => plug S p
          | StepRes.finishRoot S => blacken (plug S p) := by
        rw [eraseFixup.eq_def]
        simp [htb]
      rw [hstep]
      cases fd with
      | left =>
        cases hp with
        | black hs hp' =>
          cases hsc : rootColor s with
          | red =>
            -- case 1: RED sibling, BLACK parent
            obtain ⟨sl, sv, sr, rfl⟩ := red_node_of_rootColor hsc
            obtain ⟨hsl, hsr, hslb, hsrb⟩ := red_isRB_inv hs
            rcases eraseCasesL_rb Color.red fv ht hsl hslb hn with
              ⟨A, heqc, hA, _⟩ | ⟨A, sv', B, heqc, hA, hB, hAb, hBb⟩
            · have hstepL : eraseStepL t Color.black fv (STree.node .red sl sv sr) =
                  StepRes.finishLocal (.node .black (.node .black t fv A) sv sr) := by
                simp [eraseStepL, heqc, blacken]
              rw [hstepL]
              exact plug_rb hp' (IsRB.black (IsRB.black ht hA) hsr) (fun h => by cases h)
            · have hstepL : eraseStepL t Color.black fv (STree.node .red sl sv sr) =
                  StepRes.finishRoot (.node .black (.node .red A sv' B) sv sr) := by
                simp [eraseStepL, heqc]
              rw [hstepL]
              exact plug_rb_blacken hp'
                (IsRB.black (IsRB.red hA hB hAb hBb) hsr) (fun h => by cases h)
          | black =>
            obtain ⟨sl, sv, sr, hseq, hsl, hsr⟩ := black_node_shape hs hsc hn
            rcases eraseCasesL_rb Color.black fv ht hs hsc hn with
              ⟨A, heqc, hA, _⟩ | ⟨A, sv', B, heqc, hA, hB, hAb, hBb⟩
            · have hstepL : eraseStepL t Color.black fv s =
                  StepRes.cont (.node .black t fv A) := by
                subst hseq
                simp [eraseStepL, heqc]
              rw [hstepL]
              exact ih _ (n + 1) (Or.inl ⟨IsRB.black ht hA, rfl⟩) hp'
            · have hstepL : eraseStepL t Color.black fv s =
                  StepRes.finishRoot (.node .black A sv' B) := by
                subst hseq
                simp [eraseStepL, heqc]
              rw [hstepL]
              exact plug_rb_blacken hp'
                (IsRB.black hA hB) (fun h => by cases h)
        | red hs hsb hhead hp' =>
          obtain ⟨sl, sv, sr, hseq, hsl, hsr⟩ := black_node_shape hs hsb hn
          rcases eraseCasesL_rb Color.red fv ht hs hsb hn with
            ⟨A, heqc, hA, _⟩ | ⟨A, sv', B, heqc, hA, hB, hAb, hBb⟩
          · have hstepL : eraseStepL t Color.red fv s =
                StepRes.cont (.node .red t fv A) := by
              subst hseq
              simp [eraseStepL, heqc]
            rw [hstepL]
            exact ih _ n (Or.inr ⟨t, fv, A, rfl, ht, hA⟩) hp'
          · have hstepL : eraseStepL t Color.red fv s =
                StepRes.finishRoot (.node .red A sv' B) := by
              subst hseq
              simp [eraseStepL, heqc]
            rw [hstepL]
            exact plug_rb_blacken hp'
              (IsRB.red hA hB hAb hBb) (fun _ => hhead)
      | right =>
        cases hp with
        | black hs hp' =>
          cases hsc : rootColor s with
          | red =>
            obtain ⟨sl, sv, sr, rfl⟩ := red_node_of_rootColor hsc
            obtain ⟨hsl, hsr, hslb, hsrb⟩ := red_isRB_inv hs
            rcases eraseCasesR_rb Color.red fv ht hsr hsrb hn with
              ⟨A, heqc, hA, _⟩ | ⟨A, sv', B, heqc, hA, hB, hAb, hBb⟩
            · have hstepR : eraseStepR t Color.black fv (STree.node .red sl sv sr) =
                  StepRes.finishLocal (.node .black sl sv (.node .black A fv t)) := by
                simp [eraseStepR, heqc, blacken]
              rw [hstepR]
              exact plug_rb hp' (IsRB.black hsl (IsRB.black hA ht)) (fun h => by cases h)
            · have hstepR : eraseStepR t Color.black fv (STree.node .red sl sv sr) =
                  StepRes.finishRoot (.node .black sl sv (.node .red A sv' B)) := by
                simp [eraseStepR, heqc]
              rw [hstepR]
              exact plug_rb_blacken hp'
                (IsRB.black hsl (IsRB.red hA hB hAb hBb)) (fun h => by cases h)
          | black =>
            obtain ⟨sl, sv, sr, hseq, hsl, hsr⟩ := black_node_shape hs hsc hn
            rcases eraseCasesR_rb Color.black fv ht hs hsc hn with
              ⟨A, heqc, hA, _⟩ | ⟨A, sv', B, heqc, hA, hB, hAb, hBb⟩
            · have hstepR : eraseStepR t Color.black fv s =
                  StepRes.cont (.node .black A fv t) := by
                subst hseq
                simp [eraseStepR, heqc]
              rw [hstepR]
              exact ih _ (n + 1) (Or.inl ⟨IsRB.black hA ht, rfl⟩) hp'
            · have hstepR : eraseStepR t Color.black fv s =
                  StepRes.finishRoot (.node .black A sv' B) := by
                subst hseq
                simp [eraseStepR, heqc]
              rw [hstepR]
              exact plug_rb_blacken hp'
                (IsRB.black hA hB) (fun h => by cases h)
        | red hs hsb hhead hp' =>
          obtain ⟨sl, sv, sr, hseq, hsl, hsr⟩ := black_node_shape hs hsb hn
          rcases eraseCasesR_rb Color.red fv ht hs hsb hn with
            ⟨A, heqc, hA, _⟩ | ⟨A, sv', B, heqc, hA, hB, hAb, hBb⟩
          · have hstepR : eraseStepR t Color.red fv s =
                StepRes.cont (.node .red A fv t) := by
              subst hseq
              simp [eraseStepR, heqc]
            rw [hstepR]
            exact ih _ n (Or.inr ⟨A, fv, t, rfl, hA, ht⟩) hp'
          · have hstepR : eraseStepR t Color.red fv s =
                StepRes.finishRoot (.node .red A sv' B) := by
              subst hseq
              simp [eraseStepR, heqc]
            rw [hstepR]
            exact plug_rb_blacken hp'
              (IsRB.red hA hB hAb hBb) (fun _ => hhead)

end RB

namespace RB

/-- `erase` preserves the red-black invariants. -/
theorem erase_valid {t : STree} {x : Int} (h : Valid t) : Valid (erase t x).2 := by
  obtain ⟨hb, N, hN⟩ := h
  unfold erase
  cases hloc : locateDel t x [] with
  | none => exact ⟨hb, N, hN⟩
  | some zp =>
    obtain ⟨z, p⟩ := zp
    obtain ⟨m, hz, hp, hzred⟩ :=
      locateDel_path t x [] N z p hN PathRB.nil
        (fun hc => absurd hc (by rw [hb]; intro h; cases h)) hloc
    cases z with
    | nil => exact ⟨hb, N, hN⟩
    | node c l v r =>
      simp only
      cases l with
      | nil =>
        have hdet : detach c .nil v r p = (c, r, p) := by simp [detach]
        rw [hdet]
        simp only
        cases c with
        | black =>
          obtain ⟨m', hm, hl, hr⟩ := black_isRB_inv hz
          cases hl
          subst hm
          rw [if_pos rfl]
          obtain ⟨N', h1, h2⟩ := eraseFixup_rb p r 1 (FixOk_of_isRB hr) hp
          rw [blacken_eq_of_black h2]
          exact ⟨h2, N', h1⟩
        | red =>
          obtain ⟨hl, hr, _, hrb⟩ := red_isRB_inv hz
          cases hl
          rw [if_neg (by intro h; cases h)]
          have hrnil : r = .nil := nil_of_isRB_one hr hrb
          subst hrnil
          obtain ⟨N', h1, h2⟩ := plug_rb hp IsRB.nil (fun h => by cases h)
          rw [blacken_eq_of_black h2]
          exact ⟨h2, N', h1⟩
      | node lc ll lv lr =>
        cases r with
        | nil =>
          have hdet : detach c (.node lc ll lv lr) v .nil p =
              (c, .node lc ll lv lr, p) := by simp [detach]
          rw [hdet]
          simp only
          cases c with
          | black =>
            obtain ⟨m', hm, hl, hr⟩ := black_isRB_inv hz
            cases hr
            subst hm
            rw [if_pos rfl]
            obtain ⟨N', h1, h2⟩ := eraseFixup_rb p _ 1 (FixOk_of_isRB hl) hp
            rw [blacken_eq_of_black h2]
            exact ⟨h2, N', h1⟩
          | red =>
            obtain ⟨hl, hr, hlb, _⟩ := red_isRB_inv hz
            cases hr
            rw [if_neg (by intro h; cases h)]
            obtain ⟨N', h1, h2⟩ := plug_rb hp hl (fun hc => by rw [hlb] at hc; cases hc)
            rw [blacken_eq_of_black h2]
            exact ⟨h2, N', h1⟩
        | node rc rl rv rr =>
          rcases hdm : delMin (.node rc rl rv rr) with ⟨mc, mv, x', ip⟩
          have hdet : detach c (.node lc ll lv lr) v (.node rc rl rv rr) p =
              (mc, x', ip ++ ⟨Dir.right, c, mv, .node lc ll lv lr⟩ :: p) := by
            simp [detach, hdm]
          rw [hdet]
          simp only
          cases c with
          | black =>
            obtain ⟨k, hk, hl, hr⟩ := black_isRB_inv hz
            subst hk
            have hq : PathRB (⟨Dir.right, Color.black, mv, .node lc ll lv lr⟩ :: p) k :=
              PathRB.black hl hp
            have hspec := delMin_spec (.node rc rl rv rr) k
              (⟨Dir.right, Color.black, mv, .node lc ll lv lr⟩ :: p) hr
              (by intro h; cases h) (fun _ => rfl) hq
            rw [hdm] at hspec
            obtain ⟨hblack, hred'⟩ := hspec
            cases mc with
            | black =>
              rw [if_pos rfl]
              obtain ⟨hx, hpath⟩ := hblack rfl
              obtain ⟨N', h1, h2⟩ := eraseFixup_rb _ x' 1 (FixOk_of_isRB hx) hpath
              rw [blacken_eq_of_black h2]
              exact ⟨h2, N', h1⟩
            | red =>
              rw [if_neg (by intro h; cases h)]
              obtain ⟨hx, hpath⟩ := hred' rfl
              subst hx
              obtain ⟨N', h1, h2⟩ := plug_rb hpath IsRB.nil (fun h => by cases h)
              rw [blacken_eq_of_black h2]
              exact ⟨h2, N', h1⟩
          | red =>
            obtain ⟨hl, hr, hlb, hrb⟩ := red_isRB_inv hz
            have hq : PathRB (⟨Dir.right, Color.red, mv, .node lc ll lv lr⟩ :: p) m :=
              PathRB.red hl hlb (hzred rfl) hp
            have hspec := delMin_spec (.node rc rl rv rr) m
              (⟨Dir.right, Color.red, mv, .node lc ll lv lr⟩ :: p) hr
              (by intro h; cases h) (fun hc => by rw [hrb] at hc; cases hc) hq
            rw [hdm] at hspec
            obtain ⟨hblack, hred'⟩ := hspec
            cases mc with
            | black =>
              rw [if_pos rfl]
              obtain ⟨hx, hpath⟩ := hblack rfl
              obtain ⟨N', h1, h2⟩ := eraseFixup_rb _ x' 1 (FixOk_of_isRB hx) hpath
              rw [blacken_eq_of_black h2]
              exact ⟨h2, N', h1⟩
            | red =>
              rw [if_neg (by intro h; cases h)]
              obtain ⟨hx, hpath⟩ := hred' rfl
              subst hx
              obtain ⟨N', h1, h2⟩ := plug_rb hpath IsRB.nil (fun h => by cases h)
              rw [blacken_eq_of_black h2]
              exact ⟨h2, N', h1⟩

/-- One tree operation: an `insert` or an `erase` call. -/
inductive Op where
  | ins (v : Int)
  | del (v : Int)
  deriving DecidableEq, Repr

/-- Apply one operation (discarding the success flag, as a driver loop does). -/
def applyOp (t : STree) : Op → STree
  | .ins v => (insert t v).2
  | .del v => (erase t v).2

/-- The tree after a whole call sequence, starting from the empty tree. -/
def applyOps (ops : List Op) : STree := ops.foldl applyOp .nil

theorem applyOp_valid {t : STree} (h : Valid t) (op : Op) : Valid (applyOp t op) := by
  cases op with
  | ins v => exact insert_valid h
  | del v => exact erase_valid h

theorem applyOps_valid (ops : List Op) : Valid (applyOps ops) := by
  have hgen : ∀ (l : List Op) (t : STree), Valid t → Valid (l.foldl applyOp t) := by
    intro l
    induction l with
    | nil => intro t h; exact h
    | cons op l ih => intro t h; exact ih _ (applyOp_valid h op)
  exact hgen ops .nil Valid.nil

theorem is_valid_of_valid {t : STree} (h : Valid t) : is_valid t = true := by
  obtain ⟨hb, n, hn⟩ := h
  cases t with
  | nil => rfl
  | node c l v r =>
    simp only [is_valid, Bool.and_eq_true, beq_iff_eq]
    exact ⟨hb, by rw [validate_of_isRB hn]; rfl⟩

end RB

/-- C1: after every operation in any sequence of `insert` and `erase` calls
starting from the empty tree, `is_valid()` returns true: the root is BLACK,
no RED node has a RED child, and all paths from a node to an absent-child
position pass the same number of BLACK nodes. -/
theorem C1_is_valid_after_every_operation :
    ∀ ops : List RB.Op, RB.is_valid (RB.applyOps ops) = true :=
  fun ops => RB.is_valid_of_valid (RB.applyOps_valid ops)

namespace RB

/-! ### In-order semantics

The values to the left and to the right of a position, read off its parent
chain, and the decomposition of the whole tree's in-order list around a
focused subtree. -/

/-- Values lying before the focused position in the in-order traversal that
are contributed by the parent chain. -/
def pathLeft : Path → List Int
  | [] => []
  | ⟨.left, _, _, _⟩ :: p => pathLeft p
  | ⟨.right, _, v, sib⟩ :: p => pathLeft p ++ toList sib ++ [v]

/-- Values lying after the focused position in the in-order traversal that
are contributed by the parent chain. -/
def pathRight : Path → List Int
  | [] => []
  | ⟨.left, _, v, sib⟩ :: p => v :: toList sib ++ pathRight p
  | ⟨.right, _, _, _⟩ :: p => pathRight p

theorem plug_toList : ∀ (p : Path) (t : STree),
    toList (plug t p) = pathLeft p ++ toList t ++ pathRight p := by
  intro p
  induction p with
  | nil => intro t; simp [plug, pathLeft, pathRight]
  | cons f p ih =>
    intro t
    obtain ⟨fd, fc, fv, sib⟩ := f
    cases fd with
    | left =>
      simp [plug, frameNode, ih, pathLeft, pathRight, toList]
    | right =>
      simp [plug, frameNode, ih, pathLeft, pathRight, toList]

theorem plug_append : ∀ (p₁ p₂ : Path) (t : STree),
    plug t (p₁ ++ p₂) = plug (plug t p₁) p₂ := by
  intro p₁
  induction p₁ with
  | nil => intro p₂ t; rfl
  | cons f p ih => intro p₂ t; simp [plug, ih]

theorem toList_blacken (t : STree) : toList (blacken t) = toList t := by
  cases t <;> rfl

theorem toList_redden (t : STree) : toList (redden t) = toList t := by
  cases t <;> rfl

/-- Binary-search-tree order (invariants 1-2 of the spec): values in the
left subtree are smaller, values in the right subtree larger. -/
inductive OrderedT : STree → Prop where
  | nil : OrderedT .nil
  | node {c : Color} {l r : STree} {v : Int} :
      OrderedT l → OrderedT r →
      (∀ y ∈ toList l, y < v) → (∀ y ∈ toList r, v < y) →
      OrderedT (.node c l v r)

theorem orderedT_iff_sorted : ∀ {t : STree},
    OrderedT t ↔ List.Sorted (· < ·) (toList t) := by
  intro t
  induction t with
  | nil => exact iff_of_true OrderedT.nil List.sorted_nil
  | node c l v r ihl ihr =>
    constructor
    · intro h
      cases h with
      | node hl hr hlt hgt =>
        rw [toList]
        refine List.pairwise_append.mpr ⟨ihl.mp hl, ?_, ?_⟩
        · exact List.pairwise_cons.mpr ⟨hgt, ihr.mp hr⟩
        · intro a ha b hb
          rcases List.mem_cons.mp hb with rfl | hb
          · exact hlt a ha
          · exact lt_trans (hlt a ha) (hgt b hb)
    · intro h
      rw [toList] at h
      obtain ⟨h1, h2, h3⟩ := List.pairwise_append.mp h
      obtain ⟨h4, h5⟩ := List.pairwise_cons.mp h2
      exact OrderedT.node (ihl.mpr h1) (ihr.mpr h5) (fun y hy => h3 y hy v (by simp)) h4

end RB

namespace RB

/-- The insert fix-up only recolors and rotates: the in-order value sequence
is unchanged. -/
theorem insertFixup_toList : ∀ (k : Nat) (p : Path) (t : STree), p.length ≤ k →
    toList (insertFixup t p) = toList (plug t p) := by
  intro k
  induction k with
  | zero =>
    intro p t hlen
    have hp0 : p = [] := by
      cases p with
      | nil => rfl
      | cons f p => simp at hlen
    subst hp0
    exact toList_blacken t
  | succ k ih =>
    intro p t hlen
    cases p with
    | nil => exact toList_blacken t
    | cons f p₁ =>
      by_cases hfc : f.c = Color.black
      · have heq : insertFixup t (f :: p₁) = plug t (f :: p₁) := by
          rw [insertFixup.eq_def]
          simp [hfc]
        rw [heq]
      · have hfc' : f.c = Color.red := by
          cases hc : f.c with
          | red => rfl
          | black => exact absurd hc hfc
        obtain ⟨fd, fc, fv, fsib⟩ := f
        simp only at hfc'
        subst hfc'
        cases p₁ with
        | nil =>
          have heq : insertFixup t [⟨fd, Color.red, fv, fsib⟩] =
              plug t [⟨fd, Color.red, fv, fsib⟩] := by
            rw [insertFixup.eq_def]
            simp
          rw [heq]
        | cons g p₂ =>
          obtain ⟨gd, gc, gv, gsib⟩ := g
          have hlen₂ : p₂.length ≤ k := by simp at hlen; omega
          by_cases hu : rootRed gsib = true
          · obtain ⟨u1, uv, u2, rfl⟩ := red_node_of_rootColor (rootRed_true_iff.mp hu)
            cases gd with
            | left =>
              have heq : insertFixup t
                    (⟨fd, Color.red, fv, fsib⟩ ::
                      ⟨Dir.left, gc, gv, STree.node Color.red u1 uv u2⟩ :: p₂) =
                  insertFixup
                    (STree.node Color.red (frameNode ⟨fd, Color.black, fv, fsib⟩ t) gv
                      (STree.node Color.black u1 uv u2)) p₂ := by
                rw [insertFixup.eq_def]
                simp [hu, blacken]
              rw [heq, ih p₂ _ hlen₂]
              have hplug : plug t
                    (⟨fd, Color.red, fv, fsib⟩ ::
                      ⟨Dir.left, gc, gv, STree.node Color.red u1 uv u2⟩ :: p₂) =
                  plug (frameNode ⟨Dir.left, gc, gv, STree.node Color.red u1 uv u2⟩
                    (frameNode ⟨fd, Color.red, fv, fsib⟩ t)) p₂ := rfl
              rw [hplug, plug_toList, plug_toList]
              cases fd <;> simp [frameNode, toList]
            | right =>
              have heq : insertFixup t
                    (⟨fd, Color.red, fv, fsib⟩ ::
                      ⟨Dir.right, gc, gv, STree.node Color.red u1 uv u2⟩ :: p₂) =
                  insertFixup
                    (STree.node Color.red (STree.node Color.black u1 uv u2) gv
                      (frameNode ⟨fd, Color.black, fv, fsib⟩ t)) p₂ := by
                rw [insertFixup.eq_def]
                simp [hu, blacken]
              rw [heq, ih p₂ _ hlen₂]
              have hplug : plug t
                    (⟨fd, Color.red, fv, fsib⟩ ::
                      ⟨Dir.right, gc, gv, STree.node Color.red u1 uv u2⟩ :: p₂) =
                  plug (frameNode ⟨Dir.right, gc, gv, STree.node Color.red u1 uv u2⟩
                    (frameNode ⟨fd, Color.red, fv, fsib⟩ t)) p₂ := rfl
              rw [hplug, plug_toList, plug_toList]
              cases fd <;> simp [frameNode, toList]
          · have heq : insertFixup t
                  (⟨fd, Color.red, fv, fsib⟩ :: ⟨gd, gc, gv, gsib⟩ :: p₂) =
                insertCase4 t ⟨fd, Color.red, fv, fsib⟩ ⟨gd, gc, gv, gsib⟩ p₂ := by
              rw [insertFixup.eq_def]
              simp [hu]
            rw [heq]
            have hplug : plug t (⟨fd, Color.red, fv, fsib⟩ :: ⟨gd, gc, gv, gsib⟩ :: p₂) =
                plug (frameNode ⟨gd, gc, gv, gsib⟩
                  (frameNode ⟨fd, Color.red, fv, fsib⟩ t)) p₂ := rfl
            rw [hplug]
            cases fd with
            | left =>
              cases gd with
              | left =>
                rw [show insertCase4 t ⟨Dir.left, Color.red, fv, fsib⟩ ⟨Dir.left, gc, gv, gsib⟩ p₂ =
                    plug (.node .black t fv (.node .red fsib gv gsib)) p₂ from rfl]
                rw [plug_toList, plug_toList]
                simp [frameNode, toList]
              | right =>
                cases t with
                | nil =>
                  rw [show insertCase4 STree.nil ⟨Dir.left, Color.red, fv, fsib⟩ ⟨Dir.right, gc, gv, gsib⟩ p₂ =
                      plug (.node .red gsib gv (.node .black .nil fv fsib)) p₂ from rfl]
                  rw [plug_toList, plug_toList]
                  simp [frameNode, toList]
                | node tc tl tv tr =>
                  rw [show insertCase4 (STree.node tc tl tv tr) ⟨Dir.left, Color.red, fv, fsib⟩ ⟨Dir.right, gc, gv, gsib⟩ p₂ =
                      plug (.node .black (.node .red gsib gv tl) tv (.node .red tr fv fsib)) p₂ from rfl]
                  rw [plug_toList, plug_toList]
                  simp [frameNode, toList]
            | right =>
              cases gd with
              | left =>
                cases t with
                | nil =>
                  rw [show insertCase4 STree.nil ⟨Dir.right, Color.red, fv, fsib⟩ ⟨Dir.left, gc, gv, gsib⟩ p₂ =
                      plug (.node .red (.node .black fsib fv .nil) gv gsib) p₂ from rfl]
                  rw [plug_toList, plug_toList]
                  simp [frameNode, toList]
                | node tc tl tv tr =>
                  rw [show insertCase4 (STree.node tc tl tv tr) ⟨Dir.right, Color.red, fv, fsib⟩ ⟨Dir.left, gc, gv, gsib⟩ p₂ =
                      plug (.node .black (.node .red fsib fv tl) tv (.node .red tr gv gsib)) p₂ from rfl]
                  rw [plug_toList, plug_toList]
                  simp [frameNode, toList]
              | right =>
                rw [show insertCase4 t ⟨Dir.right, Color.red, fv, fsib⟩ ⟨Dir.right, gc, gv, gsib⟩ p₂ =
                    plug (.node .black (.node .red gsib gv fsib) fv t) p₂ from rfl]
                rw [plug_toList, plug_toList]
                simp [frameNode, toList]

end RB

namespace RB

theorem eraseCasesL_toList (t : STree) (pc : Color) (pv : Int) (s : STree) :
    toList (eraseCasesL t pc pv s).2 = toList t ++ pv :: toList s := by
  rcases s with _ | ⟨sc, sl, sv, sr⟩
  · simp [eraseCasesL, toList, redden, leftChild, rightChild, rootColor]
  · by_cases hbb : rootColor sl = Color.black ∧ rootColor sr = Color.black
    · simp only [eraseCasesL, leftChild, rightChild]
      rw [if_pos hbb]
      simp [toList, redden]
    · cases hcr : rootColor sr with
      | black =>
        rcases sl with _ | ⟨slc, sll, slv, slr⟩
        · simp [eraseCasesL, leftChild, rightChild, hbb, hcr, eraseCase4L, toList,
            toList_blacken]
        · simp only [eraseCasesL, leftChild, rightChild, hbb, hcr]
          split <;> simp [eraseCase4L, toList, redden, toList_blacken]
      | red =>
        rcases sr with _ | ⟨src, srl, srv, srr⟩
        · exact absurd hcr (by decide)
        · simp [eraseCasesL, leftChild, rightChild, hbb, hcr, eraseCase4L, toList,
            toList_blacken]

theorem eraseCasesR_toList (t : STree) (pc : Color) (pv : Int) (s : STree) :
    toList (eraseCasesR t pc pv s).2 = toList s ++ pv :: toList t := by
  rcases s with _ | ⟨sc, sl, sv, sr⟩
  · simp [eraseCasesR, toList, redden, leftChild, rightChild, rootColor]
  · by_cases hbb : rootColor sr = Color.black ∧ rootColor sl = Color.black
    · simp only [eraseCasesR, leftChild, rightChild]
      rw [if_pos hbb]
      simp [toList, redden]
    · cases hcl : rootColor sl with
      | black =>
        rcases sr with _ | ⟨src, srl, srv, srr⟩
        · simp [eraseCasesR, leftChild, rightChild, hbb, hcl, eraseCase4R, toList,
            toList_blacken]
        · simp only [eraseCasesR, leftChild, rightChild, hbb, hcl]
          split <;> simp [eraseCase4R, toList, redden, toList_blacken]
      | red =>
        rcases sl with _ | ⟨slc, sll, slv, slr⟩
        · exact absurd hcl (by decide)
        · simp [eraseCasesR, leftChild, rightChild, hbb, hcl, eraseCase4R, toList,
            toList_blacken]

theorem eraseStepL_toList (t : STree) (fc : Color) (fv : Int) (s : STree) :
    (∀ t', eraseStepL t fc fv s = .cont t' →
      toList t' = toList t ++ fv :: toList s) ∧
    (∀ S, eraseStepL t fc fv s = .finishLocal S →
      toList S = toList t ++ fv :: toList s) ∧
    (∀ S, eraseStepL t fc fv s = .finishRoot S →
      toList S = toList t ++ fv :: toList s) := by
  rcases s with _ | ⟨sc, sl, sv, sr⟩
  · rcases heq : eraseCasesL t fc fv STree.nil with ⟨b, u⟩
    have hu : toList u = toList t ++ fv :: toList STree.nil := by
      have := eraseCasesL_toList t fc fv STree.nil
      rw [heq] at this
      exact this
    cases b with
    | true =>
      refine ⟨?_, ?_, ?_⟩ <;> intro w hw <;> simp [eraseStepL, heq] at hw
      · rw [← hw]; exact hu
    | false =>
      refine ⟨?_, ?_, ?_⟩ <;> intro w hw <;> simp [eraseStepL, heq] at hw
      · rw [← hw]; exact hu
  · cases sc with
    | red =>
      rcases heq : eraseCasesL t Color.red fv sl with ⟨b, u⟩
      have hu : toList u = toList t ++ fv :: toList sl := by
        have := eraseCasesL_toList t Color.red fv sl
        rw [heq] at this
        exact this
      cases b with
      | true =>
        refine ⟨?_, ?_, ?_⟩ <;> intro w hw <;> simp [eraseStepL, heq] at hw
        · rw [← hw]
          simp [toList, toList_blacken, hu]
      | false =>
        refine ⟨?_, ?_, ?_⟩ <;> intro w hw <;> simp [eraseStepL, heq] at hw
        · rw [← hw]
          simp [toList, hu]
    | black =>
      rcases heq : eraseCasesL t fc fv (STree.node Color.black sl sv sr) with ⟨b, u⟩
      have hu : toList u = toList t ++ fv :: toList (STree.node Color.black sl sv sr) := by
        have := eraseCasesL_toList t fc fv (STree.node Color.black sl sv sr)
        rw [heq] at this
        exact this
      cases b with
      | true =>
        refine ⟨?_, ?_, ?_⟩ <;> intro w hw <;> simp [eraseStepL, heq] at hw
        · rw [← hw]; exact hu
      | false =>
        refine ⟨?_, ?_, ?_⟩ <;> intro w hw <;> simp [eraseStepL, heq] at hw
        · rw [← hw]; exact hu

theorem eraseStepR_toList (t : STree) (fc : Color) (fv : Int) (s : STree) :
    (∀ t', eraseStepR t fc fv s = .cont t' →
      toList t' = toList s ++ fv :: toList t) ∧
    (∀ S, eraseStepR t fc fv s = .finishLocal S →
      toList S = toList s ++ fv :: toList t) ∧
    (∀ S, eraseStepR t fc fv s = .finishRoot S →
      toList S = toList s ++ fv :: toList t) := by
  rcases s with _ | ⟨sc, sl, sv, sr⟩
  · rcases heq : eraseCasesR t fc fv STree.nil with ⟨b, u⟩
    have hu : toList u = toList STree.nil ++ fv :: toList t := by
      have := eraseCasesR_toList t fc fv STree.nil
      rw [heq] at this
      exact this
    cases b with
    | true =>
      refine ⟨?_, ?_, ?_⟩ <;> intro w hw <;> simp [eraseStepR, heq] at hw
      · rw [← hw]; exact hu
    | false =>
      refine ⟨?_, ?_, ?_⟩ <;> intro w hw <;> simp [eraseStepR, heq] at hw
      · rw [← hw]; exact hu
  · cases sc with
    | red =>
      rcases heq : eraseCasesR t Color.red fv sr with ⟨b, u⟩
      have hu : toList u = toList sr ++ fv :: toList t := by
        have := eraseCasesR_toList t Color.red fv sr
        rw [heq] at this
        exact this
      cases b with
      | true =>
        refine ⟨?_, ?_, ?_⟩ <;> intro w hw <;> simp [eraseStepR, heq] at hw
        · rw [← hw]
          simp [toList, toList_blacken, hu]
      | false =>
        refine ⟨?_, ?_, ?_⟩ <;> intro w hw <;> simp [eraseStepR, heq] at hw
        · rw [← hw]
          simp [toList, hu]
    | black =>
      rcases heq : eraseCasesR t fc fv (STree.node Color.black sl sv sr) with ⟨b, u⟩
      have hu : toList u = toList (STree.node Color.black sl sv sr) ++ fv :: toList t := by
        have := eraseCasesR_toList t fc fv (STree.node Color.black sl sv sr)
        rw [heq] at this
        exact this
      cases b with
      | true =>
        refine ⟨?_, ?_, ?_⟩ <;> intro w hw <;> simp [eraseStepR, heq] at hw
        · rw [← hw]; exact hu
      | false =>
        refine ⟨?_, ?_, ?_⟩ <;> intro w hw <;> simp [eraseStepR, heq] at hw
        · rw [← hw]; exact hu

/-- The erase fix-up also only recolors and rotates. -/
theorem eraseFixup_toList : ∀ (p : Path) (t : STree),
    toList (eraseFixup t p) = toList (plug t p) := by
  intro p
  induction p with
  | nil => intro t; exact toList_blacken t
  | cons f p ih =>
    intro t
    by_cases hredt : rootColor t = .red
    · have heq : eraseFixup t (f :: p) = plug (blacken t) (f :: p) := by
        rw [eraseFixup.eq_def]
        simp [hredt]
      rw [heq, plug_toList, plug_toList, toList_blacken]
    · have htb : rootColor t = .black := by
        cases h : rootColor t with
        | black => rfl
        | red => exact absurd h hredt
      obtain ⟨fd, fc, fv, s⟩ := f
      have hstep : eraseFixup t (⟨fd, fc, fv, s⟩ :: p) =
          match (match fd with
                 | Dir.left => eraseStepL t fc fv s
                 | Dir.right => eraseStepR t fc fv s) with
          | StepRes.cont t' => eraseFixup t' p
          | StepRes.finishLocal S => plug S p
          | StepRes.finishRoot S => blacken (plug S p) := by
        rw [eraseFixup.eq_def]
        simp [htb]
      rw [hstep]
      have hplug : plug t (⟨fd, fc, fv, s⟩ :: p) =
          plug (frameNode ⟨fd, fc, fv, s⟩ t) p := rfl
      rw [hplug]
      cases fd with
      | left =>
        obtain ⟨hcont, hlocal, hroot⟩ := eraseStepL_toList t fc fv s
        rcases hs : eraseStepL t fc fv s with t' | S | S
        · rw [show (match StepRes.cont t' with
              | StepRes.cont t' => eraseFixup t' p
              | StepRes.finishLocal S => plug S p
              | StepRes.finishRoot S => blacken (plug S p)) = eraseFixup t' p from rfl]
          rw [ih t', plug_toList, plug_toList, hcont t' hs]
          simp [frameNode, toList]
        · rw [show (match StepRes.finishLocal S with
              | StepRes.cont t' => eraseFixup t' p
              | StepRes.finishLocal S => plug S p
              | StepRes.finishRoot S => blacken (plug S p)) = plug S p from rfl]
          rw [plug_toList, plug_toList, hlocal S hs]
          simp [frameNode, toList]
        · rw [show (match StepRes.finishRoot S with
              | StepRes.cont t' => eraseFixup t' p
              | StepRes.finishLocal S => plug S p
              | StepRes.finishRoot S => blacken (plug S p)) = blacken (plug S p) from rfl]
          rw [toList_blacken, plug_toList, plug_toList, hroot S hs]
          simp [frameNode, toList]
      | right =>
        obtain ⟨hcont, hlocal, hroot⟩ := eraseStepR_toList t fc fv s
        rcases hs : eraseStepR t fc fv s with t' | S | S
        · rw [show (match StepRes.cont t' with
              | StepRes.cont t' => eraseFixup t' p
              | StepRes.finishLocal S => plug S p
              | StepRes.finishRoot S => blacken (plug S p)) = eraseFixup t' p from rfl]
          rw [ih t', plug_toList, plug_toList, hcont t' hs]
          simp [frameNode, toList]
        · rw [show (match StepRes.finishLocal S with
              | StepRes.cont t' => eraseFixup t' p
              | StepRes.finishLocal S => plug S p
              | StepRes.finishRoot S => blacken (plug S p)) = plug S p from rfl]
          rw [plug_toList, plug_toList, hlocal S hs]
          simp [frameNode, toList]
        · rw [show (match StepRes.finishRoot S with
              | StepRes.cont t' => eraseFixup t' p
              | StepRes.finishLocal S => plug S p
              | StepRes.finishRoot S => blacken (plug S p)) = blacken (plug S p) from rfl]
          rw [toList_blacken, plug_toList, plug_toList, hroot S hs]
          simp [frameNode, toList]

end RB

namespace RB

theorem locateIns_plug : ∀ (t : STree) (x : Int) (acc p : Path),
    locateIns t x acc = some p → plug .nil p = plug t acc := by
  intro t
  induction t with
  | nil =>
    intro x acc p h
    simp only [locateIns, Option.some.injEq] at h
    subst h
    rfl
  | node c l v r ihl ihr =>
    intro x acc p h
    simp only [locateIns] at h
    by_cases h1 : x < v
    · rw [if_pos h1] at h
      exact ihl x _ p h
    · rw [if_neg h1] at h
      by_cases h2 : v < x
      · rw [if_pos h2] at h
        exact ihr x _ p h
      · rw [if_neg h2] at h
        cases h

theorem locateIns_bounds : ∀ (t : STree) (x : Int) (acc p : Path),
    OrderedT t →
    (∀ y ∈ pathLeft acc, y < x) → (∀ y ∈ pathRight acc, x < y) →
    locateIns t x acc = some p →
    (∀ y ∈ pathLeft p, y < x) ∧ (∀ y ∈ pathRight p, x < y) := by
  intro t
  induction t with
  | nil =>
    intro x acc p _ hL hR h
    simp only [locateIns, Option.some.injEq] at h
    subst h
    exact ⟨hL, hR⟩
  | node c l v r ihl ihr =>
    intro x acc p ho hL hR h
    cases ho with
    | node hol hor holt hogt =>
      simp only [locateIns] at h
      by_cases h1 : x < v
      · rw [if_pos h1] at h
        refine ihl x _ p hol (by simpa [pathLeft] using hL) ?_ h
        intro y hy
        simp only [pathRight, List.mem_cons, List.mem_append] at hy
        rcases hy with (rfl | hy) | hy
        · exact h1
        · exact lt_trans h1 (hogt y hy)
        · exact hR y hy
      · rw [if_neg h1] at h
        by_cases h2 : v < x
        · rw [if_pos h2] at h
          refine ihr x _ p hor ?_ (by simpa [pathRight] using hR) h
          intro y hy
          simp only [pathLeft, List.mem_append, List.mem_singleton] at hy
          rcases hy with (hy | hy) | rfl
          · exact hL y hy
          · exact lt_trans (holt y hy) h2
          · exact h2
        · rw [if_neg h2] at h
          cases h

theorem locateIns_none_iff : ∀ (t : STree) (x : Int) (acc : Path), OrderedT t →
    (locateIns t x acc = none ↔ x ∈ toList t) := by
  intro t
  induction t with
  | nil =>
    intro x acc _
    simp [locateIns, toList]
  | node c l v r ihl ihr =>
    intro x acc ho
    cases ho with
    | node hol hor holt hogt =>
      simp only [locateIns]
      by_cases h1 : x < v
      · rw [if_pos h1, ihl x _ hol]
        simp only [toList, List.mem_append, List.mem_cons]
        constructor
        · intro h; exact Or.inl h
        · intro h
          rcases h with h | rfl | h
          · exact h
          · exact absurd h1 (lt_irrefl x)
          · exact absurd (lt_trans h1 (hogt x h)) (lt_irrefl x)
      · rw [if_neg h1]
        by_cases h2 : v < x
        · rw [if_pos h2, ihr x _ hor]
          simp only [toList, List.mem_append, List.mem_cons]
          constructor
          · intro h; exact Or.inr (Or.inr h)
          · intro h
            rcases h with h | rfl | h
            · exact absurd (lt_trans (holt x h) h2) (lt_irrefl x)
            · exact absurd h2 (lt_irrefl x)
            · exact h
        · rw [if_neg h2]
          have hx : x = v := le_antisymm (not_lt.mp h2) (not_lt.mp h1)
          subst hx
          simp [toList]

/-- Semantics of `insert` on an ordered tree: a stored duplicate leaves the
object bit-for-bit unchanged and reports `false`; otherwise `true` is
reported and the stored set gains exactly `x`, order preserved. -/
theorem insert_semantics (t : STree) (x : Int) (h : OrderedT t) :
    (x ∈ toList t → insert t x = (false, t)) ∧
    (x ∉ toList t → (insert t x).1 = true ∧
      List.Sorted (· < ·) (toList (insert t x).2) ∧
      ∀ y, y ∈ toList (insert t x).2 ↔ y = x ∨ y ∈ toList t) := by
  constructor
  · intro hmem
    have hnone : locateIns t x [] = none := (locateIns_none_iff t x [] h).mpr hmem
    simp [insert, hnone]
  · intro hmem
    cases hloc : locateIns t x [] with
    | none => exact absurd ((locateIns_none_iff t x [] h).mp hloc) hmem
    | some p =>
      have hplug : plug .nil p = t := locateIns_plug t x [] p hloc
      have htl : toList t = pathLeft p ++ pathRight p := by
        have := plug_toList p .nil
        rw [hplug] at this
        simpa [toList] using this
      have hres : toList (insert t x).2 = pathLeft p ++ x :: pathRight p := by
        simp only [insert, hloc]
        rw [insertFixup_toList p.length p _ le_rfl, plug_toList]
        simp [toList]
      obtain ⟨hbl, hbr⟩ := locateIns_bounds t x [] p h
        (by simp [pathLeft]) (by simp [pathRight]) hloc
      have hsorted : List.Sorted (· < ·) (toList t) := orderedT_iff_sorted.mp h
      rw [htl] at hsorted
      obtain ⟨hsl, hsr, hcross⟩ := List.pairwise_append.mp hsorted
      refine ⟨by simp [insert, hloc], ?_, ?_⟩
      · rw [hres]
        refine List.pairwise_append.mpr ⟨hsl, ?_, ?_⟩
        · exact List.pairwise_cons.mpr ⟨hbr, hsr⟩
        · intro a ha b hb
          rcases List.mem_cons.mp hb with rfl | hb
          · exact hbl a ha
          · exact hcross a ha b hb
      · intro y
        rw [hres, htl]
        simp only [List.mem_append, List.mem_cons]
        constructor
        · intro hy
          rcases hy with hy | rfl | hy
          · exact Or.inr (Or.inl hy)
          · exact Or.inl rfl
          · exact Or.inr (Or.inr hy)
        · intro hy
          rcases hy with rfl | hy | hy
          · exact Or.inr (Or.inl rfl)
          · exact Or.inl hy
          · exact Or.inr (Or.inr hy)

theorem insert_ordered {t : STree} {x : Int} (h : OrderedT t) :
    OrderedT (insert t x).2 := by
  by_cases hmem : x ∈ toList t
  · rw [(insert_semantics t x h).1 hmem]
    exact h
  · exact orderedT_iff_sorted.mpr ((insert_semantics t x h).2 hmem).2.1

end RB

namespace RB

theorem locateDel_plug : ∀ (t : STree) (x : Int) (acc : Path) (z : STree) (p : Path),
    locateDel t x acc = some (z, p) → plug z p = plug t acc := by
  intro t
  induction t with
  | nil => intro x acc z p h; simp [locateDel] at h
  | node c l v r ihl ihr =>
    intro x acc z p h
    simp only [locateDel] at h
    by_cases h1 : x < v
    · rw [if_pos h1] at h
      exact ihl x _ z p h
    · rw [if_neg h1] at h
      by_cases h2 : v < x
      · rw [if_pos h2] at h
        exact ihr x _ z p h
      · rw [if_neg h2] at h
        simp only [Option.some.injEq, Prod.mk.injEq] at h
        rw [← h.1, ← h.2]

theorem locateDel_value : ∀ (t : STree) (x : Int) (acc : Path) (z : STree) (p : Path),
    locateDel t x acc = some (z, p) → ∃ c l r, z = .node c l x r := by
  intro t
  induction t with
  | nil => intro x acc z p h; simp [locateDel] at h
  | node c l v r ihl ihr =>
    intro x acc z p h
    simp only [locateDel] at h
    by_cases h1 : x < v
    · rw [if_pos h1] at h
      exact ihl x _ z p h
    · rw [if_neg h1] at h
      by_cases h2 : v < x
      · rw [if_pos h2] at h
        exact ihr x _ z p h
      · rw [if_neg h2] at h
        simp only [Option.some.injEq, Prod.mk.injEq] at h
        have hx : x = v := le_antisymm (not_lt.mp h2) (not_lt.mp h1)
        subst hx
        exact ⟨c, l, r, h.1.symm⟩

theorem locateDel_none_iff : ∀ (t : STree) (x : Int) (acc : Path), OrderedT t →
    (locateDel t x acc = none ↔ x ∉ toList t) := by
  intro t
  induction t with
  | nil =>
    intro x acc _
    simp [locateDel, toList]
  | node c l v r ihl ihr =>
    intro x acc ho
    cases ho with
    | node hol hor holt hogt =>
      simp only [locateDel]
      by_cases h1 : x < v
      · rw [if_pos h1, ihl x _ hol]
        simp only [toList, List.mem_append, List.mem_cons]
        constructor
        · intro hn hmem
          rcases hmem with hmem | rfl | hmem
          · exact hn hmem
          · exact absurd h1 (lt_irrefl x)
          · exact absurd (lt_trans h1 (hogt x hmem)) (lt_irrefl x)
        · intro hn hmem
          exact hn (Or.inl hmem)
      · rw [if_neg h1]
        by_cases h2 : v < x
        · rw [if_pos h2, ihr x _ hor]
          simp only [toList, List.mem_append, List.mem_cons]
          constructor
          · intro hn hmem
            rcases hmem with hmem | rfl | hmem
            · exact absurd (lt_trans (holt x hmem) h2) (lt_irrefl x)
            · exact absurd h2 (lt_irrefl x)
            · exact hn hmem
          · intro hn hmem
            exact hn (Or.inr (Or.inr hmem))
        · rw [if_neg h2]
          have hx : x = v := le_antisymm (not_lt.mp h2) (not_lt.mp h1)
          subst hx
          simp [toList]

theorem delMin_toList : ∀ (t : STree), t ≠ .nil →
    toList t = (delMin t).2.1 :: toList (plug (delMin t).2.2.1 (delMin t).2.2.2) := by
  intro t
  induction t with
  | nil => intro h; exact absurd rfl h
  | node c l v r ihl ihr =>
    intro _
    clear ihr
    cases l with
    | nil => simp [delMin, toList, plug]
    | node lc ll lv lr =>
      rcases hdm : delMin (STree.node lc ll lv lr) with ⟨mc, mv, x, ip⟩
      have hih := ihl (by intro h; cases h)
      rw [hdm] at hih
      simp only at hih
      have hgoal : delMin (STree.node c (STree.node lc ll lv lr) v r) =
          (mc, mv, x, ip ++ [⟨Dir.left, c, v, r⟩]) := by
        simp [delMin, hdm]
      rw [hgoal]
      simp only
      rw [show toList (STree.node c (STree.node lc ll lv lr) v r) =
          toList (STree.node lc ll lv lr) ++ v :: toList r from rfl, hih, plug_append]
      simp [plug, frameNode, toList]

/-- The in-order list after a successful `erase`: the located value's slot is
removed, everything else kept in place. -/
theorem erase_toList_eq (t : STree) (x : Int) (c : Color) (l r : STree) (p : Path)
    (hloc : locateDel t x [] = some (.node c l x r, p)) :
    toList (erase t x).2 = pathLeft p ++ (toList l ++ toList r) ++ pathRight p := by
  unfold erase
  rw [hloc]
  simp only
  cases l with
  | nil =>
    rw [show detach c .nil x r p = (c, r, p) from by simp [detach]]
    simp only
    cases c with
    | black =>
      rw [if_pos rfl, toList_blacken, eraseFixup_toList, plug_toList]
      simp [toList]
    | red =>
      rw [if_neg (by intro h; cases h), toList_blacken, plug_toList]
      simp [toList]
  | node lc ll lv lr =>
    cases r with
    | nil =>
      rw [show detach c (.node lc ll lv lr) x .nil p =
          (c, .node lc ll lv lr, p) from by simp [detach]]
      simp only
      cases c with
      | black =>
        rw [if_pos rfl, toList_blacken, eraseFixup_toList, plug_toList]
        simp [toList]
      | red =>
        rw [if_neg (by intro h; cases h), toList_blacken, plug_toList]
        simp [toList]
    | node rc rl rv rr =>
      rcases hdm : delMin (.node rc rl rv rr) with ⟨mc, mv, x', ip⟩
      rw [show detach c (.node lc ll lv lr) x (.node rc rl rv rr) p =
          (mc, x', ip ++ ⟨Dir.right, c, mv, .node lc ll lv lr⟩ :: p) from by
        simp [detach, hdm]]
      simp only
      have hr := delMin_toList (.node rc rl rv rr) (by intro h; cases h)
      rw [hdm] at hr
      simp only at hr
      have hlist : toList (plug x' (ip ++ ⟨Dir.right, c, mv, .node lc ll lv lr⟩ :: p)) =
          pathLeft p ++ (toList (.node lc ll lv lr) ++ toList (.node rc rl rv rr)) ++
            pathRight p := by
        rw [plug_append]
        rw [show plug (plug x' ip) (⟨Dir.right, c, mv, STree.node lc ll lv lr⟩ :: p) =
            plug (.node c (.node lc ll lv lr) mv (plug x' ip)) p from rfl]
        rw [plug_toList, hr]
        simp [toList]
      cases mc with
      | black =>
        rw [if_pos rfl, toList_blacken, eraseFixup_toList, hlist]
      | red =>
        rw [if_neg (by intro h; cases h), toList_blacken, hlist]

/-- Semantics of `erase` on an ordered tree: an absent value leaves the
object unchanged and reports `false`; otherwise `true` is reported and
exactly the value `x` disappears, order preserved. -/
theorem erase_semantics (t : STree) (x : Int) (h : OrderedT t) :
    (x ∉ toList t → erase t x = (false, t)) ∧
    (x ∈ toList t → (erase t x).1 = true ∧
      List.Sorted (· < ·) (toList (erase t x).2) ∧
      ∀ y, y ∈ toList (erase t x).2 ↔ y ∈ toList t ∧ y ≠ x) := by
  constructor
  · intro hmem
    have hnone : locateDel t x [] = none := (locateDel_none_iff t x [] h).mpr hmem
    simp [erase, hnone]
  · intro hmem
    cases hloc : locateDel t x [] with
    | none => exact absurd hmem ((locateDel_none_iff t x [] h).mp hloc)
    | some zp =>
      obtain ⟨z, p⟩ := zp
      obtain ⟨c, l, r, rfl⟩ := locateDel_value t x [] z p hloc
      have hflag : (erase t x).1 = true := by
        unfold erase
        rw [hloc]
      have htl : toList t = (pathLeft p ++ toList l) ++ x :: (toList r ++ pathRight p) := by
        have hplug := locateDel_plug t x [] _ p hloc
        have := plug_toList p (.node c l x r)
        rw [hplug] at this
        simp only [plug] at this
        rw [this, toList]
        simp
      have hres : toList (erase t x).2 =
          (pathLeft p ++ toList l) ++ (toList r ++ pathRight p) := by
        rw [erase_toList_eq t x c l r p hloc]
        simp
      have hsorted : List.Sorted (· < ·) (toList t) := orderedT_iff_sorted.mp h
      rw [htl] at hsorted
      have hsub : List.Sublist
          ((pathLeft p ++ toList l) ++ (toList r ++ pathRight p))
          ((pathLeft p ++ toList l) ++ x :: (toList r ++ pathRight p)) :=
        List.Sublist.append (List.Sublist.refl _)
          (List.sublist_cons_of_sublist x (List.Sublist.refl _))
      refine ⟨hflag, ?_, ?_⟩
      · rw [hres]
        exact List.Pairwise.sublist hsub hsorted
      · obtain ⟨h1, h2, h3⟩ := List.pairwise_append.mp hsorted
        obtain ⟨h4, _⟩ := List.pairwise_cons.mp h2
        intro y
        rw [hres, htl]
        simp only [List.mem_append, List.mem_cons]
        constructor
        · intro hy
          rcases hy with hy | hy
          · exact ⟨Or.inl hy, ne_of_lt (h3 y (List.mem_append.mpr hy) x (by simp))⟩
          · exact ⟨Or.inr (Or.inr hy), ne_of_gt (h4 y (List.mem_append.mpr hy))⟩
        · intro ⟨hy, hne⟩
          rcases hy with hy | rfl | hy
          · exact Or.inl hy
          · exact absurd rfl hne
          · exact Or.inr hy

theorem erase_ordered {t : STree} {x : Int} (h : OrderedT t) :
    OrderedT (erase t x).2 := by
  by_cases hmem : x ∈ toList t
  · exact orderedT_iff_sorted.mpr ((erase_semantics t x h).2 hmem).2.1
  · rw [(erase_semantics t x h).1 hmem]
    exact h

end RB

namespace RB

/-- Any tree reachable by a sequence of operations from the empty tree is a
binary search tree. -/
theorem applyOps_ordered (ops : List Op) : OrderedT (applyOps ops) := by
  have hgen : ∀ (l : List Op) (t : STree), OrderedT t → OrderedT (l.foldl applyOp t) := by
    intro l
    induction l with
    | nil => intro t h; exact h
    | cons op l ih =>
      intro t h
      refine ih _ ?_
      cases op with
      | ins v => exact insert_ordered h
      | del v => exact erase_ordered h
  exact hgen ops .nil OrderedT.nil

theorem subtree_size_eq_length : ∀ t : STree, subtree_size t = (toList t).length := by
  intro t
  induction t with
  | nil => rfl
  | node c l v r ihl ihr => simp [subtree_size, toList, ihl, ihr]; omega

theorem order_statistics_eq : ∀ (t : STree) (w : Int), OrderedT t → w ∈ toList t →
    order_statistics t w = ((toList t).filter (fun y => decide (y < w))).length := by
  intro t
  induction t with
  | nil => intro w _ hw; simp [toList] at hw
  | node c l v r ihl ihr =>
    intro w ho hw
    cases ho with
    | node hol hor holt hogt =>
      simp only [toList, List.mem_append, List.mem_cons] at hw
      by_cases h1 : w < v
      · have hwl : w ∈ toList l := by
          rcases hw with hw | rfl | hw
          · exact hw
          · exact absurd h1 (lt_irrefl w)
          · exact absurd (lt_trans h1 (hogt w hw)) (lt_irrefl w)
        rw [show order_statistics (STree.node c l v r) w = order_statistics l w from by
          simp [order_statistics, h1]]
        rw [ihl w hol hwl]
        rw [show toList (STree.node c l v r) = toList l ++ v :: toList r from rfl]
        rw [List.filter_append]
        have hv : (decide (v < w)) = false := by simp; omega
        have hr : (toList r).filter (fun y => decide (y < w)) = [] := by
          rw [List.filter_eq_nil_iff]
          intro y hy
          simp
          have := hogt y hy
          omega
        simp [hv, hr]
      · by_cases h2 : v < w
        · have hwr : w ∈ toList r := by
            rcases hw with hw | rfl | hw
            · exact absurd (lt_trans (holt w hw) h2) (lt_irrefl w)
            · exact absurd h2 (lt_irrefl w)
            · exact hw
          rw [show order_statistics (STree.node c l v r) w =
              subtree_size l + 1 + order_statistics r w from by
            simp [order_statistics, h1, h2]]
          rw [ihr w hor hwr]
          rw [show toList (STree.node c l v r) = toList l ++ v :: toList r from rfl]
          rw [List.filter_append]
          have hl : (toList l).filter (fun y => decide (y < w)) = toList l := by
            rw [List.filter_eq_self]
            intro y hy
            simp
            have := holt y hy
            omega
          have hv : (decide (v < w)) = true := by simp; omega
          simp [hl, hv, subtree_size_eq_length]
          omega
        · have hweq : w = v := le_antisymm (not_lt.mp h2) (not_lt.mp h1)
          subst hweq
          rw [show order_statistics (STree.node c l w r) w = subtree_size l from by
            simp [order_statistics]]
          rw [show toList (STree.node c l w r) = toList l ++ w :: toList r from rfl]
          rw [List.filter_append]
          have hl : (toList l).filter (fun y => decide (y < w)) = toList l := by
            rw [List.filter_eq_self]
            intro y hy
            simp
            exact holt y hy
          have hv : (decide (w < w)) = false := by simp
          have hr : (toList r).filter (fun y => decide (y < w)) = [] := by
            rw [List.filter_eq_nil_iff]
            intro y hy
            simp
            have := hogt y hy
            omega
          simp [hl, hv, hr, subtree_size_eq_length]

theorem rank_lower_candidate_spec : ∀ (t : STree) (x : Int), OrderedT t →
    (rank_lower_candidate t x = none → ∀ y ∈ toList t, y < x) ∧
    (∀ w, rank_lower_candidate t x = some w → w ∈ toList t ∧ x ≤ w ∧
      ∀ y ∈ toList t, y < x ∨ w ≤ y) := by
  intro t
  induction t with
  | nil =>
    intro x _
    constructor
    · intro _ y hy
      simp [toList] at hy
    · intro w hw
      simp [rank_lower_candidate] at hw
  | node c l v r ihl ihr =>
    intro x ho
    cases ho with
    | node hol hor holt hogt =>
      by_cases h1 : v < x
      · have hcand : rank_lower_candidate (STree.node c l v r) x =
            rank_lower_candidate r x := by
          simp [rank_lower_candidate, h1]
        rw [hcand]
        constructor
        · intro hn y hy
          simp only [toList, List.mem_append, List.mem_cons] at hy
          rcases hy with hy | rfl | hy
          · exact lt_trans (holt y hy) h1
          · exact h1
          · exact (ihr x hor).1 hn y hy
        · intro w hw
          obtain ⟨hmem, hle, hall⟩ := (ihr x hor).2 w hw
          refine ⟨by simp [toList]; right; right; exact hmem, hle, ?_⟩
          intro y hy
          simp only [toList, List.mem_append, List.mem_cons] at hy
          rcases hy with hy | rfl | hy
          · exact Or.inl (lt_trans (holt y hy) h1)
          · exact Or.inl h1
          · exact hall y hy
      · have hxv : x ≤ v := not_lt.mp h1
        have hcand : rank_lower_candidate (STree.node c l v r) x =
            some ((rank_lower_candidate l x).getD v) := by
          simp [rank_lower_candidate, h1]
        rw [hcand]
        constructor
        · intro hn
          cases hn
        · intro w hw
          simp only [Option.some.injEq] at hw
          cases hcl : rank_lower_candidate l x with
          | none =>
            rw [hcl] at hw
            simp at hw
            subst hw
            refine ⟨by simp [toList], hxv, ?_⟩
            intro y hy
            simp only [toList, List.mem_append, List.mem_cons] at hy
            rcases hy with hy | rfl | hy
            · exact Or.inl ((ihl x hol).1 hcl y hy)
            · exact Or.inr le_rfl
            · exact Or.inr (le_of_lt (hogt y hy))
          | some w' =>
            rw [hcl] at hw
            simp at hw
            subst hw
            obtain ⟨hmem, hle, hall⟩ := (ihl x hol).2 w' hcl
            refine ⟨by simp [toList]; left; exact hmem, hle, ?_⟩
            intro y hy
            simp only [toList, List.mem_append, List.mem_cons] at hy
            rcases hy with hy | rfl | hy
            · exact hall y hy
            · exact Or.inr (le_of_lt (holt w' hmem))
            · exact Or.inr (le_of_lt (lt_trans (holt w' hmem) (hogt y hy)))

theorem rank_upper_candidate_spec : ∀ (t : STree) (x : Int), OrderedT t →
    (rank_upper_candidate t x = none → ∀ y ∈ toList t, y ≤ x) ∧
    (∀ w, rank_upper_candidate t x = some w → w ∈ toList t ∧ x < w ∧
      ∀ y ∈ toList t, y ≤ x ∨ w ≤ y) := by
  intro t
  induction t with
  | nil =>
    intro x _
    constructor
    · intro _ y hy
      simp [toList] at hy
    · intro w hw
      simp [rank_upper_candidate] at hw
  | node c l v r ihl ihr =>
    intro x ho
    cases ho with
    | node hol hor holt hogt =>
      by_cases h1 : x < v
      · have hcand : rank_upper_candidate (STree.node c l v r) x =
            some ((rank_upper_candidate l x).getD v) := by
          simp [rank_upper_candidate, h1]
        rw [hcand]
        constructor
        · intro hn
          cases hn
        · intro w hw
          simp only [Option.some.injEq] at hw
          cases hcl : rank_upper_candidate l x with
          | none =>
            rw [hcl] at hw
            simp at hw
            subst hw
            refine ⟨by simp [toList], h1, ?_⟩
            intro y hy
            simp only [toList, List.mem_append, List.mem_cons] at hy
            rcases hy with hy | rfl | hy
            · exact Or.inl ((ihl x hol).1 hcl y hy)
            · exact Or.inr le_rfl
            · exact Or.inr (le_of_lt (hogt y hy))
          | some w' =>
            rw [hcl] at hw
            simp at hw
            subst hw
            obtain ⟨hmem, hlt, hall⟩ := (ihl x hol).2 w' hcl
            refine ⟨by simp [toList]; left; exact hmem, hlt, ?_⟩
            intro y hy
            simp only [toList, List.mem_append, List.mem_cons] at hy
            rcases hy with hy | rfl | hy
            · exact hall y hy
            · exact Or.inr (le_of_lt (holt w' hmem))
            · exact Or.inr (le_of_lt (lt_trans (holt w' hmem) (hogt y hy)))
      · have hcand : rank_upper_candidate (STree.node c l v r) x =
            rank_upper_candidate r x := by
          simp [rank_upper_candidate, h1]
        rw [hcand]
        have hvx : v ≤ x := not_lt.mp h1
        constructor
        · intro hn y hy
          simp only [toList, List.mem_append, List.mem_cons] at hy
          rcases hy with hy | rfl | hy
          · exact le_of_lt (lt_of_lt_of_le (holt y hy) hvx)
          · exact hvx
          · exact (ihr x hor).1 hn y hy
        · intro w hw
          obtain ⟨hmem, hlt, hall⟩ := (ihr x hor).2 w hw
          refine ⟨by simp [toList]; right; right; exact hmem, hlt, ?_⟩
          intro y hy
          simp only [toList, List.mem_append, List.mem_cons] at hy
          rcases hy with hy | rfl | hy
          · exact Or.inl (le_of_lt (lt_of_lt_of_le (holt y hy) hvx))
          · exact Or.inl hvx
          · exact hall y hy

theorem rank_lower_bound_eq (t : STree) (x : Int) (h : OrderedT t) :
    rank_lower_bound t x = ((toList t).filter (fun y => decide (y < x))).length := by
  cases hc : rank_lower_candidate t x with
  | none =>
    simp only [rank_lower_bound, hc]
    have hall := (rank_lower_candidate_spec t x h).1 hc
    rw [size, subtree_size_eq_length]
    rw [show (toList t).filter (fun y => decide (y < x)) = toList t from by
      rw [List.filter_eq_self]
      intro y hy
      simpa using hall y hy]
  | some w =>
    simp only [rank_lower_bound, hc]
    obtain ⟨hmem, hle, hall⟩ := (rank_lower_candidate_spec t x h).2 w hc
    rw [order_statistics_eq t w h hmem]
    congr 1
    apply List.filter_congr
    intro y hy
    rcases hall y hy with hy' | hy'
    · simp
      omega
    · simp
      omega

theorem rank_upper_bound_eq (t : STree) (x : Int) (h : OrderedT t) :
    rank_upper_bound t x = ((toList t).filter (fun y => decide (y ≤ x))).length := by
  cases hc : rank_upper_candidate t x with
  | none =>
    simp only [rank_upper_bound, hc]
    have hall := (rank_upper_candidate_spec t x h).1 hc
    rw [size, subtree_size_eq_length]
    rw [show (toList t).filter (fun y => decide (y ≤ x)) = toList t from by
      rw [List.filter_eq_self]
      intro y hy
      simpa using hall y hy]
  | some w =>
    simp only [rank_upper_bound, hc]
    obtain ⟨hmem, hlt, hall⟩ := (rank_upper_candidate_spec t x h).2 w hc
    rw [order_statistics_eq t w h hmem]
    congr 1
    apply List.filter_congr
    intro y hy
    rcases hall y hy with hy' | hy'
    · simp
      omega
    · simp
      omega

end RB

/-- C6: on any BST-ordered tree state (every reachable state is one, by
`RB.applyOps_ordered`), `insert` of a stored value returns `false` leaving
the tree unchanged and otherwise returns `true` adding exactly `v`; `erase`
of an absent value returns `false` leaving the tree unchanged and otherwise
returns `true` removing exactly `v`. -/
theorem C6_insert_erase_contract (t : RB.STree) (x : Int) (h : RB.OrderedT t) :
    (x ∈ RB.toList t → RB.insert t x = (false, t)) ∧
    (x ∉ RB.toList t → (RB.insert t x).1 = true ∧
      ∀ y, y ∈ RB.toList (RB.insert t x).2 ↔ y = x ∨ y ∈ RB.toList t) ∧
    (x ∉ RB.toList t → RB.erase t x = (false, t)) ∧
    (x ∈ RB.toList t → (RB.erase t x).1 = true ∧
      ∀ y, y ∈ RB.toList (RB.erase t x).2 ↔ y ∈ RB.toList t ∧ y ≠ x) := by
  refine ⟨(RB.insert_semantics t x h).1, ?_, (RB.erase_semantics t x h).1, ?_⟩
  · intro hmem
    obtain ⟨h1, _, h3⟩ := (RB.insert_semantics t x h).2 hmem
    exact ⟨h1, h3⟩
  · intro hmem
    obtain ⟨h1, _, h3⟩ := (RB.erase_semantics t x h).2 hmem
    exact ⟨h1, h3⟩

/-- Witness for C6 at a concrete tree `{1, 2, 3}`: inserting the stored 2
fails and changes nothing; erasing the absent 5 fails and changes nothing. -/
theorem C6_insert_erase_contract_witness :
    RB.insert (RB.STree.node .black (.node .red .nil 1 .nil) 2 (.node .red .nil 3 .nil)) 2 =
      (false, RB.STree.node .black (.node .red .nil 1 .nil) 2 (.node .red .nil 3 .nil)) ∧
    RB.erase (RB.STree.node .black (.node .red .nil 1 .nil) 2 (.node .red .nil 3 .nil)) 5 =
      (false, RB.STree.node .black (.node .red .nil 1 .nil) 2 (.node .red .nil 3 .nil)) := by
  have ho : RB.OrderedT
      (RB.STree.node .black (.node .red .nil 1 .nil) 2 (.node .red .nil 3 .nil)) :=
    RB.orderedT_iff_sorted.mpr (by decide)
  refine ⟨(C6_insert_erase_contract _ 2 ho).1 (by decide), ?_⟩
  exact (C6_insert_erase_contract _ 5 ho).2.2.1 (by decide)

/-- C4: on any BST-ordered tree state, `rank_lower_bound(v)` is the number of
stored values strictly below `v` and `rank_upper_bound(v)` the number of
stored values `≤ v`. -/
theorem C4_rank_lower_upper_bound (t : RB.STree) (x : Int) (h : RB.OrderedT t) :
    RB.rank_lower_bound t x = ((RB.toList t).filter (fun y => decide (y < x))).length ∧
    RB.rank_upper_bound t x = ((RB.toList t).filter (fun y => decide (y ≤ x))).length :=
  ⟨RB.rank_lower_bound_eq t x h, RB.rank_upper_bound_eq t x h⟩

/-- Witness for C4 on the concrete tree `{1, 2, 3}` at `v = 2`:
`rank_lower_bound = 1` and `rank_upper_bound = 2`. -/
theorem C4_rank_lower_upper_bound_witness :
    RB.rank_lower_bound (RB.STree.node .black (.node .red .nil 1 .nil) 2 (.node .red .nil 3 .nil)) 2 = 1 ∧
    RB.rank_upper_bound (RB.STree.node .black (.node .red .nil 1 .nil) 2 (.node .red .nil 3 .nil)) 2 = 2 := by
  have h := C4_rank_lower_upper_bound
    (RB.STree.node .black (.node .red .nil 1 .nil) 2 (.node .red .nil 3 .nil)) 2
    (RB.orderedT_iff_sorted.mpr (by decide))
  refine ⟨?_, ?_⟩
  · rw [h.1]
    decide
  · rw [h.2]
    decide

namespace RBCli

/-- The specified output of one `q` command as the code computes it: for
`right > left` the number of stored values in the half-open interval
`(left, right]`, otherwise (including `right = left`) zero. -/
def querySpec (t : RB.STree) (l r : Int) : Nat :=
  if l < r then
    ((RB.toList t).filter (fun y => decide (l < y ∧ y ≤ r))).length
  else 0

/-- The per-command specified outputs of a run. -/
def specOutputs : List Cmd → RB.STree → List Nat
  | [], _ => []
  | .key n :: cs, t => specOutputs cs (RB.insert t n).2
  | .query l r :: cs, t => querySpec t l r :: specOutputs cs t

theorem filter_le_split (l r : Int) (hlr : l < r) : ∀ L : List Int,
    (L.filter (fun y => decide (y ≤ r))).length =
      (L.filter (fun y => decide (y ≤ l))).length +
      (L.filter (fun y => decide (l < y ∧ y ≤ r))).length := by
  intro L
  induction L with
  | nil => rfl
  | cons a L ih =>
    simp only [List.filter_cons]
    by_cases h1 : a ≤ l
    · have h2 : a ≤ r := by omega
      have h4 : ¬(l < a) := by omega
      simp [h1, h2, h4, ih]
      omega
    · by_cases h2 : a ≤ r
      · have h4 : l < a := by omega
        simp [h1, h2, h4, ih]
        omega
      · have h4 : l < a := by omega
        simp [h1, h2, h4, ih]

theorem handle_query_eq (t : RB.STree) (l r : Int) (h : RB.OrderedT t) :
    handle_query t l r = querySpec t l r := by
  unfold handle_query querySpec
  by_cases hlr : l < r
  · rw [if_pos hlr, if_pos hlr]
    simp only [RB.rank_upper_bound_eq t r h, RB.rank_upper_bound_eq t l h]
    rw [filter_le_split l r hlr (RB.toList t)]
    split
    · omega
    · omega
  · rw [if_neg hlr, if_neg hlr]

theorem run_cli_eq_spec : ∀ (cs : List Cmd) (t : RB.STree), RB.OrderedT t →
    run_cli cs t = specOutputs cs t := by
  intro cs
  induction cs with
  | nil => intro t _; rfl
  | cons c cs ih =>
    intro t h
    cases c with
    | key n =>
      simp only [run_cli, specOutputs]
      exact ih _ (RB.insert_ordered h)
    | query l r =>
      simp only [run_cli, specOutputs]
      rw [handle_query_eq t l r h, ih t h]

end RBCli

/-- C8: in the command interpreter, a query `q left right` with
`right = left` always emits 0 even when that value is stored, and for
`right > left` the emitted count is the number of stored integers `x` with
`left < x ≤ right` — the left endpoint is excluded. -/
theorem C8_cli_left_endpoint_excluded (cs : List RBCli.Cmd) :
    RBCli.cli cs = RBCli.specOutputs cs .nil :=
  RBCli.run_cli_eq_spec cs .nil RB.OrderedT.nil

/-- C2 (evaluation): the sample input produces `2 0 3` as claimed, but the
interpreter does not implement the inclusive range of the claim: on
`k 2 k 3 q 2 3` it emits 1 — it drops the stored left endpoint 2 — while the
claim (and the repository's own test expecting `2` for this query) requires
the inclusive count 2.  A query with equal bounds on a stored value emits 0
instead of 1. -/
theorem C2_cli_sample_and_failing_input :
    RBCli.cli [.key 10, .key 20, .query 8 31, .query 6 9, .key 30, .key 40,
      .query 15 40] = [2, 0, 3] ∧
    RBCli.cli [.key 2, .key 3, .query 2 3] = [1] ∧
    RBCli.cli [.key 5, .query 5 5] = [0] := by
  refine ⟨by decide, by decide, by decide⟩

namespace RBA

/-!
Embedding of the subtree-size augmented tree of `src/unnamed/part_003`
(`rb::Tree` with `subtree_size_` in `NodeBase`).  Absent children are real
null pointers (`color_of(nullptr) = BLACK`), so `nil` here is the null
pointer.  As for `RB`, parent pointers become a zipper path whose frames
additionally record the ancestor's stored `subtree_size_` field.

Stored sizes are data, not derived values: a frame or node carries whatever
the code last wrote into `subtree_size_`.  `update_size_upwards` becomes
`updSizes`, recomputing the stored size of every frame on a path bottom-up
exactly where the source calls it (after `transplant`, after a rotation —
which updates from the rotation point to the root — and at the end of
`insert` along the new node's ancestor chain).  The fix-up steps that only
recolor leave stored sizes untouched, as the source does. -/

open RB (Color Dir)

/-- Augmented node: color, stored `subtree_size_`, children and value. -/
inductive ATree where
  | nil
  | node (c : Color) (sz : Nat) (l : ATree) (v : Int) (r : ATree)
  deriving DecidableEq, Repr

/-- `node_size` (part_003 lines 407-410): the stored size, 0 for null. -/
def node_size : ATree → Nat
  | .nil => 0
  | .node _ sz _ _ _ => sz

/-- `color_of` (part_003 lines 390-397). -/
def rootColor : ATree → Color
  | .nil => .black
  | .node c _ _ _ _ => c

/-- `paint(node, BLACK)` (part_003 lines 806-810). -/
def blacken : ATree → ATree
  | .nil => .nil
  | .node _ sz l v r => .node .black sz l v r

/-- `paint(node, RED)`. -/
def redden : ATree → ATree
  | .nil => .nil
  | .node _ sz l v r => .node .red sz l v r

def leftChild : ATree → ATree
  | .nil => .nil
  | .node _ _ l _ _ => l

def rightChild : ATree → ATree
  | .nil => .nil
  | .node _ _ _ _ r => r

/-- A node as built by `make_node` / fixed by `recalc_size` (part_003 lines
413-451): stored size recomputed from the children's stored sizes. -/
def mkNode (c : Color) (l : ATree) (v : Int) (r : ATree) : ATree :=
  .node c (node_size l + node_size r + 1) l v r

/-- In-order traversal. -/
def toList : ATree → List Int
  | .nil => []
  | .node _ _ l v r => toList l ++ v :: toList r

/-- `size()` (part_003 line 331). -/
def size (t : ATree) : Nat := node_size t

/-- Invariant 6 of the spec: every stored size equals
1 + left stored size + right stored size. -/
def sizeOk : ATree → Bool
  | .nil => true
  | .node _ sz l _ r =>
    sizeOk l && sizeOk r && (sz == node_size l + node_size r + 1)

/-- One ancestor frame: direction, color, stored size, value, other child. -/
structure AFrame where
  d : Dir
  c : Color
  sz : Nat
  v : Int
  sib : ATree
  deriving DecidableEq, Repr

abbrev APath := List AFrame

/-- Rebuild the parent node with its stored size field. -/
def frameNode (f : AFrame) (t : ATree) : ATree :=
  match f.d with
  | .left => .node f.c f.sz t f.v f.sib
  | .right => .node f.c f.sz f.sib f.v t

def plug : ATree → APath → ATree
  | t, [] => t
  | t, f :: p => plug (frameNode f t) p

/-- `update_size_upwards` (part_003 lines 422-428) as a path transformation:
recompute each ancestor's stored size bottom-up from the current content. -/
def updSizes : ATree → APath → APath
  | _, [] => []
  | t, f :: p =>
    let sz' := node_size t + node_size f.sib + 1
    ⟨f.d, f.c, sz', f.v, f.sib⟩ :: updSizes (frameNode ⟨f.d, f.c, sz', f.v, f.sib⟩ t) p

/-- Plug after updating the sizes of every ancestor on the chain. -/
def plugUpd (t : ATree) (p : APath) : ATree := plug t (updSizes t p)

/-- The `exists` flag of `locate` (part_003 lines 481-501). -/
def locateExists : ATree → Int → Bool
  | .nil, _ => false
  | .node _ _ l v r, x =>
    if x < v then locateExists l x
    else if v < x then locateExists r x
    else true

def locateIns : ATree → Int → APath → Option APath
  | .nil, _, acc => some acc
  | .node c sz l v r, x, acc =>
    if x < v then locateIns l x (⟨.left, c, sz, v, r⟩ :: acc)
    else if v < x then locateIns r x (⟨.right, c, sz, v, l⟩ :: acc)
    else none

def locateDel : ATree → Int → APath → Option (ATree × APath)
  | .nil, _, _ => none
  | .node c sz l v r, x, acc =>
    if x < v then locateDel l x (⟨.left, c, sz, v, r⟩ :: acc)
    else if v < x then locateDel r x (⟨.right, c, sz, v, l⟩ :: acc)
    else some (.node c sz l v r, acc)

/-- `finalize_insert_rebalance` (part_003 lines 624-641) — the final
recolor-and-outer-rotation; rebuilt nodes carry recomputed sizes (the
rotation's `recalc_size` calls and the final `update_size_upwards` of
`insert` both write exactly these). -/
def insertCase5 (t : ATree) (f g : AFrame) (p : APath) : ATree :=
  match f.d, g.d with
  | .left, .left =>
    plugUpd (mkNode .black t f.v (mkNode .red f.sib g.v g.sib)) p
  | .right, .right =>
    plugUpd (mkNode .black (mkNode .red g.sib g.v f.sib) f.v t) p
  | .left, .right =>
    plugUpd (mkNode .red g.sib g.v (mkNode .black t f.v f.sib)) p
  | .right, .left =>
    plugUpd (mkNode .red (mkNode .black f.sib f.v t) g.v g.sib) p

/-- `fix_insert_inner_child` (part_003 lines 604-622). -/
def insertCase4 (t : ATree) (f g : AFrame) (p : APath) : ATree :=
  match f.d, g.d, t with
  | .right, .left, .node tc _ tl tv tr =>
    insertCase5 (mkNode f.c f.sib f.v tl) ⟨.left, tc, 0, tv, tr⟩ g p
  | .left, .right, .node tc _ tl tv tr =>
    insertCase5 (mkNode f.c tr f.v f.sib) ⟨.right, tc, 0, tv, tl⟩ g p
  | _, _, _ => insertCase5 t f g p

/-- The parent node recolored BLACK in the RED-uncle case, carrying the
stored size the end-of-insert `update_size_upwards(new_node)` walk writes
into it (it is an ancestor of the new node). -/
def reParent (f : AFrame) (t : ATree) : ATree :=
  match f.d with
  | .left => mkNode .black t f.v f.sib
  | .right => mkNode .black f.sib f.v t

/-- `fix_insert_root` … `fix_insert_red_uncle` (part_003 lines 570-602),
with the final `update_size_upwards(new_node)` of `insert` folded into each
terminal plug (the new node always lies inside the focused subtree, so the
remaining frames are exactly the chain that call recomputes). -/
def insertFixup : ATree → APath → ATree
  | t, [] => blacken t
  | t, f :: p =>
    if f.c = .black then plugUpd t (f :: p)
    else
      match p with
      | [] => plugUpd t [f]
      | g :: p' =>
        if rootColor g.sib == .red then
          insertFixup
            (match g.d with
             | Dir.left => mkNode .red (reParent f t) g.v (blacken g.sib)
             | Dir.right => mkNode .red (blacken g.sib) g.v (reParent f t))
            p'
        else insertCase4 t f g p'

/-- `insert` (part_003 lines 250-274). -/
def insert (t : ATree) (x : Int) : Bool × ATree :=
  match locateIns t x [] with
  | none => (false, t)
  | some p => (true, insertFixup (.node .red 1 .nil x .nil) p)

/-- Successor extraction from the right subtree (`minimum` plus the inner
relinking of `detach_node_with_successor`, part_003 lines 643-649, 736-774);
the returned path carries the stored frame sizes (the caller re-runs
`updSizes` over the whole chain, matching `transplant`'s and the final
`update_size_upwards(successor)` updates). -/
def delMin : ATree → Color × Int × ATree × APath
  | .nil => (.black, 0, .nil, [])
  | .node c _ .nil v r => (c, v, r, [])
  | .node c sz (.node lc lsz ll lv lr) v r =>
    let (mc, mv, x, ip) := delMin (.node lc lsz ll lv lr)
    (mc, mv, x, ip ++ [⟨.left, c, sz, v, r⟩])

/-- `detach_node` (part_003 lines 724-787): the removed color, the fix-up
node and its full chain with all stored sizes recomputed (single-child case:
`transplant`'s `update_size_upwards(parent)`; successor case: the inner
`transplant` plus `recalc_size(successor)` and
`update_size_upwards(successor)`). -/
def detach (c : Color) (sz : Nat) (l : ATree) (_v : Int) (r : ATree) (p : APath) :
    Color × ATree × APath :=
  match l, r with
  | .nil, _ => (c, r, updSizes r p)
  | _, .nil => (c, l, updSizes l p)
  | _, _ =>
    let (mc, mv, x, ip) := delMin r
    (mc, x, updSizes x (ip ++ ⟨.right, c, sz, mv, l⟩ :: p))

inductive StepRes where
  | cont (t : ATree)
  | finishLocal (t : ATree)
  | finishRoot (t : ATree)

/-- `apply_outer_rotation` (part_003 lines 845-857), left direction; rebuilt
nodes carry the sizes their `recalc_size` writes. -/
def eraseCase4L (t : ATree) (pc : Color) (pv : Int) (s : ATree) : ATree :=
  match s with
  | .nil => mkNode pc t pv .nil
  | .node _ _ sl sv sr => mkNode pc (mkNode .black t pv sl) sv (blacken sr)

/-- Cases 2-4 of `erase_fixup_direction` for the left direction (part_003
lines 859-897): the sibling is known non-RED.  The move-up case keeps the
parent's stored size (only colors change there). -/
def eraseCasesL (t : ATree) (pc : Color) (psz : Nat) (pv : Int) (s : ATree) :
    Bool × ATree :=
  if rootColor (leftChild s) = .black ∧ rootColor (rightChild s) = .black then
    (true, .node pc psz t pv (redden s))
  else
    match s with
    | .nil => (true, .node pc psz t pv .nil)
    | .node _ _ sl sv sr =>
      if rootColor sr = .black then
        match sl with
        | .nil => (false, eraseCase4L t pc pv (mkNode .black .nil sv sr))
        | .node _ _ sll slv slr =>
          (false, eraseCase4L t pc pv
            (mkNode .black sll slv (mkNode .red slr sv sr)))
      else (false, eraseCase4L t pc pv s)

/-- Mirror for the right direction. -/
def eraseCase4R (t : ATree) (pc : Color) (pv : Int) (s : ATree) : ATree :=
  match s with
  | .nil => mkNode pc .nil pv t
  | .node _ _ sl sv sr => mkNode pc (blacken sl) sv (mkNode .black sr pv t)

def eraseCasesR (t : ATree) (pc : Color) (psz : Nat) (pv : Int) (s : ATree) :
    Bool × ATree :=
  if rootColor (rightChild s) = .black ∧ rootColor (leftChild s) = .black then
    (true, .node pc psz (redden s) pv t)
  else
    match s with
    | .nil => (true, .node pc psz .nil pv t)
    | .node _ _ sl sv sr =>
      if rootColor sl = .black then
        match sr with
        | .nil => (false, eraseCase4R t pc pv (mkNode .black sl sv .nil))
        | .node _ _ srl srv srr =>
          (false, eraseCase4R t pc pv
            (mkNode .black (mkNode .red sl sv srl) srv srr))
      else (false, eraseCase4R t pc pv s)

/-- `ensure_black_sibling` + the remaining cases for a left child (part_003
lines 815-897).  After the case-1 rotation the new parent is RED, so a
subsequent move-up exits the loop and repaints it BLACK in place. -/
def eraseStepL (t : ATree) (pc : Color) (psz : Nat) (pv : Int) (s : ATree) :
    StepRes :=
  match s with
  | .node .red _ sl sv sr =>
    match eraseCasesL t .red (node_size t + node_size sl + 1) pv sl with
    | (true, t') => .finishLocal (mkNode .black (blacken t') sv sr)
    | (false, S) => .finishRoot (mkNode .black S sv sr)
  | _ =>
    match eraseCasesL t pc psz pv s with
    | (true, t') => .cont t'
    | (false, S) => .finishRoot S

def eraseStepR (t : ATree) (pc : Color) (psz : Nat) (pv : Int) (s : ATree) :
    StepRes :=
  match s with
  | .node .red _ sl sv sr =>
    match eraseCasesR t .red (node_size sr + node_size t + 1) pv sr with
    | (true, t') => .finishLocal (mkNode .black sl sv (blacken t'))
    | (false, S) => .finishRoot (mkNode .black sl sv S)
  | _ =>
    match eraseCasesR t pc psz pv s with
    | (true, t') => .cont t'
    | (false, S) => .finishRoot S

/-- `erase_fixup` (part_003 lines 899-909): climb while the node is a
non-root BLACK position; rotation-ending iterations updated every stored
size up to the root (`rotate`'s `update_size_upwards(pivot_parent)`), hence
the `plugUpd` on those exits; recolor-only exits plug the untouched chain. -/
def eraseFixup : ATree → APath → ATree
  | t, [] => blacken t
  | t, f :: p =>
    if rootColor t = .red then plug (blacken t) (f :: p)
    else
      match (match f.d with
             | Dir.left => eraseStepL t f.c f.sz f.v f.sib
             | Dir.right => eraseStepR t f.c f.sz f.v f.sib) with
      | StepRes.cont t' => eraseFixup t' p
      | StepRes.finishLocal S => plugUpd S p
      | StepRes.finishRoot S => blacken (plugUpd S p)

/-- `erase` (part_003 lines 277-291): no root-repaint outside the fix-up. -/
def erase (t : ATree) (x : Int) : Bool × ATree :=
  match locateDel t x [] with
  | none => (false, t)
  | some (.nil, _) => (false, t)
  | some (.node c sz l v r, p) =>
    let (rc, fx, fp) := detach c sz l v r p
    let t' := if rc = .black then eraseFixup fx fp else plug fx fp
    (true, t')

/-- `compare_lower_bound` (part_003 lines 97-100). -/
def compare_lower_bound (a b : Int) : Bool := a < b

/-- `compare_upper_bound` (part_003 lines 102-105). -/
def compare_upper_bound (a b : Int) : Bool := a ≤ b

/-- `rank_comp_bound` (part_003 lines 341-357): size-guided descent
accumulating stored left-subtree sizes. -/
def rank_comp_bound (t : ATree) (v : Int) (cmp : Int → Int → Bool) : Nat :=
  match t with
  | .nil => 0
  | .node _ _ l x r =>
    if cmp x v then node_size l + 1 + rank_comp_bound r v cmp
    else rank_comp_bound l v cmp

/-- `distance` (part_003 lines 309-319): 0 when `first > second`, else
`rank_comp_bound(second, ≤) - rank_comp_bound(first, <)` (the `assert`
guarantees no underflow; claim C9). -/
def distance (t : ATree) (first second : Int) : Nat :=
  if second < first then 0
  else rank_comp_bound t second compare_upper_bound -
    rank_comp_bound t first compare_lower_bound

/-- `distance_from_root` (part_003 lines 321-328). -/
def distance_from_root (t : ATree) (x : Int) : Nat :=
  if locateExists t x then rank_comp_bound t x compare_lower_bound
  else RB.SIZE_MAX

end RBA

namespace RBA

open RB (Color Dir)

theorem rank_le_size (t : ATree) (v : Int) (cmp : Int → Int → Bool)
    (h : sizeOk t = true) : rank_comp_bound t v cmp ≤ node_size t := by
  induction t with
  | nil => simp [rank_comp_bound, node_size]
  | node c sz l x r ihl ihr =>
    simp only [sizeOk, Bool.and_eq_true, beq_iff_eq] at h
    obtain ⟨⟨hl, hr⟩, hsz⟩ := h
    simp only [rank_comp_bound]
    rw [show node_size (ATree.node c sz l x r) = sz from rfl, hsz]
    split
    · have := ihr hr
      omega
    · have := ihl hl
      omega

/-- Pointwise-stronger comparators yield smaller ranks, for any tree whose
stored sizes are consistent (colors and search order are irrelevant). -/
theorem rank_comp_mono (t : ATree) (v1 v2 : Int) (cmp1 cmp2 : Int → Int → Bool)
    (h : sizeOk t = true) (himp : ∀ x, cmp1 x v1 = true → cmp2 x v2 = true) :
    rank_comp_bound t v1 cmp1 ≤ rank_comp_bound t v2 cmp2 := by
  induction t with
  | nil => simp [rank_comp_bound]
  | node c sz l x r ihl ihr =>
    simp only [sizeOk, Bool.and_eq_true, beq_iff_eq] at h
    obtain ⟨⟨hl, hr⟩, hsz⟩ := h
    simp only [rank_comp_bound]
    cases hc1 : cmp1 x v1 with
    | true =>
      rw [himp x hc1]
      simp only [if_true]
      have := ihr hr
      omega
    | false =>
      simp only [Bool.false_eq_true, if_false]
      cases hc2 : cmp2 x v2 with
      | true =>
        simp only [if_true]
        have := rank_le_size l v1 cmp1 hl
        omega
      | false =>
        simp only [Bool.false_eq_true, if_false]
        exact ihl hl

/-- BST order for the augmented tree. -/
inductive OrderedA : ATree → Prop where
  | nil : OrderedA .nil
  | node {c : Color} {sz : Nat} {l r : ATree} {v : Int} :
      OrderedA l → OrderedA r →
      (∀ y ∈ toList l, y < v) → (∀ y ∈ toList r, v < y) →
      OrderedA (.node c sz l v r)

theorem node_size_eq_length : ∀ {t : ATree}, sizeOk t = true →
    node_size t = (toList t).length := by
  intro t
  induction t with
  | nil => intro _; rfl
  | node c sz l v r ihl ihr =>
    intro h
    simp only [sizeOk, Bool.and_eq_true, beq_iff_eq] at h
    obtain ⟨⟨hl, hr⟩, hsz⟩ := h
    rw [show node_size (ATree.node c sz l v r) = sz from rfl,
      show toList (ATree.node c sz l v r) = toList l ++ v :: toList r from rfl,
      hsz, List.length_append, List.length_cons, ihl hl, ihr hr]
    omega

theorem rank_lower_eq (t : ATree) (v : Int) (ho : OrderedA t) (hs : sizeOk t = true) :
    rank_comp_bound t v compare_lower_bound =
      ((toList t).filter (fun y => decide (y < v))).length := by
  induction t with
  | nil => rfl
  | node c sz l x r ihl ihr =>
    cases ho with
    | node hol hor holt hogt =>
      simp only [sizeOk, Bool.and_eq_true, beq_iff_eq] at hs
      obtain ⟨⟨hl, hr⟩, hsz⟩ := hs
      rw [show toList (ATree.node c sz l x r) = toList l ++ x :: toList r from rfl,
        List.filter_append]
      simp only [rank_comp_bound, compare_lower_bound]
      by_cases hc : x < v
      · have hfl : (toList l).filter (fun y => decide (y < v)) = toList l := by
          rw [List.filter_eq_self]
          intro y hy
          simp
          have := holt y hy
          omega
        simp only [hc]
        simp [hfl, ihr hor hr, node_size_eq_length hl, hc]
        omega
      · have hfr : (toList r).filter (fun y => decide (y < v)) = [] := by
          rw [List.filter_eq_nil_iff]
          intro y hy
          simp
          have := hogt y hy
          omega
        simp only [hc]
        simp [hfr, ihl hol hl, hc]

theorem rank_upper_eq (t : ATree) (v : Int) (ho : OrderedA t) (hs : sizeOk t = true) :
    rank_comp_bound t v compare_upper_bound =
      ((toList t).filter (fun y => decide (y ≤ v))).length := by
  induction t with
  | nil => rfl
  | node c sz l x r ihl ihr =>
    cases ho with
    | node hol hor holt hogt =>
      simp only [sizeOk, Bool.and_eq_true, beq_iff_eq] at hs
      obtain ⟨⟨hl, hr⟩, hsz⟩ := hs
      rw [show toList (ATree.node c sz l x r) = toList l ++ x :: toList r from rfl,
        List.filter_append]
      simp only [rank_comp_bound, compare_upper_bound]
      by_cases hc : x ≤ v
      · have hfl : (toList l).filter (fun y => decide (y ≤ v)) = toList l := by
          rw [List.filter_eq_self]
          intro y hy
          simp
          have := holt y hy
          omega
        simp only [hc]
        simp [hfl, ihr hor hr, node_size_eq_length hl, hc]
        omega
      · have hfr : (toList r).filter (fun y => decide (y ≤ v)) = [] := by
          rw [List.filter_eq_nil_iff]
          intro y hy
          simp
          have := hogt y hy
          omega
        simp only [hc]
        simp [hfr, ihl hol hl, hc]

theorem filter_band_split (lo hi : Int) (hlohi : lo ≤ hi) : ∀ L : List Int,
    (L.filter (fun y => decide (y ≤ hi))).length =
      (L.filter (fun y => decide (y < lo))).length +
      (L.filter (fun y => decide (lo ≤ y ∧ y ≤ hi))).length := by
  intro L
  induction L with
  | nil => rfl
  | cons a L ih =>
    simp only [List.filter_cons]
    by_cases h1 : a < lo
    · have h2 : a ≤ hi := by omega
      have h4 : ¬(lo ≤ a) := by omega
      simp [h1, h2, h4, ih]
      omega
    · by_cases h2 : a ≤ hi
      · have h4 : lo ≤ a := by omega
        simp [h1, h2, h4, ih]
        omega
      · have h4 : lo ≤ a := by omega
        simp [h1, h2, h4, ih]

/-- On consistent states, the augmented `distance` counts the closed
interval `[first, second]`. -/
theorem distance_eq_interval_count (t : ATree) (lo hi : Int)
    (ho : OrderedA t) (hs : sizeOk t = true) (hlohi : lo ≤ hi) :
    distance t lo hi =
      ((toList t).filter (fun y => decide (lo ≤ y ∧ y ≤ hi))).length := by
  unfold distance
  rw [if_neg (by omega)]
  rw [rank_upper_eq t hi ho hs, rank_lower_eq t lo ho hs,
    filter_band_split lo hi hlohi (toList t)]
  omega

end RBA

namespace RB

theorem locateExists_iff : ∀ (t : STree) (x : Int), OrderedT t →
    (locateExists t x = true ↔ x ∈ toList t) := by
  intro t
  induction t with
  | nil =>
    intro x _
    simp [locateExists, toList]
  | node c l v r ihl ihr =>
    intro x ho
    cases ho with
    | node hol hor holt hogt =>
      simp only [locateExists]
      by_cases h1 : x < v
      · rw [if_pos h1, ihl x hol]
        simp only [toList, List.mem_append, List.mem_cons]
        constructor
        · intro h; exact Or.inl h
        · intro h
          rcases h with h | rfl | h
          · exact h
          · exact absurd h1 (lt_irrefl x)
          · exact absurd (lt_trans h1 (hogt x h)) (lt_irrefl x)
      · rw [if_neg h1]
        by_cases h2 : v < x
        · rw [if_pos h2, ihr x hor]
          simp only [toList, List.mem_append, List.mem_cons]
          constructor
          · intro h; exact Or.inr (Or.inr h)
          · intro h
            rcases h with h | rfl | h
            · exact absurd (lt_trans (holt x h) h2) (lt_irrefl x)
            · exact absurd h2 (lt_irrefl x)
            · exact h
        · rw [if_neg h2]
          have hx : x = v := le_antisymm (not_lt.mp h2) (not_lt.mp h1)
          subst hx
          simp [toList]

theorem filter_le_split_eq (v : Int) : ∀ L : List Int,
    (L.filter (fun y => decide (y ≤ v))).length =
      (L.filter (fun y => decide (y < v))).length +
      (L.filter (fun y => decide (y = v))).length := by
  intro L
  induction L with
  | nil => rfl
  | cons a L ih =>
    simp only [List.filter_cons]
    by_cases h1 : a < v
    · have h2 : a ≤ v := by omega
      have h3 : ¬(a = v) := by omega
      simp [h1, h2, h3, ih]
      omega
    · by_cases h2 : a = v
      · have h3 : a ≤ v := by omega
        simp [h1, h2, h3, ih]
        omega
      · have h3 : ¬(a ≤ v) := by omega
        simp [h1, h2, h3, ih]

theorem filter_eq_singleton (v : Int) : ∀ L : List Int, L.Nodup → v ∈ L →
    (L.filter (fun y => decide (y = v))).length = 1 := by
  intro L
  induction L with
  | nil => intro _ h; simp at h
  | cons a L ih =>
    intro hnd hmem
    obtain ⟨hna, hnd'⟩ := List.nodup_cons.mp hnd
    simp only [List.filter_cons]
    by_cases hav : a = v
    · subst hav
      have hz : (L.filter (fun y => decide (y = a))).length = 0 := by
        simp only [List.length_eq_zero, List.filter_eq_nil_iff]
        intro y hy
        simp
        intro he
        rw [he] at hy
        exact absurd hy hna
      simp [hz]
    · have hmem' : v ∈ L := by
        rcases List.mem_cons.mp hmem with he | hm
        · exact absurd he.symm hav
        · exact hm
      simp [hav, ih hnd' hmem']

theorem filter_lt_mono (lo hi : Int) (h : lo ≤ hi) : ∀ L : List Int,
    (L.filter (fun y => decide (y < lo))).length ≤
      (L.filter (fun y => decide (y < hi))).length := by
  intro L
  induction L with
  | nil => exact le_rfl
  | cons a L ih =>
    simp only [List.filter_cons]
    by_cases h1 : a < lo
    · have h2 : a < hi := by omega
      simp [h1, h2]
      omega
    · by_cases h2 : a < hi
      · simp [h1, h2]
        omega
      · simp [h1, h2, ih]

/-- Characterization of the sentinel tree's `distance`: `SIZE_MAX` when an
endpoint is absent; for present endpoints with `lo ≤ hi` the upper-rank
difference (the lower-rank difference of the code coincides with it, both
endpoints being stored); 0 for reversed bounds. -/
theorem distance_spec (t : STree) (lo hi : Int) (h : OrderedT t) :
    ((locateExists t lo = false ∨ locateExists t hi = false) →
      distance t lo hi = SIZE_MAX) ∧
    (locateExists t lo = true → locateExists t hi = true → lo ≤ hi →
      distance t lo hi = rank_upper_bound t hi - rank_upper_bound t lo) ∧
    (locateExists t lo = true → locateExists t hi = true → hi < lo →
      distance t lo hi = 0) := by
  have hnd : (toList t).Nodup := (orderedT_iff_sorted.mp h).nodup
  refine ⟨?_, ?_, ?_⟩
  · intro habs
    unfold distance
    rcases habs with habs | habs <;> rw [habs] <;> simp
  · intro hlo hhi hlh
    unfold distance
    rw [hlo, hhi]
    simp only [Bool.and_self, if_true]
    rw [rank_lower_bound_eq t lo h, rank_lower_bound_eq t hi h,
      rank_upper_bound_eq t lo h, rank_upper_bound_eq t hi h,
      filter_le_split_eq lo (toList t), filter_le_split_eq hi (toList t),
      filter_eq_singleton lo (toList t) hnd ((locateExists_iff t lo h).mp hlo),
      filter_eq_singleton hi (toList t) hnd ((locateExists_iff t hi h).mp hhi)]
    have hmono := filter_lt_mono lo hi hlh (toList t)
    split
    · omega
    · omega
  · intro hlo hhi hlh
    unfold distance
    rw [hlo, hhi]
    simp only [Bool.and_self, if_true]
    rw [rank_lower_bound_eq t lo h, rank_lower_bound_eq t hi h]
    have hmono := filter_lt_mono hi lo (le_of_lt hlh) (toList t)
    rw [if_pos hmono]

end RB

/-- C9: on any size-consistent tree state (every reachable state is one, by
claim C5), when `first > second` is false the rank computed with the
less-or-equal comparator at `second` dominates the rank computed with the
strict-less comparator at `first`; the assertion in `distance` never fires
and the unsigned subtraction cannot underflow. -/
theorem C9_distance_ranks_ordered (t : RBA.ATree) (first second : Int)
    (hsz : RBA.sizeOk t = true) (h : ¬ first > second) :
    RBA.rank_comp_bound t first RBA.compare_lower_bound ≤
      RBA.rank_comp_bound t second RBA.compare_upper_bound := by
  refine RBA.rank_comp_mono t first second _ _ hsz ?_
  intro x hx
  simp only [RBA.compare_lower_bound, decide_eq_true_eq] at hx
  simp only [RBA.compare_upper_bound, decide_eq_true_eq]
  omega

/-- Witness for C9 on the tree holding {1, 2} with `first = 2`,
`second = 2`. -/
theorem C9_distance_ranks_ordered_witness :
    RBA.rank_comp_bound (.node .black 2 (.node .red 1 .nil 1 .nil) 2 .nil) 2
        RBA.compare_lower_bound ≤
      RBA.rank_comp_bound (.node .black 2 (.node .red 1 .nil 1 .nil) 2 .nil) 2
        RBA.compare_upper_bound :=
  C9_distance_ranks_ordered (.node .black 2 (.node .red 1 .nil 1 .nil) 2 .nil) 2 2
    (by decide) (by decide)

/-- C3 counterexample: the augmented tree reached by inserting 5 into the
empty tree stores `{5}`; `distance(5, 5)` evaluates to 1, while
`rank_upper(5) - rank_upper(5)` is 0, so `distance` is not the upper-rank
difference. -/
theorem C3_distance_counterexample :
    RBA.distance (RBA.insert .nil 5).2 5 5 = 1 ∧
    RBA.rank_comp_bound (RBA.insert .nil 5).2 5 RBA.compare_upper_bound -
      RBA.rank_comp_bound (RBA.insert .nil 5).2 5 RBA.compare_upper_bound = 0 ∧
    (1 : Nat) ≠ 0 := ⟨by decide, by decide, by decide⟩

/-- C3 (amended): the augmented `distance(lo, hi)` returns 0 when `hi < lo`
and otherwise `rank_upper(hi) - rank_lower(lo)`, the number of stored values
in the closed interval `[lo, hi]` (one more than the claimed
`rank_upper(hi) - rank_upper(lo)` when `lo` is stored); the sentinel tree's
`distance` returns the `SIZE_MAX` sentinel when either endpoint is absent
and otherwise, for `hi ≥ lo`, the difference `rank_upper(hi) -
rank_upper(lo)` (and 0 for `hi < lo`). -/
theorem C3_distance_amended (tA : RBA.ATree) (tS : RB.STree) (lo hi : Int)
    (hA : RBA.OrderedA tA) (hsz : RBA.sizeOk tA = true) (hS : RB.OrderedT tS) :
    (hi < lo → RBA.distance tA lo hi = 0) ∧
    (lo ≤ hi →
      RBA.distance tA lo hi =
        RBA.rank_comp_bound tA hi RBA.compare_upper_bound -
          RBA.rank_comp_bound tA lo RBA.compare_lower_bound ∧
      RBA.distance tA lo hi =
        ((RBA.toList tA).filter (fun y => decide (lo ≤ y ∧ y ≤ hi))).length) ∧
    ((RB.locateExists tS lo = false ∨ RB.locateExists tS hi = false) →
      RB.distance tS lo hi = RB.SIZE_MAX) ∧
    (RB.locateExists tS lo = true → RB.locateExists tS hi = true → lo ≤ hi →
      RB.distance tS lo hi = RB.rank_upper_bound tS hi - RB.rank_upper_bound tS lo) ∧
    (RB.locateExists tS lo = true → RB.locateExists tS hi = true → hi < lo →
      RB.distance tS lo hi = 0) := by
  obtain ⟨h1, h2, h3⟩ := RB.distance_spec tS lo hi hS
  refine ⟨?_, ?_, h1, h2, h3⟩
  · intro hlt
    unfold RBA.distance
    rw [if_pos hlt]
  · intro hle
    refine ⟨?_, RBA.distance_eq_interval_count tA lo hi hA hsz hle⟩
    unfold RBA.distance
    rw [if_neg (by omega)]

/-- Witness for C3 (amended) on the augmented tree `{1, 2}` and the sentinel
tree `{1, 2}` with `lo = 1`, `hi = 2`. -/
theorem C3_distance_amended_witness :
    RBA.distance (.node .black 2 (.node .red 1 .nil 1 .nil) 2 .nil) 1 2 = 2 ∧
    RB.distance (.node .black (.node .red .nil 1 .nil) 2 .nil) 1 2 =
      RB.rank_upper_bound (.node .black (.node .red .nil 1 .nil) 2 .nil) 2 -
        RB.rank_upper_bound (.node .black (.node .red .nil 1 .nil) 2 .nil) 1 := by
  have h := C3_distance_amended (.node .black 2 (.node .red 1 .nil 1 .nil) 2 .nil)
    (.node .black (.node .red .nil 1 .nil) 2 .nil) 1 2
    (RBA.OrderedA.node (RBA.OrderedA.node RBA.OrderedA.nil RBA.OrderedA.nil
      (by intro y hy; cases hy) (by intro y hy; cases hy))
      RBA.OrderedA.nil (by intro y hy; simp [RBA.toList] at hy; omega)
      (by intro y hy; cases hy))
    (by decide)
    (RB.orderedT_iff_sorted.mpr (by decide))
  refine ⟨?_, (h.2.2.2.1 (by decide) (by decide) (by decide))⟩
  have h2 := (h.2.1 (by decide)).2
  rw [h2]
  decide

namespace RBA

/-! ### In-order semantics of the augmented tree -/

/-- Values before the focused position contributed by the parent chain. -/
def pathLeft : APath → List Int
  | [] => []
  | ⟨.left, _, _, _, _⟩ :: p => pathLeft p
  | ⟨.right, _, _, v, sib⟩ :: p => pathLeft p ++ toList sib ++ [v]

/-- Values after the focused position contributed by the parent chain. -/
def pathRight : APath → List Int
  | [] => []
  | ⟨.left, _, _, v, sib⟩ :: p => v :: toList sib ++ pathRight p
  | ⟨.right, _, _, _, _⟩ :: p => pathRight p

theorem plug_toListA : ∀ (p : APath) (t : ATree),
    toList (plug t p) = pathLeft p ++ toList t ++ pathRight p := by
  intro p
  induction p with
  | nil => intro t; simp [plug, pathLeft, pathRight]
  | cons f p ih =>
    intro t
    obtain ⟨fd, fc, fsz, fv, sib⟩ := f
    cases fd with
    | left => simp [plug, frameNode, ih, pathLeft, pathRight, toList]
    | right => simp [plug, frameNode, ih, pathLeft, pathRight, toList]

theorem plug_appendA : ∀ (p₁ p₂ : APath) (t : ATree),
    plug t (p₁ ++ p₂) = plug (plug t p₁) p₂ := by
  intro p₁
  induction p₁ with
  | nil => intro p₂ t; rfl
  | cons f p ih => intro p₂ t; simp [plug, ih]

theorem toList_blackenA (t : ATree) : toList (blacken t) = toList t := by
  cases t <;> rfl

theorem toList_reddenA (t : ATree) : toList (redden t) = toList t := by
  cases t <;> rfl

theorem node_size_blacken (t : ATree) : node_size (blacken t) = node_size t := by
  cases t <;> rfl

theorem node_size_redden (t : ATree) : node_size (redden t) = node_size t := by
  cases t <;> rfl

theorem sizeOk_blacken (t : ATree) : sizeOk (blacken t) = sizeOk t := by
  cases t <;> rfl

theorem sizeOk_redden (t : ATree) : sizeOk (redden t) = sizeOk t := by
  cases t <;> rfl

theorem pathLeft_updSizes : ∀ (p : APath) (t : ATree),
    pathLeft (updSizes t p) = pathLeft p := by
  intro p
  induction p with
  | nil => intro t; rfl
  | cons f p ih =>
    intro t
    obtain ⟨fd, fc, fsz, fv, sib⟩ := f
    cases fd with
    | left => simp [updSizes, pathLeft, ih]
    | right => simp [updSizes, pathLeft, ih]

theorem pathRight_updSizes : ∀ (p : APath) (t : ATree),
    pathRight (updSizes t p) = pathRight p := by
  intro p
  induction p with
  | nil => intro t; rfl
  | cons f p ih =>
    intro t
    obtain ⟨fd, fc, fsz, fv, sib⟩ := f
    cases fd with
    | left => simp [updSizes, pathRight, ih]
    | right => simp [updSizes, pathRight, ih]

theorem plugUpd_toList (t : ATree) (p : APath) :
    toList (plugUpd t p) = pathLeft p ++ toList t ++ pathRight p := by
  unfold plugUpd
  rw [plug_toListA, pathLeft_updSizes, pathRight_updSizes]

theorem toList_plugUpd_eq_plug (t : ATree) (p : APath) :
    toList (plugUpd t p) = toList (plug t p) := by
  rw [plugUpd_toList, plug_toListA]

theorem orderedA_iff_sorted : ∀ {t : ATree},
    OrderedA t ↔ List.Sorted (· < ·) (toList t) := by
  intro t
  induction t with
  | nil => exact iff_of_true OrderedA.nil List.sorted_nil
  | node c sz l v r ihl ihr =>
    constructor
    · intro h
      cases h with
      | node hl hr hlt hgt =>
        rw [toList]
        refine List.pairwise_append.mpr ⟨ihl.mp hl, ?_, ?_⟩
        · exact List.pairwise_cons.mpr ⟨hgt, ihr.mp hr⟩
        · intro a ha b hb
          rcases List.mem_cons.mp hb with rfl | hb
          · exact hlt a ha
          · exact lt_trans (hlt a ha) (hgt b hb)
    · intro h
      rw [toList] at h
      obtain ⟨h1, h2, h3⟩ := List.pairwise_append.mp h
      obtain ⟨h4, h5⟩ := List.pairwise_cons.mp h2
      exact OrderedA.node (ihl.mpr h1) (ihr.mpr h5) (fun y hy => h3 y hy v (by simp)) h4

theorem red_node_of_rootColorA {t : ATree} (h : rootColor t = .red) :
    ∃ sz l v r, t = .node .red sz l v r := by
  cases t with
  | nil => exact absurd h (by simp [rootColor])
  | node c sz l v r =>
    cases c with
    | red => exact ⟨sz, l, v, r, rfl⟩
    | black => exact absurd h (by simp [rootColor])

end RBA

namespace RBA

open RB (Color Dir)

/-- The augmented insert fix-up only recolors, rotates and rewrites size
fields: the in-order value sequence is unchanged. -/
theorem insertFixup_toListA : ∀ (k : Nat) (p : APath) (t : ATree), p.length ≤ k →
    toList (insertFixup t p) = toList (plug t p) := by
  intro k
  induction k with
  | zero =>
    intro p t hlen
    have hp0 : p = [] := by
      cases p with
      | nil => rfl
      | cons f p => simp at hlen
    subst hp0
    exact toList_blackenA t
  | succ k ih =>
    intro p t hlen
    cases p with
    | nil => exact toList_blackenA t
    | cons f p₁ =>
      by_cases hfc : f.c = Color.black
      · have heq : insertFixup t (f :: p₁) = plugUpd t (f :: p₁) := by
          rw [insertFixup.eq_def]
          simp [hfc]
        rw [heq, toList_plugUpd_eq_plug]
      · have hfc' : f.c = Color.red := by
          cases hc : f.c with
          | red => rfl
          | black => exact absurd hc hfc
        obtain ⟨fd, fc, fsz, fv, fsib⟩ := f
        simp only at hfc'
        subst hfc'
        cases p₁ with
        | nil =>
          have heq : insertFixup t [⟨fd, Color.red, fsz, fv, fsib⟩] =
              plugUpd t [⟨fd, Color.red, fsz, fv, fsib⟩] := by
            rw [insertFixup.eq_def]
            simp
          rw [heq, toList_plugUpd_eq_plug]
        | cons g p₂ =>
          obtain ⟨gd, gc, gsz, gv, gsib⟩ := g
          have hlen₂ : p₂.length ≤ k := by simp at hlen; omega
          by_cases hu : rootColor gsib = Color.red
          · obtain ⟨usz, u1, uv, u2, rfl⟩ := red_node_of_rootColorA hu
            cases gd with
            | left =>
              have heq : insertFixup t
                    (⟨fd, Color.red, fsz, fv, fsib⟩ ::
                      ⟨Dir.left, gc, gsz, gv, ATree.node Color.red usz u1 uv u2⟩ :: p₂) =
                  insertFixup
                    (mkNode .red (reParent ⟨fd, Color.red, fsz, fv, fsib⟩ t) gv
                      (blacken (ATree.node Color.red usz u1 uv u2))) p₂ := by
                rw [insertFixup.eq_def]
                simp [rootColor]
              rw [heq, ih p₂ _ hlen₂]
              have hplug : plug t
                    (⟨fd, Color.red, fsz, fv, fsib⟩ ::
                      ⟨Dir.left, gc, gsz, gv, ATree.node Color.red usz u1 uv u2⟩ :: p₂) =
                  plug (frameNode ⟨Dir.left, gc, gsz, gv,
                      ATree.node Color.red usz u1 uv u2⟩
                    (frameNode ⟨fd, Color.red, fsz, fv, fsib⟩ t)) p₂ := rfl
              rw [hplug, plug_toListA, plug_toListA]
              cases fd <;> simp [frameNode, toList, mkNode, reParent, blacken]
            | right =>
              have heq : insertFixup t
                    (⟨fd, Color.red, fsz, fv, fsib⟩ ::
                      ⟨Dir.right, gc, gsz, gv, ATree.node Color.red usz u1 uv u2⟩ :: p₂) =
                  insertFixup
                    (mkNode .red (blacken (ATree.node Color.red usz u1 uv u2)) gv
                      (reParent ⟨fd, Color.red, fsz, fv, fsib⟩ t)) p₂ := by
                rw [insertFixup.eq_def]
                simp [rootColor]
              rw [heq, ih p₂ _ hlen₂]
              have hplug : plug t
                    (⟨fd, Color.red, fsz, fv, fsib⟩ ::
                      ⟨Dir.right, gc, gsz, gv, ATree.node Color.red usz u1 uv u2⟩ :: p₂) =
                  plug (frameNode ⟨Dir.right, gc, gsz, gv,
                      ATree.node Color.red usz u1 uv u2⟩
                    (frameNode ⟨fd, Color.red, fsz, fv, fsib⟩ t)) p₂ := rfl
              rw [hplug, plug_toListA, plug_toListA]
              cases fd <;> simp [frameNode, toList, mkNode, reParent, blacken]
          · have heq : insertFixup t
                  (⟨fd, Color.red, fsz, fv, fsib⟩ :: ⟨gd, gc, gsz, gv, gsib⟩ :: p₂) =
                insertCase4 t ⟨fd, Color.red, fsz, fv, fsib⟩ ⟨gd, gc, gsz, gv, gsib⟩ p₂ := by
              rw [insertFixup.eq_def]
              simp [hu]
            rw [heq]
            have hplug : plug t
                  (⟨fd, Color.red, fsz, fv, fsib⟩ :: ⟨gd, gc, gsz, gv, gsib⟩ :: p₂) =
                plug (frameNode ⟨gd, gc, gsz, gv, gsib⟩
                  (frameNode ⟨fd, Color.red, fsz, fv, fsib⟩ t)) p₂ := rfl
            rw [hplug]
            cases fd with
            | left =>
              cases gd with
              | left =>
                rw [show insertCase4 t ⟨Dir.left, Color.red, fsz, fv, fsib⟩
                      ⟨Dir.left, gc, gsz, gv, gsib⟩ p₂ =
                    plugUpd (mkNode .black t fv (mkNode .red fsib gv gsib)) p₂ from rfl]
                rw [toList_plugUpd_eq_plug, plug_toListA, plug_toListA]
                simp [frameNode, toList, mkNode]
              | right =>
                cases t with
                | nil =>
                  rw [show insertCase4 ATree.nil ⟨Dir.left, Color.red, fsz, fv, fsib⟩
                        ⟨Dir.right, gc, gsz, gv, gsib⟩ p₂ =
                      plugUpd (mkNode .red gsib gv (mkNode .black .nil fv fsib)) p₂ from rfl]
                  rw [toList_plugUpd_eq_plug, plug_toListA, plug_toListA]
                  simp [frameNode, toList, mkNode]
                | node tc tsz tl tv tr =>
                  rw [show insertCase4 (ATree.node tc tsz tl tv tr)
                        ⟨Dir.left, Color.red, fsz, fv, fsib⟩
                        ⟨Dir.right, gc, gsz, gv, gsib⟩ p₂ =
                      plugUpd (mkNode .black (mkNode .red gsib gv tl) tv
                        (mkNode Color.red tr fv fsib)) p₂ from rfl]
                  rw [toList_plugUpd_eq_plug, plug_toListA, plug_toListA]
                  simp [frameNode, toList, mkNode]
            | right =>
              cases gd with
              | left =>
                cases t with
                | nil =>
                  rw [show insertCase4 ATree.nil ⟨Dir.right, Color.red, fsz, fv, fsib⟩
                        ⟨Dir.left, gc, gsz, gv, gsib⟩ p₂ =
                      plugUpd (mkNode .red (mkNode .black fsib fv .nil) gv gsib) p₂ from rfl]
                  rw [toList_plugUpd_eq_plug, plug_toListA, plug_toListA]
                  simp [frameNode, toList, mkNode]
                | node tc tsz tl tv tr =>
                  rw [show insertCase4 (ATree.node tc tsz tl tv tr)
                        ⟨Dir.right, Color.red, fsz, fv, fsib⟩
                        ⟨Dir.left, gc, gsz, gv, gsib⟩ p₂ =
                      plugUpd (mkNode .black (mkNode Color.red fsib fv tl) tv
                        (mkNode .red tr gv gsib)) p₂ from rfl]
                  rw [toList_plugUpd_eq_plug, plug_toListA, plug_toListA]
                  simp [frameNode, toList, mkNode]
              | right =>
                rw [show insertCase4 t ⟨Dir.right, Color.red, fsz, fv, fsib⟩
                      ⟨Dir.right, gc, gsz, gv, gsib⟩ p₂ =
                    plugUpd (mkNode .black (mkNode .red gsib gv fsib) fv t) p₂ from rfl]
                rw [toList_plugUpd_eq_plug, plug_toListA, plug_toListA]
                simp [frameNode, toList, mkNode]

end RBA

namespace RBA

open RB (Color Dir)

theorem eraseCasesL_toListA (t : ATree) (pc : Color) (psz : Nat) (pv : Int)
    (s : ATree) :
    toList (eraseCasesL t pc psz pv s).2 = toList t ++ pv :: toList s := by
  rcases s with _ | ⟨sc, ssz, sl, sv, sr⟩
  · simp [eraseCasesL, toList, redden, leftChild, rightChild, rootColor]
  · by_cases hbb : rootColor sl = Color.black ∧ rootColor sr = Color.black
    · simp only [eraseCasesL, leftChild, rightChild]
      rw [if_pos hbb]
      simp [toList, redden]
    · cases hcr : rootColor sr with
      | black =>
        rcases sl with _ | ⟨slc, slsz, sll, slv, slr⟩
        · simp [eraseCasesL, leftChild, rightChild, hbb, hcr, eraseCase4L, toList,
            toList_blackenA, mkNode]
        · simp only [eraseCasesL, leftChild, rightChild, hbb, hcr]
          split <;> simp [eraseCase4L, toList, redden, toList_blackenA, mkNode]
      | red =>
        rcases sr with _ | ⟨src, srsz, srl, srv, srr⟩
        · exact absurd hcr (by decide)
        · simp [eraseCasesL, leftChild, rightChild, hbb, hcr, eraseCase4L, toList,
            toList_blackenA, mkNode]

theorem eraseCasesR_toListA (t : ATree) (pc : Color) (psz : Nat) (pv : Int)
    (s : ATree) :
    toList (eraseCasesR t pc psz pv s).2 = toList s ++ pv :: toList t := by
  rcases s with _ | ⟨sc, ssz, sl, sv, sr⟩
  · simp [eraseCasesR, toList, redden, leftChild, rightChild, rootColor]
  · by_cases hbb : rootColor sr = Color.black ∧ rootColor sl = Color.black
    · simp only [eraseCasesR, leftChild, rightChild]
      rw [if_pos hbb]
      simp [toList, redden]
    · cases hcl : rootColor sl with
      | black =>
        rcases sr with _ | ⟨src, srsz, srl, srv, srr⟩
        · simp [eraseCasesR, leftChild, rightChild, hbb, hcl, eraseCase4R, toList,
            toList_blackenA, mkNode]
        · simp only [eraseCasesR, leftChild, rightChild, hbb, hcl]
          split <;> simp [eraseCase4R, toList, redden, toList_blackenA, mkNode]
      | red =>
        rcases sl with _ | ⟨slc, slsz, sll, slv, slr⟩
        · exact absurd hcl (by decide)
        · simp [eraseCasesR, leftChild, rightChild, hbb, hcl, eraseCase4R, toList,
            toList_blackenA, mkNode]

theorem eraseStepL_toListA (t : ATree) (fc : Color) (fsz : Nat) (fv : Int)
    (s : ATree) :
    (∀ t', eraseStepL t fc fsz fv s = .cont t' →
      toList t' = toList t ++ fv :: toList s) ∧
    (∀ S, eraseStepL t fc fsz fv s = .finishLocal S →
      toList S = toList t ++ fv :: toList s) ∧
    (∀ S, eraseStepL t fc fsz fv s = .finishRoot S →
      toList S = toList t ++ fv :: toList s) := by
  rcases s with _ | ⟨sc, ssz, sl, sv, sr⟩
  · rcases heq : eraseCasesL t fc fsz fv ATree.nil with ⟨b, u⟩
    have hu : toList u = toList t ++ fv :: toList ATree.nil := by
      have := eraseCasesL_toListA t fc fsz fv ATree.nil
      rw [heq] at this
      exact this
    cases b with
    | true =>
      refine ⟨?_, ?_, ?_⟩ <;> intro w hw <;> simp [eraseStepL, heq] at hw
      · rw [← hw]; exact hu
    | false =>
      refine ⟨?_, ?_, ?_⟩ <;> intro w hw <;> simp [eraseStepL, heq] at hw
      · rw [← hw]; exact hu
  · cases sc with
    | red =>
      rcases heq : eraseCasesL t Color.red (node_size t + node_size sl + 1) fv sl
        with ⟨b, u⟩
      have hu : toList u = toList t ++ fv :: toList sl := by
        have := eraseCasesL_toListA t Color.red (node_size t + node_size sl + 1) fv sl
        rw [heq] at this
        exact this
      cases b with
      | true =>
        refine ⟨?_, ?_, ?_⟩ <;> intro w hw <;> simp [eraseStepL, heq] at hw
        · rw [← hw]
          simp [toList, toList_blackenA, hu, mkNode]
      | false =>
        refine ⟨?_, ?_, ?_⟩ <;> intro w hw <;> simp [eraseStepL, heq] at hw
        · rw [← hw]
          simp [toList, hu, mkNode]
    | black =>
      rcases heq : eraseCasesL t fc fsz fv (ATree.node Color.black ssz sl sv sr)
        with ⟨b, u⟩
      have hu : toList u = toList t ++ fv :: toList (ATree.node Color.black ssz sl sv sr) := by
        have := eraseCasesL_toListA t fc fsz fv (ATree.node Color.black ssz sl sv sr)
        rw [heq] at this
        exact this
      cases b with
      | true =>
        refine ⟨?_, ?_, ?_⟩ <;> intro w hw <;> simp [eraseStepL, heq] at hw
        · rw [← hw]; exact hu
      | false =>
        refine ⟨?_, ?_, ?_⟩ <;> intro w hw <;> simp [eraseStepL, heq] at hw
        · rw [← hw]; exact hu

theorem eraseStepR_toListA (t : ATree) (fc : Color) (fsz : Nat) (fv : Int)
    (s : ATree) :
    (∀ t', eraseStepR t fc fsz fv s = .cont t' →
      toList t' = toList s ++ fv :: toList t) ∧
    (∀ S, eraseStepR t fc fsz fv s = .finishLocal S →
      toList S = toList s ++ fv :: toList t) ∧
    (∀ S, eraseStepR t fc fsz fv s = .finishRoot S →
      toList S = toList s ++ fv :: toList t) := by
  rcases s with _ | ⟨sc, ssz, sl, sv, sr⟩
  · rcases heq : eraseCasesR t fc fsz fv ATree.nil with ⟨b, u⟩
    have hu : toList u = toList ATree.nil ++ fv :: toList t := by
      have := eraseCasesR_toListA t fc fsz fv ATree.nil
      rw [heq] at this
      exact this
    cases b with
    | true =>
      refine ⟨?_, ?_, ?_⟩ <;> intro w hw <;> simp [eraseStepR, heq] at hw
      · rw [← hw]; exact hu
    | false =>
      refine ⟨?_, ?_, ?_⟩ <;> intro w hw <;> simp [eraseStepR, heq] at hw
      · rw [← hw]; exact hu
  · cases sc with
    | red =>
      rcases heq : eraseCasesR t Color.red (node_size sr + node_size t + 1) fv sr
        with ⟨b, u⟩
      have hu : toList u = toList sr ++ fv :: toList t := by
        have := eraseCasesR_toListA t Color.red (node_size sr + node_size t + 1) fv sr
        rw [heq] at this
        exact this
      cases b with
      | true =>
        refine ⟨?_, ?_, ?_⟩ <;> intro w hw <;> simp [eraseStepR, heq] at hw
        · rw [← hw]
          simp [toList, toList_blackenA, hu, mkNode]
      | false =>
        refine ⟨?_, ?_, ?_⟩ <;> intro w hw <;> simp [eraseStepR, heq] at hw
        · rw [← hw]
          simp [toList, hu, mkNode]
    | black =>
      rcases heq : eraseCasesR t fc fsz fv (ATree.node Color.black ssz sl sv sr)
        with ⟨b, u⟩
      have hu : toList u = toList (ATree.node Color.black ssz sl sv sr) ++ fv :: toList t := by
        have := eraseCasesR_toListA t fc fsz fv (ATree.node Color.black ssz sl sv sr)
        rw [heq] at this
        exact this
      cases b with
      | true =>
        refine ⟨?_, ?_, ?_⟩ <;> intro w hw <;> simp [eraseStepR, heq] at hw
        · rw [← hw]; exact hu
      | false =>
        refine ⟨?_, ?_, ?_⟩ <;> intro w hw <;> simp [eraseStepR, heq] at hw
        · rw [← hw]; exact hu

end RBA

namespace RBA

open RB (Color Dir)

/-- The augmented erase fix-up also only recolors, rotates and rewrites
size fields. -/
theorem eraseFixup_toListA : ∀ (p : APath) (t : ATree),
    toList (eraseFixup t p) = toList (plug t p) := by
  intro p
  induction p with
  | nil => intro t; exact toList_blackenA t
  | cons f p ih =>
    intro t
    by_cases hredt : rootColor t = .red
    · have heq : eraseFixup t (f :: p) = plug (blacken t) (f :: p) := by
        rw [eraseFixup.eq_def]
        simp [hredt]
      rw [heq, plug_toListA, plug_toListA, toList_blackenA]
    · have htb : rootColor t = .black := by
        cases h : rootColor t with
        | black => rfl
        | red => exact absurd h hredt
      obtain ⟨fd, fc, fsz, fv, s⟩ := f
      have hstep : eraseFixup t (⟨fd, fc, fsz, fv, s⟩ :: p) =
          match (match fd with
                 | Dir.left => eraseStepL t fc fsz fv s
                 | Dir.right => eraseStepR t fc fsz fv s) with
          | StepRes.cont t' => eraseFixup t' p
          | StepRes.finishLocal S => plugUpd S p
          | StepRes.finishRoot S => blacken (plugUpd S p) := by
        rw [eraseFixup.eq_def]
        simp [htb]
      rw [hstep]
      have hplug : plug t (⟨fd, fc, fsz, fv, s⟩ :: p) =
          plug (frameNode ⟨fd, fc, fsz, fv, s⟩ t) p := rfl
      rw [hplug]
      cases fd with
      | left =>
        obtain ⟨hcont, hlocal, hroot⟩ := eraseStepL_toListA t fc fsz fv s
        rcases hs : eraseStepL t fc fsz fv s with t' | S | S
        · rw [show (match StepRes.cont t' with
              | StepRes.cont t' => eraseFixup t' p
              | StepRes.finishLocal S => plugUpd S p
              | StepRes.finishRoot S => blacken (plugUpd S p)) = eraseFixup t' p from rfl]
          rw [ih t', plug_toListA, plug_toListA, hcont t' hs]
          simp [frameNode, toList]
        · rw [show (match StepRes.finishLocal S with
              | StepRes.cont t' => eraseFixup t' p
              | StepRes.finishLocal S => plugUpd S p
              | StepRes.finishRoot S => blacken (plugUpd S p)) = plugUpd S p from rfl]
          rw [toList_plugUpd_eq_plug, plug_toListA, plug_toListA, hlocal S hs]
          simp [frameNode, toList]
        · rw [show (match StepRes.finishRoot S with
              | StepRes.cont t' => eraseFixup t' p
              | StepRes.finishLocal S => plugUpd S p
              | StepRes.finishRoot S => blacken (plugUpd S p)) =
              blacken (plugUpd S p) from rfl]
          rw [toList_blackenA, toList_plugUpd_eq_plug, plug_toListA, plug_toListA,
            hroot S hs]
          simp [frameNode, toList]
      | right =>
        obtain ⟨hcont, hlocal, hroot⟩ := eraseStepR_toListA t fc fsz fv s
        rcases hs : eraseStepR t fc fsz fv s with t' | S | S
        · rw [show (match StepRes.cont t' with
              | StepRes.cont t' => eraseFixup t' p
              | StepRes.finishLocal S => plugUpd S p
              | StepRes.finishRoot S => blacken (plugUpd S p)) = eraseFixup t' p from rfl]
          rw [ih t', plug_toListA, plug_toListA, hcont t' hs]
          simp [frameNode, toList]
        · rw [show (match StepRes.finishLocal S with
              | StepRes.cont t' => eraseFixup t' p
              | StepRes.finishLocal S => plugUpd S p
              | StepRes.finishRoot S => blacken (plugUpd S p)) = plugUpd S p from rfl]
          rw [toList_plugUpd_eq_plug, plug_toListA, plug_toListA, hlocal S hs]
          simp [frameNode, toList]
        · rw [show (match StepRes.finishRoot S with
              | StepRes.cont t' => eraseFixup t' p
              | StepRes.finishLocal S => plugUpd S p
              | StepRes.finishRoot S => blacken (plugUpd S p)) =
              blacken (plugUpd S p) from rfl]
          rw [toList_blackenA, toList_plugUpd_eq_plug, plug_toListA, plug_toListA,
            hroot S hs]
          simp [frameNode, toList]

theorem locateIns_plugA : ∀ (t : ATree) (x : Int) (acc p : APath),
    locateIns t x acc = some p → plug .nil p = plug t acc := by
  intro t
  induction t with
  | nil =>
    intro x acc p h
    simp only [locateIns, Option.some.injEq] at h
    subst h
    rfl
  | node c sz l v r ihl ihr =>
    intro x acc p h
    simp only [locateIns] at h
    by_cases h1 : x < v
    · rw [if_pos h1] at h
      exact ihl x _ p h
    · rw [if_neg h1] at h
      by_cases h2 : v < x
      · rw [if_pos h2] at h
        exact ihr x _ p h
      · rw [if_neg h2] at h
        cases h

theorem locateIns_boundsA : ∀ (t : ATree) (x : Int) (acc p : APath),
    OrderedA t →
    (∀ y ∈ pathLeft acc, y < x) → (∀ y ∈ pathRight acc, x < y) →
    locateIns t x acc = some p →
    (∀ y ∈ pathLeft p, y < x) ∧ (∀ y ∈ pathRight p, x < y) := by
  intro t
  induction t with
  | nil =>
    intro x acc p _ hL hR h
    simp only [locateIns, Option.some.injEq] at h
    subst h
    exact ⟨hL, hR⟩
  | node c sz l v r ihl ihr =>
    intro x acc p ho hL hR h
    cases ho with
    | node hol hor holt hogt =>
      simp only [locateIns] at h
      by_cases h1 : x < v
      · rw [if_pos h1] at h
        refine ihl x _ p hol (by simpa [pathLeft] using hL) ?_ h
        intro y hy
        simp only [pathRight, List.mem_cons, List.mem_append] at hy
        rcases hy with (rfl | hy) | hy
        · exact h1
        · exact lt_trans h1 (hogt y hy)
        · exact hR y hy
      · rw [if_neg h1] at h
        by_cases h2 : v < x
        · rw [if_pos h2] at h
          refine ihr x _ p hor ?_ (by simpa [pathRight] using hR) h
          intro y hy
          simp only [pathLeft, List.mem_append, List.mem_singleton] at hy
          rcases hy with (hy | hy) | rfl
          · exact hL y hy
          · exact lt_trans (holt y hy) h2
          · exact h2
        · rw [if_neg h2] at h
          cases h

theorem locateIns_none_iffA : ∀ (t : ATree) (x : Int) (acc : APath), OrderedA t →
    (locateIns t x acc = none ↔ x ∈ toList t) := by
  intro t
  induction t with
  | nil =>
    intro x acc _
    simp [locateIns, toList]
  | node c sz l v r ihl ihr =>
    intro x acc ho
    cases ho with
    | node hol hor holt hogt =>
      simp only [locateIns]
      by_cases h1 : x < v
      · rw [if_pos h1, ihl x _ hol]
        simp only [toList, List.mem_append, List.mem_cons]
        constructor
        · intro h; exact Or.inl h
        · intro h
          rcases h with h | rfl | h
          · exact h
          · exact absurd h1 (lt_irrefl x)
          · exact absurd (lt_trans h1 (hogt x h)) (lt_irrefl x)
      · rw [if_neg h1]
        by_cases h2 : v < x
        · rw [if_pos h2, ihr x _ hor]
          simp only [toList, List.mem_append, List.mem_cons]
          constructor
          · intro h; exact Or.inr (Or.inr h)
          · intro h
            rcases h with h | rfl | h
            · exact absurd (lt_trans (holt x h) h2) (lt_irrefl x)
            · exact absurd h2 (lt_irrefl x)
            · exact h
        · rw [if_neg h2]
          have hx : x = v := le_antisymm (not_lt.mp h2) (not_lt.mp h1)
          subst hx
          simp [toList]

end RBA

namespace RBA

open RB (Color Dir)

/-- Semantics of the augmented `insert` on an ordered tree. -/
theorem insert_semanticsA (t : ATree) (x : Int) (h : OrderedA t) :
    (x ∈ toList t → insert t x = (false, t)) ∧
    (x ∉ toList t → (insert t x).1 = true ∧
      List.Sorted (· < ·) (toList (insert t x).2) ∧
      ∀ y, y ∈ toList (insert t x).2 ↔ y = x ∨ y ∈ toList t) := by
  constructor
  · intro hmem
    have hnone : locateIns t x [] = none := (locateIns_none_iffA t x [] h).mpr hmem
    simp [insert, hnone]
  · intro hmem
    cases hloc : locateIns t x [] with
    | none => exact absurd ((locateIns_none_iffA t x [] h).mp hloc) hmem
    | some p =>
      have hplug : plug .nil p = t := locateIns_plugA t x [] p hloc
      have htl : toList t = pathLeft p ++ pathRight p := by
        have := plug_toListA p .nil
        rw [hplug] at this
        simpa [toList] using this
      have hres : toList (insert t x).2 = pathLeft p ++ x :: pathRight p := by
        simp only [insert, hloc]
        rw [insertFixup_toListA p.length p _ le_rfl, plug_toListA]
        simp [toList]
      obtain ⟨hbl, hbr⟩ := locateIns_boundsA t x [] p h
        (by simp [pathLeft]) (by simp [pathRight]) hloc
      have hsorted : List.Sorted (· < ·) (toList t) := orderedA_iff_sorted.mp h
      rw [htl] at hsorted
      obtain ⟨hsl, hsr, hcross⟩ := List.pairwise_append.mp hsorted
      refine ⟨by simp [insert, hloc], ?_, ?_⟩
      · rw [hres]
        refine List.pairwise_append.mpr ⟨hsl, ?_, ?_⟩
        · exact List.pairwise_cons.mpr ⟨hbr, hsr⟩
        · intro a ha b hb
          rcases List.mem_cons.mp hb with rfl | hb
          · exact hbl a ha
          · exact hcross a ha b hb
      · intro y
        rw [hres, htl]
        simp only [List.mem_append, List.mem_cons]
        constructor
        · intro hy
          rcases hy with hy | rfl | hy
          · exact Or.inr (Or.inl hy)
          · exact Or.inl rfl
          · exact Or.inr (Or.inr hy)
        · intro hy
          rcases hy with rfl | hy | hy
          · exact Or.inr (Or.inl rfl)
          · exact Or.inl hy
          · exact Or.inr (Or.inr hy)

theorem insert_orderedA {t : ATree} {x : Int} (h : OrderedA t) :
    OrderedA (insert t x).2 := by
  by_cases hmem : x ∈ toList t
  · rw [(insert_semanticsA t x h).1 hmem]
    exact h
  · exact orderedA_iff_sorted.mpr ((insert_semanticsA t x h).2 hmem).2.1

theorem locateDel_plugA : ∀ (t : ATree) (x : Int) (acc : APath) (z : ATree)
    (p : APath), locateDel t x acc = some (z, p) → plug z p = plug t acc := by
  intro t
  induction t with
  | nil => intro x acc z p h; simp [locateDel] at h
  | node c sz l v r ihl ihr =>
    intro x acc z p h
    simp only [locateDel] at h
    by_cases h1 : x < v
    · rw [if_pos h1] at h
      exact ihl x _ z p h
    · rw [if_neg h1] at h
      by_cases h2 : v < x
      · rw [if_pos h2] at h
        exact ihr x _ z p h
      · rw [if_neg h2] at h
        simp only [Option.some.injEq, Prod.mk.injEq] at h
        rw [← h.1, ← h.2]

theorem locateDel_valueA : ∀ (t : ATree) (x : Int) (acc : APath) (z : ATree)
    (p : APath), locateDel t x acc = some (z, p) →
    ∃ c sz l r, z = .node c sz l x r := by
  intro t
  induction t with
  | nil => intro x acc z p h; simp [locateDel] at h
  | node c sz l v r ihl ihr =>
    intro x acc z p h
    simp only [locateDel] at h
    by_cases h1 : x < v
    · rw [if_pos h1] at h
      exact ihl x _ z p h
    · rw [if_neg h1] at h
      by_cases h2 : v < x
      · rw [if_pos h2] at h
        exact ihr x _ z p h
      · rw [if_neg h2] at h
        simp only [Option.some.injEq, Prod.mk.injEq] at h
        have hx : x = v := le_antisymm (not_lt.mp h2) (not_lt.mp h1)
        subst hx
        exact ⟨c, sz, l, r, h.1.symm⟩

theorem locateDel_none_iffA : ∀ (t : ATree) (x : Int) (acc : APath), OrderedA t →
    (locateDel t x acc = none ↔ x ∉ toList t) := by
  intro t
  induction t with
  | nil =>
    intro x acc _
    simp [locateDel, toList]
  | node c sz l v r ihl ihr =>
    intro x acc ho
    cases ho with
    | node hol hor holt hogt =>
      simp only [locateDel]
      by_cases h1 : x < v
      · rw [if_pos h1, ihl x _ hol]
        simp only [toList, List.mem_append, List.mem_cons]
        constructor
        · intro hn hmem
          rcases hmem with hmem | rfl | hmem
          · exact hn hmem
          · exact absurd h1 (lt_irrefl x)
          · exact absurd (lt_trans h1 (hogt x hmem)) (lt_irrefl x)
        · intro hn hmem
          exact hn (Or.inl hmem)
      · rw [if_neg h1]
        by_cases h2 : v < x
        · rw [if_pos h2, ihr x _ hor]
          simp only [toList, List.mem_append, List.mem_cons]
          constructor
          · intro hn hmem
            rcases hmem with hmem | rfl | hmem
            · exact absurd (lt_trans (holt x hmem) h2) (lt_irrefl x)
            · exact absurd h2 (lt_irrefl x)
            · exact hn hmem
          · intro hn hmem
            exact hn (Or.inr (Or.inr hmem))
        · rw [if_neg h2]
          have hx : x = v := le_antisymm (not_lt.mp h2) (not_lt.mp h1)
          subst hx
          simp [toList]

theorem delMin_toListA : ∀ (t : ATree), t ≠ .nil →
    toList t = (delMin t).2.1 :: toList (plug (delMin t).2.2.1 (delMin t).2.2.2) := by
  intro t
  induction t with
  | nil => intro h; exact absurd rfl h
  | node c sz l v r ihl ihr =>
    intro _
    clear ihr
    cases l with
    | nil => simp [delMin, toList, plug]
    | node lc lsz ll lv lr =>
      rcases hdm : delMin (ATree.node lc lsz ll lv lr) with ⟨mc, mv, x, ip⟩
      have hih := ihl (by intro h; cases h)
      rw [hdm] at hih
      simp only at hih
      have hgoal : delMin (ATree.node c sz (ATree.node lc lsz ll lv lr) v r) =
          (mc, mv, x, ip ++ [⟨Dir.left, c, sz, v, r⟩]) := by
        simp [delMin, hdm]
      rw [hgoal]
      simp only
      rw [show toList (ATree.node c sz (ATree.node lc lsz ll lv lr) v r) =
          toList (ATree.node lc lsz ll lv lr) ++ v :: toList r from rfl, hih,
        plug_appendA]
      simp [plug, frameNode, toList]

end RBA

namespace RBA

open RB (Color Dir)

/-- The in-order list after a successful augmented `erase`. -/
theorem erase_toList_eqA (t : ATree) (x : Int) (c : Color) (sz : Nat)
    (l r : ATree) (p : APath)
    (hloc : locateDel t x [] = some (.node c sz l x r, p)) :
    toList (erase t x).2 = pathLeft p ++ (toList l ++ toList r) ++ pathRight p := by
  unfold erase
  rw [hloc]
  simp only
  cases l with
  | nil =>
    rw [show detach c sz .nil x r p = (c, r, updSizes r p) from by simp [detach]]
    simp only
    have hpl : toList (plug r (updSizes r p)) =
        pathLeft p ++ (toList ATree.nil ++ toList r) ++ pathRight p := by
      rw [show plug r (updSizes r p) = plugUpd r p from rfl, toList_plugUpd_eq_plug,
        plug_toListA]
      simp [toList]
    cases c with
    | black => rw [if_pos rfl, eraseFixup_toListA, hpl]
    | red => rw [if_neg (by intro h; cases h), hpl]
  | node lc lsz ll lv lr =>
    cases r with
    | nil =>
      rw [show detach c sz (.node lc lsz ll lv lr) x .nil p =
          (c, .node lc lsz ll lv lr, updSizes (.node lc lsz ll lv lr) p) from by
        simp [detach]]
      simp only
      have hpl : toList (plug (ATree.node lc lsz ll lv lr)
          (updSizes (ATree.node lc lsz ll lv lr) p)) =
          pathLeft p ++ (toList (ATree.node lc lsz ll lv lr) ++ toList ATree.nil) ++
            pathRight p := by
        rw [show plug (ATree.node lc lsz ll lv lr)
            (updSizes (ATree.node lc lsz ll lv lr) p) =
            plugUpd (ATree.node lc lsz ll lv lr) p from rfl, toList_plugUpd_eq_plug,
          plug_toListA]
        simp [toList]
      cases c with
      | black => rw [if_pos rfl, eraseFixup_toListA, hpl]
      | red => rw [if_neg (by intro h; cases h), hpl]
    | node rc rsz rl rv rr =>
      rcases hdm : delMin (.node rc rsz rl rv rr) with ⟨mc, mv, x', ip⟩
      rw [show detach c sz (.node lc lsz ll lv lr) x (.node rc rsz rl rv rr) p =
          (mc, x', updSizes x'
            (ip ++ ⟨Dir.right, c, sz, mv, .node lc lsz ll lv lr⟩ :: p)) from by
        simp [detach, hdm]]
      simp only
      have hr := delMin_toListA (.node rc rsz rl rv rr) (by intro h; cases h)
      rw [hdm] at hr
      simp only at hr
      have hlist : toList (plug x' (updSizes x'
          (ip ++ ⟨Dir.right, c, sz, mv, ATree.node lc lsz ll lv lr⟩ :: p))) =
          pathLeft p ++ (toList (ATree.node lc lsz ll lv lr) ++
            toList (ATree.node rc rsz rl rv rr)) ++ pathRight p := by
        rw [show plug x' (updSizes x'
            (ip ++ ⟨Dir.right, c, sz, mv, ATree.node lc lsz ll lv lr⟩ :: p)) =
            plugUpd x' (ip ++ ⟨Dir.right, c, sz, mv, ATree.node lc lsz ll lv lr⟩ :: p)
            from rfl, toList_plugUpd_eq_plug, plug_appendA]
        rw [show plug (plug x' ip)
            (⟨Dir.right, c, sz, mv, ATree.node lc lsz ll lv lr⟩ :: p) =
            plug (.node c sz (.node lc lsz ll lv lr) mv (plug x' ip)) p from rfl]
        rw [plug_toListA, hr]
        simp [toList]
      cases mc with
      | black => rw [if_pos rfl, eraseFixup_toListA, hlist]
      | red => rw [if_neg (by intro h; cases h), hlist]

/-- Semantics of the augmented `erase` on an ordered tree. -/
theorem erase_semanticsA (t : ATree) (x : Int) (h : OrderedA t) :
    (x ∉ toList t → erase t x = (false, t)) ∧
    (x ∈ toList t → (erase t x).1 = true ∧
      List.Sorted (· < ·) (toList (erase t x).2) ∧
      ∀ y, y ∈ toList (erase t x).2 ↔ y ∈ toList t ∧ y ≠ x) := by
  constructor
  · intro hmem
    have hnone : locateDel t x [] = none := (locateDel_none_iffA t x [] h).mpr hmem
    simp [erase, hnone]
  · intro hmem
    cases hloc : locateDel t x [] with
    | none => exact absurd hmem ((locateDel_none_iffA t x [] h).mp hloc)
    | some zp =>
      obtain ⟨z, p⟩ := zp
      obtain ⟨c, sz, l, r, rfl⟩ := locateDel_valueA t x [] z p hloc
      have hflag : (erase t x).1 = true := by
        unfold erase
        rw [hloc]
      have htl : toList t =
          (pathLeft p ++ toList l) ++ x :: (toList r ++ pathRight p) := by
        have hplug := locateDel_plugA t x [] _ p hloc
        have := plug_toListA p (.node c sz l x r)
        rw [hplug] at this
        simp only [plug] at this
        rw [this, toList]
        simp
      have hres : toList (erase t x).2 =
          (pathLeft p ++ toList l) ++ (toList r ++ pathRight p) := by
        rw [erase_toList_eqA t x c sz l r p hloc]
        simp
      have hsorted : List.Sorted (· < ·) (toList t) := orderedA_iff_sorted.mp h
      rw [htl] at hsorted
      have hsub : List.Sublist
          ((pathLeft p ++ toList l) ++ (toList r ++ pathRight p))
          ((pathLeft p ++ toList l) ++ x :: (toList r ++ pathRight p)) :=
        List.Sublist.append (List.Sublist.refl _)
          (List.sublist_cons_of_sublist x (List.Sublist.refl _))
      refine ⟨hflag, ?_, ?_⟩
      · rw [hres]
        exact List.Pairwise.sublist hsub hsorted
      · obtain ⟨h1, h2, h3⟩ := List.pairwise_append.mp hsorted
        obtain ⟨h4, _⟩ := List.pairwise_cons.mp h2
        intro y
        rw [hres, htl]
        simp only [List.mem_append, List.mem_cons]
        constructor
        · intro hy
          rcases hy with hy | hy
          · exact ⟨Or.inl hy, ne_of_lt (h3 y (List.mem_append.mpr hy) x (by simp))⟩
          · exact ⟨Or.inr (Or.inr hy), ne_of_gt (h4 y (List.mem_append.mpr hy))⟩
        · intro ⟨hy, hne⟩
          rcases hy with hy | rfl | hy
          · exact Or.inl hy
          · exact absurd rfl hne
          · exact Or.inr hy

theorem erase_orderedA {t : ATree} {x : Int} (h : OrderedA t) :
    OrderedA (erase t x).2 := by
  by_cases hmem : x ∈ toList t
  · exact orderedA_iff_sorted.mpr ((erase_semanticsA t x h).2 hmem).2.1
  · rw [(erase_semanticsA t x h).1 hmem]
    exact h

end RBA

namespace RBA

open RB (Color Dir)

/-! ### Preservation of the stored-size invariant -/

/-- Every sibling hanging off the parent chain has consistent stored sizes. -/
def pathSibOk (p : APath) : Prop := ∀ f ∈ p, sizeOk f.sib = true

/-- The parent chain's stored sizes are exactly the recomputed ones for a
focus of size `n` (the fixpoints of `updSizes`). -/
def pathSzOk : Nat → APath → Prop
  | _, [] => True
  | n, f :: p =>
    f.sz = n + node_size f.sib + 1 ∧ sizeOk f.sib = true ∧ pathSzOk f.sz p

theorem mkNode_sizeOk {l r : ATree} (c : Color) (v : Int)
    (hl : sizeOk l = true) (hr : sizeOk r = true) :
    sizeOk (mkNode c l v r) = true := by
  simp [mkNode, sizeOk, hl, hr, node_size]

theorem node_size_mkNode (c : Color) (l : ATree) (v : Int) (r : ATree) :
    node_size (mkNode c l v r) = node_size l + node_size r + 1 := rfl

theorem frameNode_size (f : AFrame) (t : ATree) :
    node_size (frameNode f t) = f.sz := by
  obtain ⟨fd, fc, fsz, fv, fsib⟩ := f
  cases fd <;> rfl

theorem frameNode_sizeOk {f : AFrame} {t : ATree}
    (hsz : f.sz = node_size t + node_size f.sib + 1)
    (ht : sizeOk t = true) (hsib : sizeOk f.sib = true) :
    sizeOk (frameNode f t) = true := by
  obtain ⟨fd, fc, fsz, fv, fsib⟩ := f
  simp only at hsz hsib
  cases fd with
  | left =>
    simp only [frameNode, sizeOk, Bool.and_eq_true, beq_iff_eq]
    exact ⟨⟨ht, hsib⟩, hsz⟩
  | right =>
    simp only [frameNode, sizeOk, Bool.and_eq_true, beq_iff_eq]
    exact ⟨⟨hsib, ht⟩, by omega⟩

theorem pathSzOk_sibOk : ∀ (p : APath) (n : Nat), pathSzOk n p → pathSibOk p := by
  intro p
  induction p with
  | nil => intro n _ f hf; cases hf
  | cons g p ih =>
    intro n h f hf
    obtain ⟨h1, h2, h3⟩ := h
    rcases List.mem_cons.mp hf with rfl | hf
    · exact h2
    · exact ih g.sz h3 f hf

theorem plug_sizeOk : ∀ (p : APath) (t : ATree), sizeOk t = true →
    pathSzOk (node_size t) p → sizeOk (plug t p) = true := by
  intro p
  induction p with
  | nil => intro t ht _; exact ht
  | cons f p ih =>
    intro t ht hp
    obtain ⟨h1, h2, h3⟩ := hp
    have hfn : sizeOk (frameNode f t) = true := frameNode_sizeOk h1 ht h2
    have := ih (frameNode f t) hfn (by rw [frameNode_size]; exact h3)
    simpa [plug] using this

theorem updSizes_szOk : ∀ (p : APath) (t : ATree), pathSibOk p →
    pathSzOk (node_size t) (updSizes t p) := by
  intro p
  induction p with
  | nil => intro t _; exact trivial
  | cons f p ih =>
    intro t hp
    have hsib : sizeOk f.sib = true := hp f (by simp)
    have hp' : pathSibOk p := fun g hg => hp g (by simp [hg])
    refine ⟨rfl, hsib, ?_⟩
    have := ih (frameNode ⟨f.d, f.c, node_size t + node_size f.sib + 1, f.v, f.sib⟩ t) hp'
    rw [frameNode_size] at this
    exact this

theorem plugUpd_sizeOk (t : ATree) (p : APath) (ht : sizeOk t = true)
    (hp : pathSibOk p) : sizeOk (plugUpd t p) = true :=
  plug_sizeOk (updSizes t p) t ht (updSizes_szOk p t hp)

theorem reParent_sizeOk {f : AFrame} {t : ATree} (ht : sizeOk t = true)
    (hsib : sizeOk f.sib = true) : sizeOk (reParent f t) = true := by
  obtain ⟨fd, fc, fsz, fv, fsib⟩ := f
  simp only at hsib
  cases fd with
  | left => exact mkNode_sizeOk .black fv ht hsib
  | right => exact mkNode_sizeOk .black fv hsib ht

theorem insertCase5_sizeOk (t : ATree) (f g : AFrame) (p : APath)
    (ht : sizeOk t = true) (hf : sizeOk f.sib = true) (hg : sizeOk g.sib = true)
    (hp : pathSibOk p) : sizeOk (insertCase5 t f g p) = true := by
  obtain ⟨fd, fc, fsz, fv, fsib⟩ := f
  obtain ⟨gd, gc, gsz, gv, gsib⟩ := g
  simp only at hf hg
  cases fd with
  | left =>
    cases gd with
    | left =>
      exact plugUpd_sizeOk _ p
        (mkNode_sizeOk .black fv ht (mkNode_sizeOk .red gv hf hg)) hp
    | right =>
      exact plugUpd_sizeOk _ p
        (mkNode_sizeOk .red gv hg (mkNode_sizeOk .black fv ht hf)) hp
  | right =>
    cases gd with
    | left =>
      exact plugUpd_sizeOk _ p
        (mkNode_sizeOk .red gv (mkNode_sizeOk .black fv hf ht) hg) hp
    | right =>
      exact plugUpd_sizeOk _ p
        (mkNode_sizeOk .black fv (mkNode_sizeOk .red gv hg hf) ht) hp

theorem insertCase4_sizeOk (t : ATree) (f g : AFrame) (p : APath)
    (ht : sizeOk t = true) (hf : sizeOk f.sib = true) (hg : sizeOk g.sib = true)
    (hp : pathSibOk p) : sizeOk (insertCase4 t f g p) = true := by
  obtain ⟨fd, fc, fsz, fv, fsib⟩ := f
  obtain ⟨gd, gc, gsz, gv, gsib⟩ := g
  simp only at hf hg
  cases fd with
  | left =>
    cases gd with
    | left =>
      exact insertCase5_sizeOk t ⟨Dir.left, fc, fsz, fv, fsib⟩
        ⟨Dir.left, gc, gsz, gv, gsib⟩ p ht hf hg hp
    | right =>
      cases t with
      | nil =>
        exact insertCase5_sizeOk .nil ⟨Dir.left, fc, fsz, fv, fsib⟩
          ⟨Dir.right, gc, gsz, gv, gsib⟩ p ht hf hg hp
      | node tc tsz tl tv tr =>
        simp only [sizeOk, Bool.and_eq_true, beq_iff_eq] at ht
        obtain ⟨⟨htl, htr⟩, _⟩ := ht
        exact insertCase5_sizeOk (mkNode fc tr fv fsib) ⟨Dir.right, tc, 0, tv, tl⟩
          ⟨Dir.right, gc, gsz, gv, gsib⟩ p (mkNode_sizeOk fc fv htr hf) htl hg hp
  | right =>
    cases gd with
    | left =>
      cases t with
      | nil =>
        exact insertCase5_sizeOk .nil ⟨Dir.right, fc, fsz, fv, fsib⟩
          ⟨Dir.left, gc, gsz, gv, gsib⟩ p ht hf hg hp
      | node tc tsz tl tv tr =>
        simp only [sizeOk, Bool.and_eq_true, beq_iff_eq] at ht
        obtain ⟨⟨htl, htr⟩, _⟩ := ht
        exact insertCase5_sizeOk (mkNode fc fsib fv tl) ⟨Dir.left, tc, 0, tv, tr⟩
          ⟨Dir.left, gc, gsz, gv, gsib⟩ p (mkNode_sizeOk fc fv hf htl) htr hg hp
    | right =>
      exact insertCase5_sizeOk t ⟨Dir.right, fc, fsz, fv, fsib⟩
        ⟨Dir.right, gc, gsz, gv, gsib⟩ p ht hf hg hp

theorem insertFixup_sizeOk : ∀ (k : Nat) (p : APath) (t : ATree), p.length ≤ k →
    sizeOk t = true → pathSibOk p → sizeOk (insertFixup t p) = true := by
  intro k
  induction k with
  | zero =>
    intro p t hlen ht _
    have hp0 : p = [] := by
      cases p with
      | nil => rfl
      | cons f p => simp at hlen
    subst hp0
    rw [show insertFixup t [] = blacken t from rfl, sizeOk_blacken]
    exact ht
  | succ k ih =>
    intro p t hlen ht hp
    cases p with
    | nil =>
      rw [show insertFixup t [] = blacken t from rfl, sizeOk_blacken]
      exact ht
    | cons f p₁ =>
      by_cases hfc : f.c = Color.black
      · have heq : insertFixup t (f :: p₁) = plugUpd t (f :: p₁) := by
          rw [insertFixup.eq_def]
          simp [hfc]
        rw [heq]
        exact plugUpd_sizeOk t _ ht hp
      · have hfc' : f.c = Color.red := by
          cases hc : f.c with
          | red => rfl
          | black => exact absurd hc hfc
        cases p₁ with
        | nil =>
          have heq : insertFixup t [f] = plugUpd t [f] := by
            rw [insertFixup.eq_def]
            simp [hfc']
          rw [heq]
          exact plugUpd_sizeOk t _ ht hp
        | cons g p₂ =>
          have hlen₂ : p₂.length ≤ k := by simp at hlen; omega
          have hfsib : sizeOk f.sib = true := hp f (by simp)
          have hgsib : sizeOk g.sib = true := hp g (by simp)
          have hp₂ : pathSibOk p₂ := fun e he => hp e (by simp [he])
          by_cases hu : rootColor g.sib = Color.red
          · have heq : insertFixup t (f :: g :: p₂) =
                insertFixup
                  (match g.d with
                   | Dir.left => mkNode .red (reParent f t) g.v (blacken g.sib)
                   | Dir.right => mkNode .red (blacken g.sib) g.v (reParent f t))
                  p₂ := by
              rw [insertFixup.eq_def]
              simp [hfc', hu]
            rw [heq]
            cases hgd : g.d with
            | left =>
              refine ih p₂ _ hlen₂ ?_ hp₂
              exact mkNode_sizeOk .red g.v (reParent_sizeOk ht hfsib)
                (by rw [sizeOk_blacken]; exact hgsib)
            | right =>
              refine ih p₂ _ hlen₂ ?_ hp₂
              exact mkNode_sizeOk .red g.v (by rw [sizeOk_blacken]; exact hgsib)
                (reParent_sizeOk ht hfsib)
          · have heq : insertFixup t (f :: g :: p₂) = insertCase4 t f g p₂ := by
              rw [insertFixup.eq_def]
              simp [hfc', hu]
            rw [heq]
            exact insertCase4_sizeOk t f g p₂ ht hfsib hgsib hp₂

theorem locateIns_sibOkA : ∀ (t : ATree) (x : Int) (acc p : APath),
    sizeOk t = true → pathSibOk acc → locateIns t x acc = some p → pathSibOk p := by
  intro t
  induction t with
  | nil =>
    intro x acc p _ hacc h
    simp only [locateIns, Option.some.injEq] at h
    subst h
    exact hacc
  | node c sz l v r ihl ihr =>
    intro x acc p ht hacc h
    simp only [sizeOk, Bool.and_eq_true, beq_iff_eq] at ht
    obtain ⟨⟨hl, hr⟩, _⟩ := ht
    simp only [locateIns] at h
    by_cases h1 : x < v
    · rw [if_pos h1] at h
      refine ihl x _ p hl ?_ h
      intro f hf
      rcases List.mem_cons.mp hf with rfl | hf
      · exact hr
      · exact hacc f hf
    · rw [if_neg h1] at h
      by_cases h2 : v < x
      · rw [if_pos h2] at h
        refine ihr x _ p hr ?_ h
        intro f hf
        rcases List.mem_cons.mp hf with rfl | hf
        · exact hl
        · exact hacc f hf
      · rw [if_neg h2] at h
        cases h

theorem insert_sizeOkA (t : ATree) (x : Int) (ht : sizeOk t = true) :
    sizeOk (insert t x).2 = true := by
  cases hloc : locateIns t x [] with
  | none => simpa [insert, hloc] using ht
  | some p =>
    simp only [insert, hloc]
    exact insertFixup_sizeOk p.length p _ le_rfl
      (by simp [sizeOk, node_size])
      (locateIns_sibOkA t x [] p ht (fun f hf => by cases hf) hloc)

end RBA


namespace RBA

open RB (Color Dir)

theorem eraseCase4L_sizeOk (t s : ATree) (pc : Color) (pv : Int)
    (ht : sizeOk t = true) (hs : sizeOk s = true) :
    sizeOk (eraseCase4L t pc pv s) = true ∧
    node_size (eraseCase4L t pc pv s) = node_size t + node_size s + 1 := by
  rcases s with _ | ⟨sc, ssz, sl, sv, sr⟩
  · exact ⟨mkNode_sizeOk pc pv ht rfl, rfl⟩
  · simp only [sizeOk, Bool.and_eq_true, beq_iff_eq] at hs
    obtain ⟨⟨hsl, hsr⟩, hssz⟩ := hs
    constructor
    · exact mkNode_sizeOk pc sv (mkNode_sizeOk .black pv ht hsl)
        (by rw [sizeOk_blacken]; exact hsr)
    · simp only [eraseCase4L, node_size_mkNode, node_size_blacken]
      rw [show node_size (ATree.node sc ssz sl sv sr) = ssz from rfl, hssz]
      omega

theorem eraseCase4R_sizeOk (t s : ATree) (pc : Color) (pv : Int)
    (ht : sizeOk t = true) (hs : sizeOk s = true) :
    sizeOk (eraseCase4R t pc pv s) = true ∧
    node_size (eraseCase4R t pc pv s) = node_size s + node_size t + 1 := by
  rcases s with _ | ⟨sc, ssz, sl, sv, sr⟩
  · exact ⟨mkNode_sizeOk pc pv rfl ht, rfl⟩
  · simp only [sizeOk, Bool.and_eq_true, beq_iff_eq] at hs
    obtain ⟨⟨hsl, hsr⟩, hssz⟩ := hs
    constructor
    · exact mkNode_sizeOk pc sv (by rw [sizeOk_blacken]; exact hsl)
        (mkNode_sizeOk .black pv hsr ht)
    · simp only [eraseCase4R, node_size_mkNode, node_size_blacken]
      rw [show node_size (ATree.node sc ssz sl sv sr) = ssz from rfl, hssz]
      omega

theorem eraseCasesL_sizeOk (t s : ATree) (pc : Color) (psz : Nat) (pv : Int)
    (ht : sizeOk t = true) (hs : sizeOk s = true)
    (hpsz : psz = node_size t + node_size s + 1) :
    sizeOk (eraseCasesL t pc psz pv s).2 = true ∧
    node_size (eraseCasesL t pc psz pv s).2 = psz := by
  rcases s with _ | ⟨sc, ssz, sl, sv, sr⟩
  · have hred : eraseCasesL t pc psz pv ATree.nil =
        (true, ATree.node pc psz t pv ATree.nil) := by
      simp [eraseCasesL, leftChild, rightChild, rootColor, redden]
    rw [hred]
    constructor
    · simp only [sizeOk, Bool.and_eq_true, beq_iff_eq]
      exact ⟨⟨ht, trivial⟩, hpsz⟩
    · rfl
  · simp only [sizeOk, Bool.and_eq_true, beq_iff_eq] at hs
    obtain ⟨⟨hsl, hsr⟩, hssz⟩ := hs
    have hsz' : node_size (ATree.node sc ssz sl sv sr) = ssz := rfl
    by_cases hbb : rootColor sl = Color.black ∧ rootColor sr = Color.black
    · simp only [eraseCasesL, leftChild, rightChild]
      rw [if_pos hbb]
      constructor
      · simp only [sizeOk, Bool.and_eq_true, beq_iff_eq, sizeOk_redden]
        refine ⟨⟨ht, ⟨⟨hsl, hsr⟩, hssz⟩⟩, ?_⟩
        simp only [node_size_redden]
        exact hpsz
      · rfl
    · cases hcr : rootColor sr with
      | black =>
        rcases sl with _ | ⟨slc, slsz, sll, slv, slr⟩
        · exact absurd ⟨rfl, hcr⟩ hbb
        · simp only [sizeOk, Bool.and_eq_true, beq_iff_eq] at hsl
          obtain ⟨⟨hsll, hslr⟩, hslsz⟩ := hsl
          have hslred : ¬ rootColor (ATree.node slc slsz sll slv slr) = Color.black :=
            fun h => hbb ⟨h, hcr⟩
          have hred : eraseCasesL t pc psz pv
              (ATree.node sc ssz (ATree.node slc slsz sll slv slr) sv sr) =
              (false, eraseCase4L t pc pv
                (mkNode .black sll slv (mkNode .red slr sv sr))) := by
            simp [eraseCasesL, leftChild, rightChild, hbb, hcr, hslred]
          rw [hred]
          have h4 := eraseCase4L_sizeOk t
            (mkNode .black sll slv (mkNode .red slr sv sr)) pc pv ht
            (mkNode_sizeOk .black slv hsll (mkNode_sizeOk .red sv hslr hsr))
          refine ⟨h4.1, ?_⟩
          rw [h4.2, node_size_mkNode, node_size_mkNode, hpsz, hsz']
          rw [show node_size (ATree.node slc slsz sll slv slr) = slsz from rfl] at hssz
          omega
      | red =>
        have hred : eraseCasesL t pc psz pv (ATree.node sc ssz sl sv sr) =
            (false, eraseCase4L t pc pv (ATree.node sc ssz sl sv sr)) := by
          simp [eraseCasesL, leftChild, rightChild, hbb, hcr]
        rw [hred]
        have h4 := eraseCase4L_sizeOk t (ATree.node sc ssz sl sv sr) pc pv ht
          (by simp only [sizeOk, Bool.and_eq_true, beq_iff_eq]
              exact ⟨⟨hsl, hsr⟩, hssz⟩)
        refine ⟨h4.1, ?_⟩
        rw [h4.2, hpsz]

theorem eraseCasesR_sizeOk (t s : ATree) (pc : Color) (psz : Nat) (pv : Int)
    (ht : sizeOk t = true) (hs : sizeOk s = true)
    (hpsz : psz = node_size s + node_size t + 1) :
    sizeOk (eraseCasesR t pc psz pv s).2 = true ∧
    node_size (eraseCasesR t pc psz pv s).2 = psz := by
  rcases s with _ | ⟨sc, ssz, sl, sv, sr⟩
  · have hred : eraseCasesR t pc psz pv ATree.nil =
        (true, ATree.node pc psz ATree.nil pv t) := by
      simp [eraseCasesR, leftChild, rightChild, rootColor, redden]
    rw [hred]
    constructor
    · simp only [sizeOk, Bool.and_eq_true, beq_iff_eq]
      exact ⟨⟨trivial, ht⟩, hpsz⟩
    · rfl
  · simp only [sizeOk, Bool.and_eq_true, beq_iff_eq] at hs
    obtain ⟨⟨hsl, hsr⟩, hssz⟩ := hs
    have hsz' : node_size (ATree.node sc ssz sl sv sr) = ssz := rfl
    by_cases hbb : rootColor sr = Color.black ∧ rootColor sl = Color.black
    · simp only [eraseCasesR, leftChild, rightChild]
      rw [if_pos hbb]
      constructor
      · simp only [sizeOk, Bool.and_eq_true, beq_iff_eq, sizeOk_redden]
        refine ⟨⟨⟨⟨hsl, hsr⟩, hssz⟩, ht⟩, ?_⟩
        simp only [node_size_redden]
        exact hpsz
      · rfl
    · cases hcl : rootColor sl with
      | black =>
        rcases sr with _ | ⟨src, srsz, srl, srv, srr⟩
        · exact absurd ⟨rfl, hcl⟩ hbb
        · simp only [sizeOk, Bool.and_eq_true, beq_iff_eq] at hsr
          obtain ⟨⟨hsrl, hsrr⟩, hsrsz⟩ := hsr
          have hsrred : ¬ rootColor (ATree.node src srsz srl srv srr) = Color.black :=
            fun h => hbb ⟨h, hcl⟩
          have hred : eraseCasesR t pc psz pv
              (ATree.node sc ssz sl sv (ATree.node src srsz srl srv srr)) =
              (false, eraseCase4R t pc pv
                (mkNode .black (mkNode .red sl sv srl) srv srr)) := by
            simp [eraseCasesR, leftChild, rightChild, hbb, hcl, hsrred]
          rw [hred]
          have h4 := eraseCase4R_sizeOk t
            (mkNode .black (mkNode .red sl sv srl) srv srr) pc pv ht
            (mkNode_sizeOk .black srv (mkNode_sizeOk .red sv hsl hsrl) hsrr)
          refine ⟨h4.1, ?_⟩
          rw [h4.2, node_size_mkNode, node_size_mkNode, hpsz, hsz']
          rw [show node_size (ATree.node src srsz srl srv srr) = srsz from rfl] at hssz
          omega
      | red =>
        have hred : eraseCasesR t pc psz pv (ATree.node sc ssz sl sv sr) =
            (false, eraseCase4R t pc pv (ATree.node sc ssz sl sv sr)) := by
          simp [eraseCasesR, leftChild, rightChild, hbb, hcl]
        rw [hred]
        have h4 := eraseCase4R_sizeOk t (ATree.node sc ssz sl sv sr) pc pv ht
          (by simp only [sizeOk, Bool.and_eq_true, beq_iff_eq]
              exact ⟨⟨hsl, hsr⟩, hssz⟩)
        refine ⟨h4.1, ?_⟩
        rw [h4.2, hpsz]

end RBA

namespace RBA

open RB (Color Dir)

theorem eraseStepL_sizeOk (t s : ATree) (pc : Color) (psz : Nat) (pv : Int)
    (ht : sizeOk t = true) (hs : sizeOk s = true)
    (hpsz : psz = node_size t + node_size s + 1) :
    (∀ t', eraseStepL t pc psz pv s = .cont t' →
      sizeOk t' = true ∧ node_size t' = psz) ∧
    (∀ S, eraseStepL t pc psz pv s = .finishLocal S →
      sizeOk S = true ∧ node_size S = psz) ∧
    (∀ S, eraseStepL t pc psz pv s = .finishRoot S →
      sizeOk S = true ∧ node_size S = psz) := by
  rcases s with _ | ⟨sc, ssz, sl, sv, sr⟩
  · rcases heq : eraseCasesL t pc psz pv ATree.nil with ⟨b, u⟩
    have hu := eraseCasesL_sizeOk t ATree.nil pc psz pv ht rfl hpsz
    rw [heq] at hu
    cases b with
    | true =>
      refine ⟨?_, ?_, ?_⟩ <;> intro w hw <;> simp [eraseStepL, heq] at hw
      · rw [← hw]; exact hu
    | false =>
      refine ⟨?_, ?_, ?_⟩ <;> intro w hw <;> simp [eraseStepL, heq] at hw
      · rw [← hw]; exact hu
  · cases sc with
    | red =>
      simp only [sizeOk, Bool.and_eq_true, beq_iff_eq] at hs
      obtain ⟨⟨hsl, hsr⟩, hssz⟩ := hs
      rcases heq : eraseCasesL t Color.red (node_size t + node_size sl + 1) pv sl
        with ⟨b, u⟩
      have hu := eraseCasesL_sizeOk t sl Color.red (node_size t + node_size sl + 1)
        pv ht hsl rfl
      rw [heq] at hu
      cases b with
      | true =>
        refine ⟨?_, ?_, ?_⟩ <;> intro w hw <;> simp [eraseStepL, heq] at hw
        · rw [← hw]
          constructor
          · exact mkNode_sizeOk .black sv (by rw [sizeOk_blacken]; exact hu.1) hsr
          · rw [node_size_mkNode, node_size_blacken, hu.2, hpsz,
              show node_size (ATree.node Color.red ssz sl sv sr) = ssz from rfl, hssz]
            omega
      | false =>
        refine ⟨?_, ?_, ?_⟩ <;> intro w hw <;> simp [eraseStepL, heq] at hw
        · rw [← hw]
          constructor
          · exact mkNode_sizeOk .black sv hu.1 hsr
          · rw [node_size_mkNode, hu.2, hpsz,
              show node_size (ATree.node Color.red ssz sl sv sr) = ssz from rfl, hssz]
            omega
    | black =>
      rcases heq : eraseCasesL t pc psz pv (ATree.node Color.black ssz sl sv sr)
        with ⟨b, u⟩
      have hu := eraseCasesL_sizeOk t (ATree.node Color.black ssz sl sv sr) pc psz
        pv ht hs hpsz
      rw [heq] at hu
      cases b with
      | true =>
        refine ⟨?_, ?_, ?_⟩ <;> intro w hw <;> simp [eraseStepL, heq] at hw
        · rw [← hw]; exact hu
      | false =>
        refine ⟨?_, ?_, ?_⟩ <;> intro w hw <;> simp [eraseStepL, heq] at hw
        · rw [← hw]; exact hu

theorem eraseStepR_sizeOk (t s : ATree) (pc : Color) (psz : Nat) (pv : Int)
    (ht : sizeOk t = true) (hs : sizeOk s = true)
    (hpsz : psz = node_size s + node_size t + 1) :
    (∀ t', eraseStepR t pc psz pv s = .cont t' →
      sizeOk t' = true ∧ node_size t' = psz) ∧
    (∀ S, eraseStepR t pc psz pv s = .finishLocal S →
      sizeOk S = true ∧ node_size S = psz) ∧
    (∀ S, eraseStepR t pc psz pv s = .finishRoot S →
      sizeOk S = true ∧ node_size S = psz) := by
  rcases s with _ | ⟨sc, ssz, sl, sv, sr⟩
  · rcases heq : eraseCasesR t pc psz pv ATree.nil with ⟨b, u⟩
    have hu := eraseCasesR_sizeOk t ATree.nil pc psz pv ht rfl hpsz
    rw [heq] at hu
    cases b with
    | true =>
      refine ⟨?_, ?_, ?_⟩ <;> intro w hw <;> simp [eraseStepR, heq] at hw
      · rw [← hw]; exact hu
    | false =>
      refine ⟨?_, ?_, ?_⟩ <;> intro w hw <;> simp [eraseStepR, heq] at hw
      · rw [← hw]; exact hu
  · cases sc with
    | red =>
      simp only [sizeOk, Bool.and_eq_true, beq_iff_eq] at hs
      obtain ⟨⟨hsl, hsr⟩, hssz⟩ := hs
      rcases heq : eraseCasesR t Color.red (node_size sr + node_size t + 1) pv sr
        with ⟨b, u⟩
      have hu := eraseCasesR_sizeOk t sr Color.red (node_size sr + node_size t + 1)
        pv ht hsr rfl
      rw [heq] at hu
      cases b with
      | true =>
        refine ⟨?_, ?_, ?_⟩ <;> intro w hw <;> simp [eraseStepR, heq] at hw
        · rw [← hw]
          constructor
          · exact mkNode_sizeOk .black sv hsl (by rw [sizeOk_blacken]; exact hu.1)
          · rw [node_size_mkNode, node_size_blacken, hu.2, hpsz,
              show node_size (ATree.node Color.red ssz sl sv sr) = ssz from rfl, hssz]
            omega
      | false =>
        refine ⟨?_, ?_, ?_⟩ <;> intro w hw <;> simp [eraseStepR, heq] at hw
        · rw [← hw]
          constructor
          · exact mkNode_sizeOk .black sv hsl hu.1
          · rw [node_size_mkNode, hu.2, hpsz,
              show node_size (ATree.node Color.red ssz sl sv sr) = ssz from rfl, hssz]
            omega
    | black =>
      rcases heq : eraseCasesR t pc psz pv (ATree.node Color.black ssz sl sv sr)
        with ⟨b, u⟩
      have hu := eraseCasesR_sizeOk t (ATree.node Color.black ssz sl sv sr) pc psz
        pv ht hs hpsz
      rw [heq] at hu
      cases b with
      | true =>
        refine ⟨?_, ?_, ?_⟩ <;> intro w hw <;> simp [eraseStepR, heq] at hw
        · rw [← hw]; exact hu
      | false =>
        refine ⟨?_, ?_, ?_⟩ <;> intro w hw <;> simp [eraseStepR, heq] at hw
        · rw [← hw]; exact hu

theorem delMin_szA : ∀ (t : ATree), sizeOk t = true →
    sizeOk (delMin t).2.2.1 = true ∧ pathSibOk (delMin t).2.2.2 := by
  intro t
  induction t with
  | nil => intro _; exact ⟨rfl, fun f hf => by cases hf⟩
  | node c sz l v r ihl ihr =>
    intro ht
    clear ihr
    simp only [sizeOk, Bool.and_eq_true, beq_iff_eq] at ht
    obtain ⟨⟨hl, hr⟩, _⟩ := ht
    cases l with
    | nil => exact ⟨hr, fun f hf => by cases hf⟩
    | node lc lsz ll lv lr =>
      rcases hdm : delMin (ATree.node lc lsz ll lv lr) with ⟨mc, mv, x, ip⟩
      have hih := ihl hl
      rw [hdm] at hih
      simp only at hih
      have hgoal : delMin (ATree.node c sz (ATree.node lc lsz ll lv lr) v r) =
          (mc, mv, x, ip ++ [⟨Dir.left, c, sz, v, r⟩]) := by
        simp [delMin, hdm]
      rw [hgoal]
      refine ⟨hih.1, ?_⟩
      intro f hf
      rcases List.mem_append.mp hf with hf | hf
      · exact hih.2 f hf
      · rcases List.mem_singleton.mp hf with rfl
        exact hr

theorem locateDel_sibOkA : ∀ (t : ATree) (x : Int) (acc : APath) (z : ATree)
    (p : APath), sizeOk t = true → pathSibOk acc →
    locateDel t x acc = some (z, p) → sizeOk z = true ∧ pathSibOk p := by
  intro t
  induction t with
  | nil => intro x acc z p _ _ h; simp [locateDel] at h
  | node c sz l v r ihl ihr =>
    intro x acc z p ht hacc h
    have ht' := ht
    simp only [sizeOk, Bool.and_eq_true, beq_iff_eq] at ht
    obtain ⟨⟨hl, hr⟩, _⟩ := ht
    simp only [locateDel] at h
    by_cases h1 : x < v
    · rw [if_pos h1] at h
      refine ihl x _ z p hl ?_ h
      intro f hf
      rcases List.mem_cons.mp hf with rfl | hf
      · exact hr
      · exact hacc f hf
    · rw [if_neg h1] at h
      by_cases h2 : v < x
      · rw [if_pos h2] at h
        refine ihr x _ z p hr ?_ h
        intro f hf
        rcases List.mem_cons.mp hf with rfl | hf
        · exact hl
        · exact hacc f hf
      · rw [if_neg h2] at h
        simp only [Option.some.injEq, Prod.mk.injEq] at h
        rw [← h.1, ← h.2]
        exact ⟨ht', hacc⟩

theorem eraseFixup_sizeOkA : ∀ (p : APath) (t : ATree), sizeOk t = true →
    pathSzOk (node_size t) p → sizeOk (eraseFixup t p) = true := by
  intro p
  induction p with
  | nil =>
    intro t ht _
    rw [show eraseFixup t [] = blacken t from rfl, sizeOk_blacken]
    exact ht
  | cons f p ih =>
    intro t ht hp
    obtain ⟨hsz, hsib, hrest⟩ := hp
    by_cases hredt : rootColor t = .red
    · have heq : eraseFixup t (f :: p) = plug (blacken t) (f :: p) := by
        rw [eraseFixup.eq_def]
        simp [hredt]
      rw [heq]
      refine plug_sizeOk (f :: p) (blacken t) (by rw [sizeOk_blacken]; exact ht) ?_
      rw [node_size_blacken]
      exact ⟨hsz, hsib, hrest⟩
    · have htb : rootColor t = .black := by
        cases h : rootColor t with
        | black => rfl
        | red => exact absurd h hredt
      obtain ⟨fd, fc, fsz, fv, s⟩ := f
      simp only at hsz hsib hrest
      have hstep : eraseFixup t (⟨fd, fc, fsz, fv, s⟩ :: p) =
          match (match fd with
                 | Dir.left => eraseStepL t fc fsz fv s
                 | Dir.right => eraseStepR t fc fsz fv s) with
          | StepRes.cont t' => eraseFixup t' p
          | StepRes.finishLocal S => plugUpd S p
          | StepRes.finishRoot S => blacken (plugUpd S p) := by
        rw [eraseFixup.eq_def]
        simp [htb]
      rw [hstep]
      cases fd with
      | left =>
        obtain ⟨hcont, hlocal, hroot⟩ := eraseStepL_sizeOk t s fc fsz fv ht hsib hsz
        rcases hs : eraseStepL t fc fsz fv s with t' | S | S
        · rw [show (match StepRes.cont t' with
              | StepRes.cont t' => eraseFixup t' p
              | StepRes.finishLocal S => plugUpd S p
              | StepRes.finishRoot S => blacken (plugUpd S p)) = eraseFixup t' p from rfl]
          obtain ⟨ht', hn'⟩ := hcont t' hs
          refine ih t' ht' ?_
          rw [hn']
          exact hrest
        · rw [show (match StepRes.finishLocal S with
              | StepRes.cont t' => eraseFixup t' p
              | StepRes.finishLocal S => plugUpd S p
              | StepRes.finishRoot S => blacken (plugUpd S p)) = plugUpd S p from rfl]
          exact plugUpd_sizeOk S p (hlocal S hs).1 (pathSzOk_sibOk p fsz hrest)
        · rw [show (match StepRes.finishRoot S with
              | StepRes.cont t' => eraseFixup t' p
              | StepRes.finishLocal S => plugUpd S p
              | StepRes.finishRoot S => blacken (plugUpd S p)) =
              blacken (plugUpd S p) from rfl, sizeOk_blacken]
          exact plugUpd_sizeOk S p (hroot S hs).1 (pathSzOk_sibOk p fsz hrest)
      | right =>
        obtain ⟨hcont, hlocal, hroot⟩ := eraseStepR_sizeOk t s fc fsz fv ht hsib
          (by omega)
        rcases hs : eraseStepR t fc fsz fv s with t' | S | S
        · rw [show (match StepRes.cont t' with
              | StepRes.cont t' => eraseFixup t' p
              | StepRes.finishLocal S => plugUpd S p
              | StepRes.finishRoot S => blacken (plugUpd S p)) = eraseFixup t' p from rfl]
          obtain ⟨ht', hn'⟩ := hcont t' hs
          refine ih t' ht' ?_
          rw [hn']
          exact hrest
        · rw [show (match StepRes.finishLocal S with
              | StepRes.cont t' => eraseFixup t' p
              | StepRes.finishLocal S => plugUpd S p
              | StepRes.finishRoot S => blacken (plugUpd S p)) = plugUpd S p from rfl]
          exact plugUpd_sizeOk S p (hlocal S hs).1 (pathSzOk_sibOk p fsz hrest)
        · rw [show (match StepRes.finishRoot S with
              | StepRes.cont t' => eraseFixup t' p
              | StepRes.finishLocal S => plugUpd S p
              | StepRes.finishRoot S => blacken (plugUpd S p)) =
              blacken (plugUpd S p) from rfl, sizeOk_blacken]
          exact plugUpd_sizeOk S p (hroot S hs).1 (pathSzOk_sibOk p fsz hrest)

theorem erase_sizeOkA (t : ATree) (x : Int) (ht : sizeOk t = true) :
    sizeOk (erase t x).2 = true := by
  cases hloc : locateDel t x [] with
  | none => simpa [erase, hloc] using ht
  | some zp =>
    obtain ⟨z, p⟩ := zp
    obtain ⟨hz, hp⟩ := locateDel_sibOkA t x [] z p ht (fun f hf => by cases hf) hloc
    cases z with
    | nil => simpa [erase, hloc] using ht
    | node c sz l v r =>
      unfold erase
      rw [hloc]
      simp only
      simp only [sizeOk, Bool.and_eq_true, beq_iff_eq] at hz
      obtain ⟨⟨hzl, hzr⟩, _⟩ := hz
      cases l with
      | nil =>
        rw [show detach c sz .nil v r p = (c, r, updSizes r p) from by simp [detach]]
        simp only
        have hsz : pathSzOk (node_size r) (updSizes r p) := updSizes_szOk p r hp
        cases c with
        | black =>
          rw [if_pos rfl]
          exact eraseFixup_sizeOkA (updSizes r p) r hzr hsz
        | red =>
          rw [if_neg (by intro h; cases h)]
          exact plug_sizeOk (updSizes r p) r hzr hsz
      | node lc lsz ll lv lr =>
        cases r with
        | nil =>
          rw [show detach c sz (.node lc lsz ll lv lr) v .nil p =
              (c, .node lc lsz ll lv lr, updSizes (.node lc lsz ll lv lr) p) from by
            simp [detach]]
          simp only
          have hsz : pathSzOk (node_size (ATree.node lc lsz ll lv lr))
              (updSizes (ATree.node lc lsz ll lv lr) p) :=
            updSizes_szOk p (ATree.node lc lsz ll lv lr) hp
          cases c with
          | black =>
            rw [if_pos rfl]
            exact eraseFixup_sizeOkA _ _ hzl hsz
          | red =>
            rw [if_neg (by intro h; cases h)]
            exact plug_sizeOk _ _ hzl hsz
        | node rc rsz rl rv rr =>
          rcases hdm : delMin (.node rc rsz rl rv rr) with ⟨mc, mv, x', ip⟩
          rw [show detach c sz (.node lc lsz ll lv lr) v (.node rc rsz rl rv rr) p =
              (mc, x', updSizes x'
                (ip ++ ⟨Dir.right, c, sz, mv, .node lc lsz ll lv lr⟩ :: p)) from by
            simp [detach, hdm]]
          simp only
          have hdm' := delMin_szA (.node rc rsz rl rv rr) hzr
          rw [hdm] at hdm'
          simp only at hdm'
          have hq : pathSibOk
              (ip ++ ⟨Dir.right, c, sz, mv, ATree.node lc lsz ll lv lr⟩ :: p) := by
            intro f hf
            rcases List.mem_append.mp hf with hf | hf
            · exact hdm'.2 f hf
            · rcases List.mem_cons.mp hf with rfl | hf
              · exact hzl
              · exact hp f hf
          have hsz : pathSzOk (node_size x') (updSizes x'
              (ip ++ ⟨Dir.right, c, sz, mv, ATree.node lc lsz ll lv lr⟩ :: p)) :=
            updSizes_szOk _ x' hq
          cases mc with
          | black =>
            rw [if_pos rfl]
            exact eraseFixup_sizeOkA _ _ hdm'.1 hsz
          | red =>
            rw [if_neg (by intro h; cases h)]
            exact plug_sizeOk _ _ hdm'.1 hsz

end RBA

namespace RBA

/-- Operations driving the augmented tree. -/
inductive AOp where
  | ins (v : Int)
  | del (v : Int)

def applyOpA (t : ATree) : AOp → ATree
  | .ins v => (insert t v).2
  | .del v => (erase t v).2

def applyOpsA (ops : List AOp) : ATree := ops.foldl applyOpA .nil

/-- The set of distinct values inserted and not subsequently erased. -/
def liveStep (s : Finset Int) : AOp → Finset Int
  | .ins v => Insert.insert v s
  | .del v => Finset.erase s v

def liveSet (ops : List AOp) : Finset Int := ops.foldl liveStep ∅

theorem applyOpsA_inv (ops : List AOp) :
    sizeOk (applyOpsA ops) = true ∧ OrderedA (applyOpsA ops) ∧
    ∀ x : Int, x ∈ toList (applyOpsA ops) ↔ x ∈ liveSet ops := by
  have hgen : ∀ (l : List AOp) (t : ATree) (s : Finset Int),
      sizeOk t = true → OrderedA t → (∀ x : Int, x ∈ toList t ↔ x ∈ s) →
      sizeOk (l.foldl applyOpA t) = true ∧ OrderedA (l.foldl applyOpA t) ∧
      ∀ x : Int, x ∈ toList (l.foldl applyOpA t) ↔ x ∈ l.foldl liveStep s := by
    intro l
    induction l with
    | nil => intro t s h1 h2 h3; exact ⟨h1, h2, h3⟩
    | cons op l ih =>
      intro t s h1 h2 h3
      cases op with
      | ins v =>
        refine ih (insert t v).2 (Insert.insert v s) (insert_sizeOkA t v h1)
          (insert_orderedA h2) ?_
        intro x
        rw [Finset.mem_insert]
        by_cases hmem : v ∈ toList t
        · rw [(insert_semanticsA t v h2).1 hmem]
          rw [h3 x]
          constructor
          · intro h; exact Or.inr h
          · intro h
            rcases h with rfl | h
            · exact (h3 _).mp hmem
            · exact h
        · rw [((insert_semanticsA t v h2).2 hmem).2.2 x, h3 x]
      | del v =>
        refine ih (erase t v).2 (Finset.erase s v) (erase_sizeOkA t v h1)
          (erase_orderedA h2) ?_
        intro x
        rw [Finset.mem_erase]
        by_cases hmem : v ∈ toList t
        · rw [((erase_semanticsA t v h2).2 hmem).2.2 x, h3 x]
          constructor
          · intro h; exact ⟨h.2, h.1⟩
          · intro h; exact ⟨h.2, h.1⟩
        · rw [(erase_semanticsA t v h2).1 hmem, h3 x]
          have hv : v ∉ s := fun hvs => hmem ((h3 v).mpr hvs)
          constructor
          · intro h
            refine ⟨?_, h⟩
            intro he
            exact hv (he ▸ h)
          · intro h; exact h.2
  exact hgen ops .nil ∅ rfl OrderedA.nil (by simp [toList])

end RBA

/-- C5: after any sequence of `insert` and `erase` calls on the augmented
tree, every node's stored subtree-size field equals 1 plus the stored sizes
of its children (0 for an absent child), and `size()` equals the number of
distinct values inserted and not subsequently erased. -/
theorem C5_subtree_size_fields_and_size (ops : List RBA.AOp) :
    RBA.sizeOk (RBA.applyOpsA ops) = true ∧
    RBA.size (RBA.applyOpsA ops) = (RBA.liveSet ops).card := by
  obtain ⟨h1, h2, h3⟩ := RBA.applyOpsA_inv ops
  refine ⟨h1, ?_⟩
  rw [RBA.size, RBA.node_size_eq_length h1]
  have hnd : (RBA.toList (RBA.applyOpsA ops)).Nodup :=
    (RBA.orderedA_iff_sorted.mp h2).nodup
  rw [← List.toFinset_card_of_nodup hnd]
  congr 1
  ext x
  rw [List.mem_toFinset]
  exact h3 x

namespace RBA

open RB (Color Dir)

/-! ### The in-order iterator of the augmented tree

`minimum` (part_003 lines 644-649) and `next` (lines 660-673) walk child and
parent pointers; on the zipper a position is a focused subtree together with
its parent chain, `minimum` descends left pushing frames, and the ascent of
`next` pops frames while the position is a right child. -/

/-- `minimum(node)` as a position: descend to the leftmost node. -/
def minPos : ATree → APath → Option (ATree × APath)
  | .nil, _ => none
  | .node c sz .nil v r, p => some (.node c sz .nil v r, p)
  | .node c sz (.node lc lsz ll lv lr) v r, p =>
    minPos (.node lc lsz ll lv lr) (⟨.left, c, sz, v, r⟩ :: p)

/-- The ascent of `next`: climb while the current node is a right child,
stop at the first ancestor reached from its left child (`nullptr` = `none`
past the end). -/
def climb : ATree → APath → Option (ATree × APath)
  | _, [] => none
  | t, f :: p =>
    match f.d with
    | Dir.right => climb (frameNode f t) p
    | Dir.left => some (frameNode f t, p)

/-- `next(node)` (part_003 lines 660-673): minimum of the right subtree when
non-empty, else the nearest ancestor reached through a left-child step. -/
def nextPos : ATree → APath → Option (ATree × APath)
  | .nil, _ => none
  | .node c sz l v .nil, p => climb (.node c sz l v .nil) p
  | .node c sz l v (.node rc rsz rl rv rr), p =>
    minPos (.node rc rsz rl rv rr) (⟨.right, c, sz, v, l⟩ :: p)

/-- The value sequence visited by repeated `operator++` from a position,
with enough fuel. -/
def iterFrom : Nat → Option (ATree × APath) → List Int
  | 0, _ => []
  | _ + 1, none => []
  | k + 1, some (t, p) =>
    match t with
    | .nil => []
    | .node _ _ _ v _ => v :: iterFrom k (nextPos t p)

/-- The full `begin()`-to-`end()` traversal. -/
def iter (t : ATree) : List Int := iterFrom (toList t).length (minPos t [])

theorem iterFrom_none : ∀ k : Nat, iterFrom k none = [] := by
  intro k
  cases k <;> rfl

theorem minPos_spec : ∀ (t : ATree) (p : APath), t ≠ .nil →
    ∃ c sz v r q, minPos t p = some (.node c sz .nil v r, q) ∧
      v :: (toList r ++ pathRight q) = toList t ++ pathRight p := by
  intro t
  induction t with
  | nil => intro p h; exact absurd rfl h
  | node c sz l v r ihl ihr =>
    intro p _
    clear ihr
    cases l with
    | nil =>
      refine ⟨c, sz, v, r, p, rfl, ?_⟩
      simp [toList]
    | node lc lsz ll lv lr =>
      obtain ⟨c', sz', v', r', q, heq, hlist⟩ :=
        ihl (⟨Dir.left, c, sz, v, r⟩ :: p) (by intro h; cases h)
      refine ⟨c', sz', v', r', q, heq, ?_⟩
      rw [hlist]
      simp [toList, pathRight]

theorem climb_spec : ∀ (p : APath) (t : ATree),
    (climb t p = none → pathRight p = []) ∧
    (∀ q, ¬ climb t p = some (.nil, q)) ∧
    (∀ c sz l v r q, climb t p = some (.node c sz l v r, q) →
      v :: (toList r ++ pathRight q) = pathRight p) := by
  intro p
  induction p with
  | nil =>
    intro t
    refine ⟨fun _ => rfl, ?_, ?_⟩
    · intro q h; cases h
    · intro c sz l v r q h; cases h
  | cons f p ih =>
    intro t
    obtain ⟨fd, fc, fsz, fv, fsib⟩ := f
    cases fd with
    | right =>
      have heq : climb t (⟨Dir.right, fc, fsz, fv, fsib⟩ :: p) =
          climb (frameNode ⟨Dir.right, fc, fsz, fv, fsib⟩ t) p := rfl
      obtain ⟨h1, h2, h3⟩ := ih (frameNode ⟨Dir.right, fc, fsz, fv, fsib⟩ t)
      refine ⟨?_, ?_, ?_⟩
      · intro h
        rw [heq] at h
        rw [show pathRight (⟨Dir.right, fc, fsz, fv, fsib⟩ :: p) = pathRight p
          from rfl]
        exact h1 h
      · intro q h
        rw [heq] at h
        exact h2 q h
      · intro c sz l v r q h
        rw [heq] at h
        rw [show pathRight (⟨Dir.right, fc, fsz, fv, fsib⟩ :: p) = pathRight p
          from rfl]
        exact h3 c sz l v r q h
    | left =>
      have heq : climb t (⟨Dir.left, fc, fsz, fv, fsib⟩ :: p) =
          some (ATree.node fc fsz t fv fsib, p) := rfl
      refine ⟨?_, ?_, ?_⟩
      · intro h
        rw [heq] at h
        cases h
      · intro q h
        rw [heq] at h
        simp at h
      · intro c sz l v r q h
        rw [heq] at h
        simp only [Option.some.injEq, Prod.mk.injEq, ATree.node.injEq] at h
        obtain ⟨⟨_, _, _, hv, hr⟩, hq⟩ := h
        subst hv
        subst hr
        subst hq
        rfl

theorem nextPos_spec (c : Color) (sz : Nat) (l : ATree) (v : Int) (r : ATree)
    (p : APath) :
    (nextPos (.node c sz l v r) p = none → toList r ++ pathRight p = []) ∧
    (∀ q, ¬ nextPos (.node c sz l v r) p = some (.nil, q)) ∧
    (∀ c' sz' l' v' r' q,
      nextPos (.node c sz l v r) p = some (.node c' sz' l' v' r', q) →
      v' :: (toList r' ++ pathRight q) = toList r ++ pathRight p) := by
  cases r with
  | nil =>
    have heq : nextPos (.node c sz l v .nil) p = climb (.node c sz l v .nil) p := rfl
    obtain ⟨h1, h2, h3⟩ := climb_spec p (.node c sz l v .nil)
    refine ⟨?_, ?_, ?_⟩
    · intro h
      rw [heq] at h
      rw [show toList ATree.nil = [] from rfl, List.nil_append]
      exact h1 h
    · intro q h
      rw [heq] at h
      exact h2 q h
    · intro c' sz' l' v' r' q h
      rw [heq] at h
      rw [show toList ATree.nil = [] from rfl, List.nil_append]
      exact h3 c' sz' l' v' r' q h
  | node rc rsz rl rv rr =>
    have heq : nextPos (.node c sz l v (.node rc rsz rl rv rr)) p =
        minPos (.node rc rsz rl rv rr) (⟨Dir.right, c, sz, v, l⟩ :: p) := rfl
    obtain ⟨c', sz', v', r', q, hmin, hlist⟩ :=
      minPos_spec (.node rc rsz rl rv rr) (⟨Dir.right, c, sz, v, l⟩ :: p)
        (by intro h; cases h)
    rw [show pathRight (⟨Dir.right, c, sz, v, l⟩ :: p) = pathRight p from rfl]
      at hlist
    refine ⟨?_, ?_, ?_⟩
    · intro h
      rw [heq, hmin] at h
      cases h
    · intro q' h
      rw [heq, hmin] at h
      simp at h
    · intro c'' sz'' l'' v'' r'' q' h
      rw [heq, hmin] at h
      simp only [Option.some.injEq, Prod.mk.injEq, ATree.node.injEq] at h
      obtain ⟨⟨_, _, _, hv, hr⟩, hq⟩ := h
      subst hv
      subst hr
      subst hq
      exact hlist

theorem iterFrom_spec : ∀ (k : Nat) (c : Color) (sz : Nat) (l : ATree) (v : Int)
    (r : ATree) (p : APath),
    (toList r ++ pathRight p).length + 1 ≤ k →
    iterFrom k (some (.node c sz l v r, p)) = v :: (toList r ++ pathRight p) := by
  intro k
  induction k with
  | zero => intro c sz l v r p hk; simp at hk
  | succ k ih =>
    intro c sz l v r p hk
    rw [show iterFrom (k + 1) (some (.node c sz l v r, p)) =
        v :: iterFrom k (nextPos (.node c sz l v r) p) from rfl]
    obtain ⟨h1, h2, h3⟩ := nextPos_spec c sz l v r p
    cases hnp : nextPos (.node c sz l v r) p with
    | none =>
      rw [iterFrom_none, h1 hnp]
    | some pos =>
      obtain ⟨z, q⟩ := pos
      cases z with
      | nil => exact absurd hnp (h2 q)
      | node c' sz' l' v' r' =>
        have hlist := h3 c' sz' l' v' r' q hnp
        have hlen : (toList r' ++ pathRight q).length + 1 ≤ k := by
          have : (v' :: (toList r' ++ pathRight q)).length =
              (toList r ++ pathRight p).length := by rw [hlist]
          simp only [List.length_cons] at this
          omega
        rw [ih c' sz' l' v' r' q hlen, hlist]

/-- The traversal from `begin()` to `end()` is exactly the in-order value
sequence. -/
theorem iter_eq_toList (t : ATree) : iter t = toList t := by
  cases t with
  | nil => rfl
  | node c sz l v r =>
    unfold iter
    obtain ⟨c', sz', v', r', q, hmin, hlist⟩ :=
      minPos_spec (.node c sz l v r) [] (by intro h; cases h)
    rw [hmin]
    rw [show pathRight ([] : APath) = [] from rfl, List.append_nil] at hlist
    have hlen : (toList r' ++ pathRight q).length + 1 ≤
        (toList (ATree.node c sz l v r)).length := by
      have : (v' :: (toList r' ++ pathRight q)).length =
          (toList (ATree.node c sz l v r)).length := by rw [hlist]
      simp only [List.length_cons] at this
      omega
    rw [iterFrom_spec _ c' sz' .nil v' r' q hlen, hlist]

end RBA

/-- C7: on every ordered tree state (all reachable states are ordered), the
iteration that starts at `begin()` (the minimum) and repeatedly takes the
successor — minimum of the right subtree when non-empty, else the nearest
ancestor reached through a left-child step, past-the-end when none — visits
each stored value exactly once, in strictly increasing order. -/
theorem C7_iterator_inorder (t : RBA.ATree) (h : RBA.OrderedA t) :
    RBA.iter t = RBA.toList t ∧
    List.Sorted (· < ·) (RBA.iter t) ∧ (RBA.iter t).Nodup := by
  have he := RBA.iter_eq_toList t
  have hs := RBA.orderedA_iff_sorted.mp h
  rw [he]
  exact ⟨rfl, hs, hs.nodup⟩

/-- Witness for C7 on the ordered tree `{1, 2, 3}`. -/
theorem C7_iterator_inorder_witness :
    RBA.iter (.node .black 3 (.node .red 1 .nil 1 .nil) 2
        (.node .red 1 .nil 3 .nil)) =
      RBA.toList (.node .black 3 (.node .red 1 .nil 1 .nil) 2
        (.node .red 1 .nil 3 .nil)) ∧
    List.Sorted (· < ·) (RBA.iter (.node .black 3 (.node .red 1 .nil 1 .nil) 2
        (.node .red 1 .nil 3 .nil))) ∧
    (RBA.iter (.node .black 3 (.node .red 1 .nil 1 .nil) 2
        (.node .red 1 .nil 3 .nil))).Nodup :=
  C7_iterator_inorder
    (.node .black 3 (.node .red 1 .nil 1 .nil) 2 (.node .red 1 .nil 3 .nil))
    (RBA.orderedA_iff_sorted.mpr (by decide))
